import Mathlib

/-!
# memsim: a page-replacement simulator

Shallow embedding of `src/memsim/memsim.c` and `src/memsim/memsim.h`.

* C `int` values are `Int`.  The only `int` that can leave the 32-bit range in
  a run is the logical clock `_time` (one tick per event), so `_time++` is
  checked against `INT_MAX`; every other `int` of the simulator is bounded by
  `numFrames`, `NUM_PAGES` or the number of events.
* The two heap arrays are total functions on `Int`; every array access of the
  source is guarded by its bounds in the model, and an access outside the
  bounds is the fault `Fault.undefined` (undefined behaviour in C).
* The file-level statics are the fields of `MMU`.
* `rand()` is an oracle: the list of raw values that the next calls return.
* `RAND_MAX` comes from the C library and is a parameter.
-/

namespace Memsim

/-! ## Constants and data types (memsim.h) -/

/-- Largest value of a 32-bit C int. -/
def INT_MAX : Int := 2147483647

/-- Number of virtual pages, the constant NUM_PAGES = 1u << 20 of memsim.h. -/
def NUM_PAGES : Int := 1048576

/-- Page size is 4 KB, a 12-bit offset (memsim.c line 9). -/
def pageoffset : Nat := 12

/-- Modulus of unsigned 32-bit arithmetic. -/
def UINT_MOD : Nat := 4294967296

/-- Returned by replacePage: the page that was evicted. -/
structure evicted_page where
  vpn : Int
  dirty : Int
deriving DecidableEq, Repr

/-- Per-frame meta-data. -/
structure frame_entry where
  vpn : Int
  dirty : Int
  access_time : Int
  ref : Int
deriving DecidableEq, Repr

/-- Replacement policies. -/
inductive repl where
  | _random
  | fifo
  | lru
  | _clock
  | _clock_clean
deriving DecidableEq, Repr

/-- Ways in which a call does not return normally. -/
inductive Fault where
  /-- undefined behaviour in C: array access out of bounds, signed overflow,
  remainder by zero -/
  | undefined
  /-- the guard of memsim.c lines 139-144: exit(EXIT_FAILURE) -/
  | victim_not_set
  /-- the rejection loop of the random policy used up the oracle -/
  | no_rand
  /-- a loop of the model ran out of fuel -/
  | no_fuel
  /-- the driver met a record whose access kind is neither R nor W -/
  | malformed
deriving DecidableEq, Repr

/-- Global simulator state: the statics of memsim.c lines 12-20. -/
structure MMU where
  numFrames : Int
  page_table : Int → Int
  frame_data : Int → frame_entry
  _time : Int
  clock_hand : Int
  fifo_hand : Int
  next_frame : Int

/-- State of the statics when the program starts: the counters are 0 and the
two pointers are not yet allocated (no function other than createMMU is
applied to this state). -/
def boot : MMU :=
  { numFrames := 0
    page_table := fun _ => 0
    frame_data := fun _ => { vpn := 0, dirty := 0, access_time := 0, ref := 0 }
    _time := 0
    clock_hand := 0
    fifo_hand := 0
    next_frame := 0 }

/-! ## createMMU, checkInMemory, allocateFrame -/

/-- createMMU (memsim.c lines 22-40).  The argument heap_ok says whether malloc
and calloc both succeed; the result none is the return value -1 and
some s is the return value 0 with the statics s.  Only numFrames, page_table
and frame_data are assigned. -/
def createMMU (s : MMU) (frames : Int) (heap_ok : Bool) : Option MMU :=
  if heap_ok then
    some { s with
      numFrames := frames
      page_table := fun _ => -1
      frame_data := fun _ => { vpn := -1, dirty := 0, access_time := 0, ref := 0 } }
  else none

/-- The simulator right after program start and a successful createMMU(frames). -/
def fresh (frames : Int) : MMU :=
  { boot with
    numFrames := frames
    page_table := fun _ => -1
    frame_data := fun _ => { vpn := -1, dirty := 0, access_time := 0, ref := 0 } }

/-- checkInMemory (memsim.c lines 43-51): returns the frame of vpn or -1. -/
def checkInMemory (s : MMU) (vpn : Int) : Except Fault (Int × MMU) :=
  if 0 ≤ vpn ∧ vpn < NUM_PAGES then
    let result := s.page_table vpn
    if result ≠ -1 then
      if 0 ≤ result ∧ result < s.numFrames ∧ s._time < INT_MAX then
        .ok (result,
          { s with
            frame_data := Function.update s.frame_data result
              { s.frame_data result with access_time := s._time, ref := 1 }
            _time := s._time + 1 })
      else .error .undefined
    else .ok (result, s)
  else .error .undefined

/-- allocateFrame (memsim.c lines 54-64). -/
def allocateFrame (s : MMU) (vpn : Int) : Except Fault (Int × MMU) :=
  let pfn := s.next_frame
  if 0 ≤ vpn ∧ vpn < NUM_PAGES ∧ 0 ≤ pfn ∧ pfn < s.numFrames ∧ s._time < INT_MAX then
    .ok (pfn,
      { s with
        next_frame := pfn + 1
        page_table := Function.update s.page_table vpn pfn
        frame_data := Function.update s.frame_data pfn
          { vpn := vpn, dirty := 0, access_time := s._time, ref := 1 }
        _time := s._time + 1 })
  else .error .undefined

/-! ## Victim selection (memsim.c lines 67-136) -/

/-- The for loop of the LRU policy (lines 76-81); the first argument is the
number of iterations that remain, i is the loop variable. -/
def lruScan (fd : Int → frame_entry) : Nat → Int → Int → Int → Int
  | 0, _, _, victim_frame => victim_frame
  | n + 1, i, oldest, victim_frame =>
    if (fd i).access_time < oldest then
      lruScan fd n (i + 1) (fd i).access_time i
    else
      lruScan fd n (i + 1) oldest victim_frame

/-- The bound of the rejection loop (line 87), in unsigned 32-bit arithmetic. -/
def randLimit (RAND_MAX span : Nat) : Nat :=
  (((RAND_MAX + 1) % UINT_MOD) - ((RAND_MAX + 1) % UINT_MOD) % span) % UINT_MOD

/-- The do-while loop of the random policy (lines 90-93): draws are taken from
the oracle until one is below limit; returns r % span and the rest of the
oracle. -/
def randDraw (limit span : Nat) : List Nat → Except Fault (Nat × List Nat)
  | [] => .error .no_rand
  | r :: rest =>
    if r % UINT_MOD ≥ limit then randDraw limit span rest
    else .ok ((r % UINT_MOD) % span, rest)

/-- Conversion of an unsigned 32-bit value to int. -/
def toInt32 (x : Nat) : Int :=
  if x < 2147483648 then (x : Int) else (x : Int) - 4294967296

/-- The second-chance loop (lines 102-105 and 129-132): while the frame under
the hand is referenced, clear the bit and advance.  Returns the frame table
and the hand at loop exit. -/
def clockScan (numFrames : Int) :
    Nat → (Int → frame_entry) → Int → Except Fault ((Int → frame_entry) × Int)
  | 0, _, _ => .error .no_fuel
  | fuel + 1, fd, clock_hand =>
    if 0 ≤ clock_hand ∧ clock_hand < numFrames then
      if (fd clock_hand).ref = 1 then
        clockScan numFrames fuel
          (Function.update fd clock_hand { fd clock_hand with ref := 0 })
          (Int.tmod (clock_hand + 1) numFrames)
      else .ok (fd, clock_hand)
    else .error .undefined

/-- Pass 1 of clean clock (lines 114-125); the first argument is
numFrames - scanned.  Returns the frame table, the hand and victim_frame
(-1 when the loop ends without a victim). -/
def cleanPass1 (numFrames : Int) :
    Nat → (Int → frame_entry) → Int → Except Fault ((Int → frame_entry) × Int × Int)
  | 0, fd, clock_hand => .ok (fd, clock_hand, -1)
  | n + 1, fd, clock_hand =>
    if 0 ≤ clock_hand ∧ clock_hand < numFrames then
      if (fd clock_hand).ref = 1 then
        cleanPass1 numFrames n
          (Function.update fd clock_hand { fd clock_hand with ref := 0 })
          (Int.tmod (clock_hand + 1) numFrames)
      else if (fd clock_hand).ref = 0 ∧ (fd clock_hand).dirty = 0 then
        .ok (fd, Int.tmod (clock_hand + 1) numFrames, clock_hand)
      else
        cleanPass1 numFrames n fd (Int.tmod (clock_hand + 1) numFrames)
    else .error .undefined

/-- The policy part of replacePage (lines 68-136): the chosen victim_frame, the
statics after the selection, and the rest of the oracle. -/
def selectVictim (RAND_MAX : Nat) (s : MMU) (mode : repl) (rands : List Nat) :
    Except Fault (Int × MMU × List Nat) :=
  match mode with
  | .lru =>
    if 0 < s.numFrames then
      .ok (lruScan s.frame_data (s.numFrames - 1).toNat 1 (s.frame_data 0).access_time 0,
        s, rands)
    else .error .undefined
  | ._random =>
    let span := (s.numFrames % (UINT_MOD : Int)).toNat
    if span = 0 then .error .undefined
    else
      match randDraw (randLimit RAND_MAX span) span rands with
      | .error e => .error e
      | .ok (r, rest) => .ok (toInt32 r, s, rest)
  | .fifo =>
    if s.numFrames = 0 then .error .undefined
    else .ok (s.fifo_hand,
      { s with fifo_hand := Int.tmod (s.fifo_hand + 1) s.numFrames }, rands)
  | ._clock =>
    match clockScan s.numFrames (s.numFrames.toNat + 1) s.frame_data s.clock_hand with
    | .error e => .error e
    | .ok (fd, hand) =>
      .ok (hand,
        { s with frame_data := fd, clock_hand := Int.tmod (hand + 1) s.numFrames }, rands)
  | ._clock_clean =>
    match cleanPass1 s.numFrames s.numFrames.toNat s.frame_data s.clock_hand with
    | .error e => .error e
    | .ok (fd1, hand1, victim1) =>
      if victim1 < 0 then
        match clockScan s.numFrames (s.numFrames.toNat + 1) fd1 hand1 with
        | .error e => .error e
        | .ok (fd2, hand2) =>
          .ok (hand2,
            { s with frame_data := fd2, clock_hand := Int.tmod (hand2 + 1) s.numFrames },
            rands)
      else .ok (victim1, { s with frame_data := fd1, clock_hand := hand1 }, rands)

/-- The part of replacePage after the guard (lines 146-168): evict the page of
victim_frame and map vpn into it. -/
def installPage (s : MMU) (vpn victim_frame : Int) : Except Fault (evicted_page × MMU) :=
  let victim : evicted_page :=
    { vpn := (s.frame_data victim_frame).vpn, dirty := (s.frame_data victim_frame).dirty }
  if 0 ≤ victim_frame ∧ victim_frame < s.numFrames
      ∧ (victim.vpn ≠ -1 → 0 ≤ victim.vpn ∧ victim.vpn < NUM_PAGES)
      ∧ 0 ≤ vpn ∧ vpn < NUM_PAGES ∧ s._time < INT_MAX then
    let pt1 := if victim.vpn ≠ -1 then Function.update s.page_table victim.vpn (-1)
      else s.page_table
    .ok (victim,
      { s with
        page_table := Function.update pt1 vpn victim_frame
        frame_data := Function.update s.frame_data victim_frame
          { vpn := vpn, dirty := 0, access_time := s._time, ref := 1 }
        _time := s._time + 1 })
  else .error .undefined

/-- replacePage (memsim.c lines 67-169).  The result is the evicted page, the
value written to *new_frame, the statics, and the rest of the oracle. -/
def replacePage (RAND_MAX : Nat) (s : MMU) (vpn : Int) (mode : repl) (rands : List Nat) :
    Except Fault (evicted_page × Int × MMU × List Nat) :=
  match selectVictim RAND_MAX s mode rands with
  | .error e => .error e
  | .ok (victim_frame, s1, rest) =>
    if victim_frame < 0 then .error .victim_not_set
    else
      match installPage s1 vpn victim_frame with
      | .error e => .error e
      | .ok (victim, s2) => .ok (victim, victim_frame, s2, rest)

/-! ## The driver (main, memsim.c lines 255-303) -/

/-- Local variables of main that live across loop iterations, the statics, and
the oracle of rand(). -/
structure Driver where
  mmu : MMU
  allocated : Int
  no_events : Int
  disk_writes : Int
  page_faults : Int
  rands : List Nat

/-- The statement of lines 284-286: mark frame pfn dirty on a write. -/
def markDirty (s : MMU) (pfn : Int) (rw : Char) : Except Fault MMU :=
  if pfn ≠ -1 ∧ rw = 'W' then
    if 0 ≤ pfn ∧ pfn < s.numFrames then
      .ok { s with
        frame_data := Function.update s.frame_data pfn
          { s.frame_data pfn with dirty := 1 } }
    else .error .undefined
  else .ok s

/-- Lines 283-302, shared by the three paths of the loop body. -/
def finishEvent (d : Driver) (pfn : Int) (rw : Char) : Except Fault Driver :=
  match markDirty d.mmu pfn rw with
  | .error e => .error e
  | .ok m =>
    if rw ≠ 'R' ∧ rw ≠ 'W' then .error .malformed
    else .ok { d with mmu := m, no_events := d.no_events + 1 }

/-- The page of an address read by fscanf into a uint32_t (line 257):
vpn = (int)(address >> pageoffset). -/
def pageOf (address : Nat) : Int :=
  ((address % UINT_MOD) / 2 ^ pageoffset : Nat)

/-- Lines 258-302 of the loop body of main, for the page vpn computed at line
257, with frames frames and policy replace.  The counters are not checked for
overflow: they are bounded by the number of events, which is the value of the
checked clock _time. -/
def accessPage (RAND_MAX : Nat) (frames : Int) (replace : repl) (d : Driver)
    (vpn : Int) (rw : Char) : Except Fault Driver :=
  match checkInMemory d.mmu vpn with
  | .error e => .error e
  | .ok (pfn, m) =>
    if pfn = -1 then
      if d.allocated < frames then
        match allocateFrame m vpn with
        | .error e => .error e
        | .ok (pfn1, m1) =>
          finishEvent
            { d with mmu := m1, page_faults := d.page_faults + 1,
                     allocated := d.allocated + 1 } pfn1 rw
      else
        match replacePage RAND_MAX m vpn replace d.rands with
        | .error e => .error e
        | .ok (Pvictim, pfn1, m1, rest) =>
          finishEvent
            { d with mmu := m1, page_faults := d.page_faults + 1, rands := rest,
                     disk_writes := if Pvictim.dirty ≠ 0 then d.disk_writes + 1
                                    else d.disk_writes } pfn1 rw
    else finishEvent { d with mmu := m } pfn rw

/-- One iteration of the while loop of main (lines 256-303) for the record
(address, rw). -/
def loopBody (RAND_MAX : Nat) (frames : Int) (replace : repl) (d : Driver)
    (address : Nat) (rw : Char) : Except Fault Driver :=
  accessPage RAND_MAX frames replace d (pageOf address) rw

/-- Driver state after createMMU(frames) succeeded, before the first record. -/
def startDriver (frames : Int) (rands : List Nat) : Driver :=
  { mmu := fresh frames, allocated := 0, no_events := 0, disk_writes := 0,
    page_faults := 0, rands := rands }

/-- The while loop of main on the pages of the records of a trace, with one
policy. -/
def runPages (RAND_MAX : Nat) (frames : Int) (replace : repl) :
    Driver → List (Int × Char) → Except Fault Driver
  | d, [] => .ok d
  | d, (vpn, rw) :: rest =>
    match accessPage RAND_MAX frames replace d vpn rw with
    | .error e => .error e
    | .ok d1 => runPages RAND_MAX frames replace d1 rest

/-- The while loop of main over a whole trace of records (address, rw) with one
policy: every record is turned into its page (line 257) and handled by the
rest of the loop body. -/
def runTrace (RAND_MAX : Nat) (frames : Int) (replace : repl) (d : Driver)
    (trace : List (Nat × Char)) : Except Fault Driver :=
  runPages RAND_MAX frames replace d (trace.map (fun r => (pageOf r.1, r.2)))

/-- States the driver reaches from createMMU(frames): each step is one
iteration of the loop of main on some page; the policy may change from one
event to the next. -/
inductive DReach (RAND_MAX : Nat) (frames : Int) : Driver → Prop where
  | start (rands : List Nat) : DReach RAND_MAX frames (startDriver frames rands)
  | step {d d1 : Driver} (replace : repl) (vpn : Int) (rw : Char) :
      DReach RAND_MAX frames d →
      accessPage RAND_MAX frames replace d vpn rw = .ok d1 →
      DReach RAND_MAX frames d1

/-! ## Calls into the core, in any order -/

/-- One call into the simulator core: a lookup, an allocation, an eviction
with the policy and the oracle it is given, or the dirty marking of a frame
(line 285). -/
inductive Op where
  | check (vpn : Int)
  | alloc (vpn : Int)
  | replace (vpn : Int) (mode : repl) (rands : List Nat)
  | dirty (pfn : Int)

/-- The statics after one call. -/
def applyOp (RAND_MAX : Nat) (s : MMU) : Op → Except Fault MMU
  | .check vpn =>
    match checkInMemory s vpn with
    | .error e => .error e
    | .ok (_, s1) => .ok s1
  | .alloc vpn =>
    match allocateFrame s vpn with
    | .error e => .error e
    | .ok (_, s1) => .ok s1
  | .replace vpn mode rands =>
    match replacePage RAND_MAX s vpn mode rands with
    | .error e => .error e
    | .ok (_, _, s1, _) => .ok s1
  | .dirty pfn => markDirty s pfn 'W'

/-- The statics after a sequence of calls. -/
def runOps (RAND_MAX : Nat) : MMU → List Op → Except Fault MMU
  | s, [] => .ok s
  | s, op :: rest =>
    match applyOp RAND_MAX s op with
    | .error e => .error e
    | .ok s1 => runOps RAND_MAX s1 rest

/-- Number of allocateFrame calls in a sequence of calls. -/
def allocCalls : List Op → Nat
  | [] => 0
  | .alloc _ :: rest => allocCalls rest + 1
  | _ :: rest => allocCalls rest

/-- Number of replacePage calls with mode fifo in a sequence of calls. -/
def fifoCalls : List Op → Nat
  | [] => 0
  | .replace _ .fifo _ :: rest => fifoCalls rest + 1
  | _ :: rest => fifoCalls rest

/-- States reachable from a fresh simulator with frames frames by calls into
the core in any order. -/
inductive Reach (RAND_MAX : Nat) (frames : Int) : MMU → Prop where
  | start : Reach RAND_MAX frames (fresh frames)
  | step {s s1 : MMU} (op : Op) :
      Reach RAND_MAX frames s → applyOp RAND_MAX s op = .ok s1 → Reach RAND_MAX frames s1

/-- Frame tables that differ in reference bits only, the second one having
some bits of the first one cleared. -/
def SameButRef (fd fd1 : Int → frame_entry) : Prop :=
  ∀ g, (fd1 g).vpn = (fd g).vpn ∧ (fd1 g).dirty = (fd g).dirty ∧
    (fd1 g).access_time = (fd g).access_time ∧
    ((fd1 g).ref = (fd g).ref ∨ (fd1 g).ref = 0)

/-- Invariant of the statics under calls in any order, for a simulator with N
frames: the hands and the allocation counter stay in range, every frame is
free or holds a page id, reference bits are 0 or 1, and the access times of
the frames that hold a page are below the clock and pairwise different. -/
structure Basic (N : Int) (s : MMU) : Prop where
  frames : s.numFrames = N
  fifo : 0 ≤ s.fifo_hand ∧ s.fifo_hand < N
  clock : 0 ≤ s.clock_hand ∧ s.clock_hand < N
  next : 0 ≤ s.next_frame ∧ s.next_frame ≤ N
  vpn : ∀ g, (s.frame_data g).vpn = -1 ∨
    (0 ≤ (s.frame_data g).vpn ∧ (s.frame_data g).vpn < NUM_PAGES)
  ref : ∀ g, (s.frame_data g).ref = 0 ∨ (s.frame_data g).ref = 1
  recent : ∀ g, (s.frame_data g).vpn ≠ -1 → (s.frame_data g).access_time < s._time
  distinct : ∀ g h, g ≠ h → (s.frame_data g).vpn ≠ -1 → (s.frame_data h).vpn ≠ -1 →
    (s.frame_data g).access_time ≠ (s.frame_data h).access_time

/-- The statics after a sequence of calls on a fresh simulator (the fresh
statics when a call faults). -/
def afterOps (RAND_MAX : Nat) (frames : Int) (ops : List Op) : MMU :=
  match runOps RAND_MAX (fresh frames) ops with
  | .ok s => s
  | .error _ => fresh frames

/-- Example: two frames, page 5 loaded into frame 0 by allocateFrame. -/
def onePage : MMU :=
  { numFrames := 2
    page_table := Function.update (fun _ => -1) 5 0
    frame_data := Function.update
      (fun _ => { vpn := -1, dirty := 0, access_time := 0, ref := 0 }) 0
      { vpn := 5, dirty := 0, access_time := 0, ref := 1 }
    _time := 1
    clock_hand := 0
    fifo_hand := 0
    next_frame := 1 }

/-- Example: two frames, pages 5 and 6 loaded by two allocateFrame calls. -/
def twoPages : MMU :=
  { numFrames := 2
    page_table := Function.update (Function.update (fun _ => -1) 5 0) 6 1
    frame_data := Function.update (Function.update
      (fun _ => { vpn := -1, dirty := 0, access_time := 0, ref := 0 }) 0
      { vpn := 5, dirty := 0, access_time := 0, ref := 1 }) 1
      { vpn := 6, dirty := 0, access_time := 1, ref := 1 }
    _time := 2
    clock_hand := 0
    fifo_hand := 0
    next_frame := 2 }

/-- The frame table after the reference bits of the j frames at offsets
0, ..., j-1 from the hand c (modulo N) have been cleared, in that order. -/
def clearRefs (N : Int) (fd : Int → frame_entry) (c : Int) : Nat → (Int → frame_entry)
  | 0 => fd
  | j + 1 =>
    Function.update (clearRefs N fd c j) ((c + j) % N)
      { clearRefs N fd c j ((c + j) % N) with ref := 0 }

/-- Example: three frames, all holding a page; frame 0 is referenced and
clean, frame 1 is unreferenced and dirty, frame 2 is unreferenced and clean;
both hands are at frame 0. -/
def mixedState : MMU :=
  { numFrames := 3
    page_table := Function.update (Function.update (Function.update (fun _ => -1) 5 0) 6 1) 7 2
    frame_data := Function.update (Function.update (Function.update
      (fun _ => { vpn := -1, dirty := 0, access_time := 0, ref := 0 }) 0
      { vpn := 5, dirty := 0, access_time := 3, ref := 1 }) 1
      { vpn := 6, dirty := 1, access_time := 1, ref := 0 }) 2
      { vpn := 7, dirty := 0, access_time := 2, ref := 0 }
    _time := 4
    clock_hand := 0
    fifo_hand := 0
    next_frame := 3 }

/-- Invariant of the statics under the driver, for a simulator with N frames:
the frames below the allocation counter hold a page, the others are free,
every page-table entry of a page id is -1 or a frame of the pool, and the page
table and the frame table describe the same mapping. -/
structure Mapped (N : Int) (s : MMU) : Prop where
  basic : Basic N s
  free : ∀ g, (g < 0 ∨ s.next_frame ≤ g) → (s.frame_data g).vpn = -1
  used : ∀ g, 0 ≤ g → g < s.next_frame → (s.frame_data g).vpn ≠ -1
  table : ∀ p, 0 ≤ p → p < NUM_PAGES →
    s.page_table p = -1 ∨ (0 ≤ s.page_table p ∧ s.page_table p < N)
  maps : ∀ p f, 0 ≤ p → p < NUM_PAGES → 0 ≤ f → f < N →
    (s.page_table p = f ↔ (s.frame_data f).vpn = p)

/-- Invariant of the driver state: the statics are consistent, the driver's
count of allocated frames is the allocator's counter, the number of events is
the value of the clock, and the counters are ordered. -/
structure DInv (N : Int) (d : Driver) : Prop where
  mapped : Mapped N d.mmu
  alloc : d.allocated = d.mmu.next_frame
  events : d.no_events = d.mmu._time
  counts : 0 ≤ d.disk_writes ∧ d.disk_writes ≤ d.page_faults ∧ d.page_faults ≤ d.no_events

/-- The driver state after a whole trace with one policy on a fresh simulator
(the start state when the run faults). -/
def afterTrace (RAND_MAX : Nat) (frames : Int) (replace : repl) (rands : List Nat)
    (trace : List (Nat × Char)) : Driver :=
  match runTrace RAND_MAX frames replace (startDriver frames rands) trace with
  | .ok d => d
  | .error _ => startDriver frames rands

/-! ## Evictions, the history of a run, and what a run remembers -/

/-- The eviction that the iteration of the driver loop on page vpn performs in
driver state d: the value replacePage returns, when the lookup misses and no
free frame is left (lines 258-270); none when the iteration evicts nothing. -/
def evictionOf (RAND_MAX : Nat) (frames : Int) (replace : repl) (d : Driver) (vpn : Int) :
    Option evicted_page :=
  match checkInMemory d.mmu vpn with
  | .error _ => none
  | .ok (pfn, m) =>
    if pfn = -1 then
      if d.allocated < frames then none
      else
        match replacePage RAND_MAX m vpn replace d.rands with
        | .error _ => none
        | .ok (Pvictim, _, _, _) => some Pvictim
    else none

/-- What an observer of a run remembers about pages: written p says that a
Write event accessed page p since the event that loaded it; loadedAt p is the
index of the event that loaded page p last; dirtyEvictions counts the
evictions of pages that were written while resident. -/
structure Ghost where
  written : Int → Bool
  loadedAt : Int → Int
  dirtyEvictions : Int

/-- The observer before the first event. -/
def startGhost : Ghost :=
  { written := fun _ => false, loadedAt := fun _ => -1, dirtyEvictions := 0 }

/-- The observer after the event (vpn, rw) handled in driver state d: the event
is a hit when the page table has an entry for vpn, otherwise it loads vpn. -/
def ghostStep (RAND_MAX : Nat) (frames : Int) (replace : repl) (d : Driver) (g : Ghost)
    (vpn : Int) (rw : Char) : Ghost :=
  { written := Function.update g.written vpn
      ((decide (d.mmu.page_table vpn ≠ -1) && g.written vpn) || decide (rw = 'W'))
    loadedAt :=
      if d.mmu.page_table vpn ≠ -1 then g.loadedAt
      else Function.update g.loadedAt vpn d.no_events
    dirtyEvictions :=
      match evictionOf RAND_MAX frames replace d vpn with
      | some ev => if g.written ev.vpn = true then g.dirtyEvictions + 1 else g.dirtyEvictions
      | none => g.dirtyEvictions }

/-- Runs of the driver from createMMU(frames) with policies taken from allowed:
Run hist d g says that after the events hist (most recent first) the driver is
in state d and the observer in state g. -/
inductive Run (RAND_MAX : Nat) (frames : Int) (allowed : repl → Prop) :
    List (Int × Char) → Driver → Ghost → Prop where
  | start (rands : List Nat) :
      Run RAND_MAX frames allowed [] (startDriver frames rands) startGhost
  | step {hist : List (Int × Char)} {d d1 : Driver} {g : Ghost}
      (replace : repl) (vpn : Int) (rw : Char) :
      Run RAND_MAX frames allowed hist d g → allowed replace →
      accessPage RAND_MAX frames replace d vpn rw = .ok d1 →
      Run RAND_MAX frames allowed ((vpn, rw) :: hist) d1
        (ghostStep RAND_MAX frames replace d g vpn rw)

/-- Index (counted from 0 at the first event) of the most recent event of the
history hist, given most recent first, that accessed page q; -1 when no event
accessed q. -/
def lastSeen : List (Int × Char) → Int → Int
  | [], _ => -1
  | (p, _) :: older, q => if p = q then (older.length : Int) else lastSeen older q

/-- Number of adjacent page changes in a sequence of pages: the positions after
the first whose page differs from the page right before. -/
def adjacentChanges : List Int → Int
  | p :: q :: rest => (if p = q then 0 else 1) + adjacentChanges (q :: rest)
  | _ => 0

/-- Frame f1 comes before frame f2 in the cyclic order of the frames that
starts at the hand h. -/
def beforeFrom (h f1 f2 : Int) : Prop :=
  (h ≤ f1 ∧ f1 < f2) ∨ (f2 < h ∧ h ≤ f1) ∨ (f1 < f2 ∧ f2 < h)

/-- Example: the statics left by a run on two frames with one eviction under
FIFO and one under Clock. -/
def usedState : MMU :=
  afterOps 32767 2 [.alloc 5, .alloc 6, .replace 7 .fifo [], .replace 8 ._clock []]

/-- The driver state after the pages of a trace with one policy on a fresh
simulator (the start state when the run faults). -/
def afterPages (RAND_MAX : Nat) (frames : Int) (replace : repl) (rands : List Nat)
    (pages : List (Int × Char)) : Driver :=
  match runPages RAND_MAX frames replace (startDriver frames rands) pages with
  | .ok d => d
  | .error _ => startDriver frames rands

/-- Invariant of a run with N frames: the driver invariant holds, the number
of events is the length of the history, dirty flags are 0 or 1, a frame that
holds a page is dirty exactly when the page was written since it was loaded,
the disk-write counter is the observer's count, the access time of a frame
that holds a page is the index of the last event on that page, and every
resident page was loaded by an earlier event. -/
structure Seen (N : Int) (hist : List (Int × Char)) (d : Driver) (g : Ghost) : Prop where
  inv : DInv N d
  events : d.no_events = hist.length
  bits : ∀ f, 0 ≤ f → f < N →
    (d.mmu.frame_data f).dirty = 0 ∨ (d.mmu.frame_data f).dirty = 1
  written : ∀ f, 0 ≤ f → f < N → (d.mmu.frame_data f).vpn ≠ -1 →
    ((d.mmu.frame_data f).dirty = 1 ↔ g.written (d.mmu.frame_data f).vpn = true)
  counted : d.disk_writes = g.dirtyEvictions
  recent : ∀ f, 0 ≤ f → f < N → (d.mmu.frame_data f).vpn ≠ -1 →
    (d.mmu.frame_data f).access_time = lastSeen hist (d.mmu.frame_data f).vpn
  loaded : ∀ f, 0 ≤ f → f < N → (d.mmu.frame_data f).vpn ≠ -1 →
    g.loadedAt (d.mmu.frame_data f).vpn < d.no_events

/-- Invariant of a run that evicts by FIFO only: the hand stays at frame 0
while frames are free, and the frames in use, in cyclic order from the hand,
hold pages in the order in which they were loaded. -/
structure FifoOrder (N : Int) (d : Driver) (g : Ghost) : Prop where
  hand0 : d.mmu.next_frame < N → d.mmu.fifo_hand = 0
  order : ∀ f1 f2, 0 ≤ f1 → f1 < d.mmu.next_frame → 0 ≤ f2 → f2 < d.mmu.next_frame →
    beforeFrom d.mmu.fifo_hand f1 f2 →
    g.loadedAt (d.mmu.frame_data f1).vpn < g.loadedAt (d.mmu.frame_data f2).vpn

/-! # Lemmas -/

/-- The fresh simulator is what a successful createMMU makes of the statics at
program start. -/
theorem createMMU_boot (frames : Int) : createMMU boot frames true = some (fresh frames) :=
  rfl

/-! ## Shape of successful calls -/

theorem checkInMemory_ok {s s1 : MMU} {p r : Int} (h : checkInMemory s p = .ok (r, s1)) :
    0 ≤ p ∧ p < NUM_PAGES ∧ r = s.page_table p ∧
    ((r = -1 ∧ s1 = s) ∨
     (r ≠ -1 ∧ 0 ≤ r ∧ r < s.numFrames ∧ s._time < INT_MAX ∧
       s1 = { s with
          frame_data := Function.update s.frame_data r
            { s.frame_data r with access_time := s._time, ref := 1 }
          _time := s._time + 1 })) := by
  unfold checkInMemory at h
  split at h
  · rename_i hp
    simp only at h
    split at h
    · rename_i hr
      split at h
      · rename_i hc
        simp only [Except.ok.injEq, Prod.mk.injEq] at h
        obtain ⟨h1, h2⟩ := h
        subst h1
        exact ⟨hp.1, hp.2, rfl, Or.inr ⟨hr, hc.1, hc.2.1, hc.2.2, h2.symm⟩⟩
      · cases h
    · rename_i hr
      simp only [Except.ok.injEq, Prod.mk.injEq] at h
      obtain ⟨h1, h2⟩ := h
      subst h1
      exact ⟨hp.1, hp.2, rfl, Or.inl ⟨not_not.mp hr, h2.symm⟩⟩
  · cases h

theorem allocateFrame_ok {s s1 : MMU} {p r : Int} (h : allocateFrame s p = .ok (r, s1)) :
    0 ≤ p ∧ p < NUM_PAGES ∧ r = s.next_frame ∧ 0 ≤ r ∧ r < s.numFrames ∧ s._time < INT_MAX ∧
    s1 = { s with
        next_frame := s.next_frame + 1
        page_table := Function.update s.page_table p s.next_frame
        frame_data := Function.update s.frame_data s.next_frame
          { vpn := p, dirty := 0, access_time := s._time, ref := 1 }
        _time := s._time + 1 } := by
  unfold allocateFrame at h
  simp only at h
  split at h
  · rename_i hc
    simp only [Except.ok.injEq, Prod.mk.injEq] at h
    obtain ⟨h1, h2⟩ := h
    subst h1
    exact ⟨hc.1, hc.2.1, rfl, hc.2.2.1, hc.2.2.2.1, hc.2.2.2.2, h2.symm⟩
  · cases h

theorem installPage_ok {s s2 : MMU} {p v : Int} {ev : evicted_page}
    (h : installPage s p v = .ok (ev, s2)) :
    0 ≤ v ∧ v < s.numFrames ∧ 0 ≤ p ∧ p < NUM_PAGES ∧ s._time < INT_MAX ∧
    ((s.frame_data v).vpn ≠ -1 → 0 ≤ (s.frame_data v).vpn ∧ (s.frame_data v).vpn < NUM_PAGES) ∧
    ev = { vpn := (s.frame_data v).vpn, dirty := (s.frame_data v).dirty } ∧
    s2 = { s with
        page_table := Function.update
          (if (s.frame_data v).vpn ≠ -1 then
            Function.update s.page_table (s.frame_data v).vpn (-1)
           else s.page_table) p v
        frame_data := Function.update s.frame_data v
          { vpn := p, dirty := 0, access_time := s._time, ref := 1 }
        _time := s._time + 1 } := by
  unfold installPage at h
  simp only at h
  split at h
  · rename_i hc
    simp only [Except.ok.injEq, Prod.mk.injEq] at h
    obtain ⟨h1, h2⟩ := h
    exact ⟨hc.1, hc.2.1, hc.2.2.2.1, hc.2.2.2.2.1, hc.2.2.2.2.2, hc.2.2.1, h1.symm, h2.symm⟩
  · cases h

theorem replacePage_ok {R : Nat} {s s2 : MMU} {p v : Int} {mode : repl} {rands rest : List Nat}
    {ev : evicted_page} (h : replacePage R s p mode rands = .ok (ev, v, s2, rest)) :
    ∃ s1, selectVictim R s mode rands = .ok (v, s1, rest) ∧ 0 ≤ v ∧
      installPage s1 p v = .ok (ev, s2) := by
  unfold replacePage at h
  split at h
  · cases h
  · rename_i v1 s1 rest1 hsel
    split at h
    · cases h
    · rename_i hv
      split at h
      · cases h
      · rename_i ev1 s3 hin
        simp only [Except.ok.injEq, Prod.mk.injEq] at h
        obtain ⟨h1, h2, h3, h4⟩ := h
        subst h1 h2 h3 h4
        exact ⟨s1, hsel, not_lt.mp hv, hin⟩

theorem markDirty_ok {s s1 : MMU} {pfn : Int} {rw : Char} (h : markDirty s pfn rw = .ok s1) :
    s1 = s ∨ (0 ≤ pfn ∧ pfn < s.numFrames ∧ rw = 'W' ∧
      s1 = { s with
        frame_data := Function.update s.frame_data pfn
          { s.frame_data pfn with dirty := 1 } }) := by
  unfold markDirty at h
  split at h
  · rename_i hw
    split at h
    · rename_i hc
      simp only [Except.ok.injEq] at h
      exact Or.inr ⟨hc.1, hc.2, hw.2, h.symm⟩
    · cases h
  · simp only [Except.ok.injEq] at h
    exact Or.inl h.symm

/-! ## What victim selection leaves alone -/

theorem sameButRef_refl (fd : Int → frame_entry) : SameButRef fd fd :=
  fun _ => ⟨rfl, rfl, rfl, Or.inl rfl⟩

theorem sameButRef_trans {a b c : Int → frame_entry}
    (h1 : SameButRef a b) (h2 : SameButRef b c) : SameButRef a c := fun g =>
  ⟨(h2 g).1.trans (h1 g).1, (h2 g).2.1.trans (h1 g).2.1, (h2 g).2.2.1.trans (h1 g).2.2.1,
    by
      rcases (h2 g).2.2.2 with h | h
      · rcases (h1 g).2.2.2 with h3 | h3
        · exact Or.inl (h.trans h3)
        · exact Or.inr (h.trans h3)
      · exact Or.inr h⟩

theorem sameButRef_clear (fd : Int → frame_entry) (c : Int) :
    SameButRef fd (Function.update fd c { fd c with ref := 0 }) := by
  intro g
  by_cases hg : g = c
  · subst hg; simp
  · simp [Function.update_noteq hg]

theorem clockScan_sameButRef (N : Int) :
    ∀ (fuel : Nat) (fd fd1 : Int → frame_entry) (c v : Int),
      clockScan N fuel fd c = .ok (fd1, v) →
      SameButRef fd fd1 ∧ 0 ≤ v ∧ v < N ∧ (fd1 v).ref ≠ 1 := by
  intro fuel
  induction fuel with
  | zero => intro fd fd1 c v h; simp [clockScan] at h
  | succ n ih =>
    intro fd fd1 c v h
    unfold clockScan at h
    split at h
    · rename_i hc
      split at h
      · obtain ⟨h1, h2⟩ := ih _ _ _ _ h
        exact ⟨sameButRef_trans (sameButRef_clear fd c) h1, h2⟩
      · rename_i hr
        simp only [Except.ok.injEq, Prod.mk.injEq] at h
        obtain ⟨h1, h2⟩ := h
        subst h1 h2
        exact ⟨sameButRef_refl _, hc.1, hc.2, hr⟩
    · cases h

theorem tmod_succ (c N : Int) (h0 : 0 ≤ c) (h1 : c < N) :
    Int.tmod (c + 1) N = (c + 1) % N ∧ 0 ≤ Int.tmod (c + 1) N ∧ Int.tmod (c + 1) N < N := by
  have h : Int.tmod (c + 1) N = (c + 1) % N := Int.tmod_eq_emod (by omega) (by omega)
  rw [h]
  exact ⟨rfl, Int.emod_nonneg _ (by omega), Int.emod_lt_of_pos _ (by omega)⟩

theorem cleanPass1_sameButRef (N : Int) :
    ∀ (n : Nat) (fd fd1 : Int → frame_entry) (c c1 v : Int),
      cleanPass1 N n fd c = .ok (fd1, c1, v) →
      SameButRef fd fd1 ∧ (0 ≤ c ∧ c < N → 0 ≤ c1 ∧ c1 < N) ∧
      (v = -1 ∨ (0 ≤ v ∧ v < N ∧ (fd1 v).ref = 0 ∧ (fd1 v).dirty = 0)) := by
  intro n
  induction n with
  | zero =>
    intro fd fd1 c c1 v h
    simp only [cleanPass1, Except.ok.injEq, Prod.mk.injEq] at h
    obtain ⟨h1, h2, h3⟩ := h
    subst h1 h2
    exact ⟨sameButRef_refl _, id, Or.inl h3.symm⟩
  | succ n ih =>
    intro fd fd1 c c1 v h
    unfold cleanPass1 at h
    split at h
    · rename_i hc
      have hm := tmod_succ c N hc.1 hc.2
      split at h
      · obtain ⟨h1, h2, h3⟩ := ih _ _ _ _ _ h
        exact ⟨sameButRef_trans (sameButRef_clear fd c) h1, fun _ => h2 hm.2, h3⟩
      · split at h
        · rename_i hr
          simp only [Except.ok.injEq, Prod.mk.injEq] at h
          obtain ⟨h1, h2, h3⟩ := h
          subst h1 h2 h3
          exact ⟨sameButRef_refl _, fun _ => hm.2, Or.inr ⟨hc.1, hc.2, hr.1, hr.2⟩⟩
        · obtain ⟨h1, h2, h3⟩ := ih _ _ _ _ _ h
          exact ⟨h1, fun _ => h2 hm.2, h3⟩
    · cases h

theorem lruScan_range (fd : Int → frame_entry) :
    ∀ (n : Nat) (i oldest v : Int), 0 ≤ v → v < i →
      0 ≤ lruScan fd n i oldest v ∧ lruScan fd n i oldest v < i + n := by
  intro n
  induction n with
  | zero => intro i oldest v h0 h1; simp [lruScan, h0, h1]
  | succ n ih =>
    intro i oldest v h0 h1
    unfold lruScan
    split
    · have := ih (i + 1) (fd i).access_time i (by omega) (by omega)
      push_cast; constructor <;> omega
    · have := ih (i + 1) oldest v h0 (by omega)
      push_cast; constructor <;> omega

theorem randDraw_ok {limit span : Nat} :
    ∀ {rands rest : List Nat} {r : Nat},
      randDraw limit span rands = .ok (r, rest) →
      ∃ raw, raw ∈ rands ∧ raw % UINT_MOD < limit ∧ r = (raw % UINT_MOD) % span := by
  intro rands
  induction rands with
  | nil => intro rest r h; simp [randDraw] at h
  | cons a l ih =>
    intro rest r h
    unfold randDraw at h
    split at h
    · obtain ⟨raw, h1, h2⟩ := ih h
      exact ⟨raw, List.mem_cons_of_mem _ h1, h2⟩
    · rename_i hlt
      simp only [Except.ok.injEq, Prod.mk.injEq] at h
      exact ⟨a, List.mem_cons_self _ _, not_le.mp hlt, h.1.symm⟩

/-- What a successful victim selection leaves alone: everything except the
reference bits and the two hands. -/
theorem selectVictim_frame {R : Nat} {s s1 : MMU} {mode : repl} {rands rest : List Nat}
    {v : Int} (h : selectVictim R s mode rands = .ok (v, s1, rest)) :
    s1.numFrames = s.numFrames ∧ s1.page_table = s.page_table ∧ s1._time = s._time ∧
    s1.next_frame = s.next_frame ∧ SameButRef s.frame_data s1.frame_data := by
  unfold selectVictim at h
  cases mode with
  | lru =>
    simp only at h
    split at h
    · simp only [Except.ok.injEq, Prod.mk.injEq] at h
      obtain ⟨_, h2, _⟩ := h
      subst h2
      exact ⟨rfl, rfl, rfl, rfl, sameButRef_refl _⟩
    · cases h
  | _random =>
    simp only at h
    split at h
    · cases h
    · split at h
      · cases h
      · simp only [Except.ok.injEq, Prod.mk.injEq] at h
        obtain ⟨_, h2, _⟩ := h
        subst h2
        exact ⟨rfl, rfl, rfl, rfl, sameButRef_refl _⟩
  | fifo =>
    simp only at h
    split at h
    · cases h
    · simp only [Except.ok.injEq, Prod.mk.injEq] at h
      obtain ⟨_, h2, _⟩ := h
      subst h2
      exact ⟨rfl, rfl, rfl, rfl, sameButRef_refl _⟩
  | _clock =>
    simp only at h
    split at h
    · cases h
    · rename_i fd hand hscan
      simp only [Except.ok.injEq, Prod.mk.injEq] at h
      obtain ⟨_, h2, _⟩ := h
      subst h2
      exact ⟨rfl, rfl, rfl, rfl, (clockScan_sameButRef _ _ _ _ _ _ hscan).1⟩
  | _clock_clean =>
    simp only at h
    split at h
    · cases h
    · rename_i fd1 hand1 victim1 hp1
      split at h
      · split at h
        · cases h
        · rename_i fd2 hand2 hscan
          simp only [Except.ok.injEq, Prod.mk.injEq] at h
          obtain ⟨_, h2, _⟩ := h
          subst h2
          exact ⟨rfl, rfl, rfl, rfl,
            sameButRef_trans (cleanPass1_sameButRef _ _ _ _ _ _ _ hp1).1
              (clockScan_sameButRef _ _ _ _ _ _ hscan).1⟩
      · simp only [Except.ok.injEq, Prod.mk.injEq] at h
        obtain ⟨_, h2, _⟩ := h
        subst h2
        exact ⟨rfl, rfl, rfl, rfl, (cleanPass1_sameButRef _ _ _ _ _ _ _ hp1).1⟩

/-- The hands after a successful victim selection, and the range of the victim
for the two clock policies. -/
theorem selectVictim_hands {R : Nat} {s s1 : MMU} {mode : repl} {rands rest : List Nat}
    {v : Int} (h : selectVictim R s mode rands = .ok (v, s1, rest))
    (hf : 0 ≤ s.fifo_hand ∧ s.fifo_hand < s.numFrames)
    (hc : 0 ≤ s.clock_hand ∧ s.clock_hand < s.numFrames) :
    (0 ≤ s1.fifo_hand ∧ s1.fifo_hand < s.numFrames) ∧
    (0 ≤ s1.clock_hand ∧ s1.clock_hand < s.numFrames) ∧
    (mode = .fifo → v = s.fifo_hand ∧ s1.fifo_hand = (s.fifo_hand + 1) % s.numFrames) ∧
    (mode ≠ .fifo → s1.fifo_hand = s.fifo_hand) := by
  unfold selectVictim at h
  cases mode with
  | lru =>
    simp only at h
    split at h
    · simp only [Except.ok.injEq, Prod.mk.injEq] at h
      obtain ⟨_, h2, _⟩ := h
      subst h2
      exact ⟨hf, hc, by simp, fun _ => rfl⟩
    · cases h
  | _random =>
    simp only at h
    split at h
    · cases h
    · split at h
      · cases h
      · simp only [Except.ok.injEq, Prod.mk.injEq] at h
        obtain ⟨_, h2, _⟩ := h
        subst h2
        exact ⟨hf, hc, by simp, fun _ => rfl⟩
  | fifo =>
    simp only at h
    split at h
    · cases h
    · simp only [Except.ok.injEq, Prod.mk.injEq] at h
      obtain ⟨h1, h2, _⟩ := h
      subst h2
      have hm := tmod_succ _ _ hf.1 hf.2
      exact ⟨hm.2, hc, fun _ => ⟨h1.symm, hm.1⟩, fun hne => absurd rfl hne⟩
  | _clock =>
    simp only at h
    split at h
    · cases h
    · rename_i fd hand hscan
      simp only [Except.ok.injEq, Prod.mk.injEq] at h
      obtain ⟨_, h2, _⟩ := h
      subst h2
      obtain ⟨_, h3, h4, _⟩ := clockScan_sameButRef _ _ _ _ _ _ hscan
      exact ⟨hf, (tmod_succ _ _ h3 h4).2, by simp, fun _ => rfl⟩
  | _clock_clean =>
    simp only at h
    split at h
    · cases h
    · rename_i fd1 hand1 victim1 hp1
      split at h
      · split at h
        · cases h
        · rename_i fd2 hand2 hscan
          simp only [Except.ok.injEq, Prod.mk.injEq] at h
          obtain ⟨_, h2, _⟩ := h
          subst h2
          obtain ⟨_, h3, h4, _⟩ := clockScan_sameButRef _ _ _ _ _ _ hscan
          exact ⟨hf, (tmod_succ _ _ h3 h4).2, by simp, fun _ => rfl⟩
      · simp only [Except.ok.injEq, Prod.mk.injEq] at h
        obtain ⟨_, h2, _⟩ := h
        subst h2
        exact ⟨hf, (cleanPass1_sameButRef _ _ _ _ _ _ _ hp1).2.1 hc, by simp, fun _ => rfl⟩

/-- A replacePage call returns normally once the policy chose a frame of the
pool that is free or holds a page id. -/
theorem replacePage_of_select {R : Nat} {s s1 : MMU} {p v : Int} {mode : repl}
    {rands rest : List Nat}
    (hsel : selectVictim R s mode rands = .ok (v, s1, rest))
    (hv : 0 ≤ v ∧ v < s1.numFrames)
    (hq : (s1.frame_data v).vpn ≠ -1 →
      0 ≤ (s1.frame_data v).vpn ∧ (s1.frame_data v).vpn < NUM_PAGES)
    (hp : 0 ≤ p ∧ p < NUM_PAGES) (ht : s1._time < INT_MAX) :
    replacePage R s p mode rands =
      .ok ({ vpn := (s1.frame_data v).vpn, dirty := (s1.frame_data v).dirty }, v,
        { s1 with
          page_table := Function.update
            (if (s1.frame_data v).vpn ≠ -1 then
              Function.update s1.page_table (s1.frame_data v).vpn (-1)
             else s1.page_table) p v
          frame_data := Function.update s1.frame_data v
            { vpn := p, dirty := 0, access_time := s1._time, ref := 1 }
          _time := s1._time + 1 }, rest) := by
  have hnv : ¬ v < 0 := by omega
  have hcond : 0 ≤ v ∧ v < s1.numFrames
      ∧ ((s1.frame_data v).vpn ≠ -1 →
          0 ≤ (s1.frame_data v).vpn ∧ (s1.frame_data v).vpn < NUM_PAGES)
      ∧ 0 ≤ p ∧ p < NUM_PAGES ∧ s1._time < INT_MAX :=
    ⟨hv.1, hv.2, hq, hp.1, hp.2, ht⟩
  simp only [replacePage, hsel, installPage, if_neg hnv, if_pos hcond]

/-! ## The invariant of calls in any order -/

theorem basic_fresh (N : Int) (hN : 1 ≤ N) : Basic N (fresh N) where
  frames := rfl
  fifo := ⟨le_refl _, by show (0 : Int) < N; omega⟩
  clock := ⟨le_refl _, by show (0 : Int) < N; omega⟩
  next := ⟨le_refl _, by show (0 : Int) ≤ N; omega⟩
  vpn := fun _ => Or.inl rfl
  ref := fun _ => Or.inl rfl
  recent := fun _ h => absurd rfl h
  distinct := fun _ _ _ h => absurd rfl h

/-- Loading a page into frame v at the current clock value keeps the invariant. -/
theorem basic_load {N : Int} {s : MMU} (hb : Basic N s) (p v : Int) (pt : Int → Int)
    (nf : Int) (hnf : 0 ≤ nf ∧ nf ≤ N) (hp : 0 ≤ p ∧ p < NUM_PAGES) :
    Basic N { s with
      next_frame := nf
      page_table := pt
      frame_data := Function.update s.frame_data v
        { vpn := p, dirty := 0, access_time := s._time, ref := 1 }
      _time := s._time + 1 } where
  frames := hb.frames
  fifo := hb.fifo
  clock := hb.clock
  next := hnf
  vpn := by
    intro g
    by_cases hg : g = v
    · subst hg; simp [hp.1, hp.2]
    · simpa [Function.update_noteq hg] using hb.vpn g
  ref := by
    intro g
    by_cases hg : g = v
    · subst hg; simp
    · simpa [Function.update_noteq hg] using hb.ref g
  recent := by
    intro g
    by_cases hg : g = v
    · subst hg; simp
    · simp only [Function.update_noteq hg]
      intro h
      have := hb.recent g h
      omega
  distinct := by
    intro g h hgh
    by_cases hg : g = v
    · subst hg
      have hh : h ≠ g := fun e => hgh e.symm
      simp only [Function.update_same, Function.update_noteq hh]
      intro _ h2
      have := hb.recent h h2
      omega
    · by_cases hh : h = v
      · subst hh
        simp only [Function.update_same, Function.update_noteq hg]
        intro h1 _
        have := hb.recent g h1
        omega
      · simp only [Function.update_noteq hg, Function.update_noteq hh]
        exact hb.distinct g h hgh

/-- A hit on frame r keeps the invariant. -/
theorem basic_touch {N : Int} {s : MMU} (hb : Basic N s) (r : Int) :
    Basic N { s with
      frame_data := Function.update s.frame_data r
        { s.frame_data r with access_time := s._time, ref := 1 }
      _time := s._time + 1 } where
  frames := hb.frames
  fifo := hb.fifo
  clock := hb.clock
  next := hb.next
  vpn := by
    intro g
    by_cases hg : g = r
    · subst hg; simpa using hb.vpn g
    · simpa [Function.update_noteq hg] using hb.vpn g
  ref := by
    intro g
    by_cases hg : g = r
    · subst hg; simp
    · simpa [Function.update_noteq hg] using hb.ref g
  recent := by
    intro g
    by_cases hg : g = r
    · subst hg; simp
    · simp only [Function.update_noteq hg]
      intro h
      have := hb.recent g h
      omega
  distinct := by
    intro g h hgh
    by_cases hg : g = r
    · subst hg
      have hh : h ≠ g := fun e => hgh e.symm
      simp only [Function.update_same, Function.update_noteq hh]
      intro _ h2
      have := hb.recent h h2
      omega
    · by_cases hh : h = r
      · subst hh
        simp only [Function.update_same, Function.update_noteq hg]
        intro h1 _
        have := hb.recent g h1
        omega
      · simp only [Function.update_noteq hg, Function.update_noteq hh]
        exact hb.distinct g h hgh

/-- Marking a frame dirty keeps the invariant. -/
theorem basic_dirty {N : Int} {s : MMU} (hb : Basic N s) (r : Int) :
    Basic N { s with
      frame_data := Function.update s.frame_data r { s.frame_data r with dirty := 1 } } where
  frames := hb.frames
  fifo := hb.fifo
  clock := hb.clock
  next := hb.next
  vpn := by
    intro g
    by_cases hg : g = r
    · subst hg; simpa using hb.vpn g
    · simpa [Function.update_noteq hg] using hb.vpn g
  ref := by
    intro g
    by_cases hg : g = r
    · subst hg; simpa using hb.ref g
    · simpa [Function.update_noteq hg] using hb.ref g
  recent := by
    intro g
    by_cases hg : g = r
    · subst hg; simpa using hb.recent g
    · simpa [Function.update_noteq hg] using hb.recent g
  distinct := by
    intro g h hgh
    have e : ∀ x, (Function.update s.frame_data r { s.frame_data r with dirty := 1 } x).vpn
          = (s.frame_data x).vpn ∧
        (Function.update s.frame_data r { s.frame_data r with dirty := 1 } x).access_time
          = (s.frame_data x).access_time := by
      intro x
      by_cases hx : x = r
      · subst hx; simp
      · simp [Function.update_noteq hx]
    simp only [(e g).1, (e g).2, (e h).1, (e h).2]
    exact hb.distinct g h hgh

/-- Victim selection keeps the invariant. -/
theorem basic_select {N : Int} {R : Nat} {s s1 : MMU} {mode : repl} {rands rest : List Nat}
    {v : Int} (hb : Basic N s) (h : selectVictim R s mode rands = .ok (v, s1, rest)) :
    Basic N s1 := by
  obtain ⟨h1, _, h3, h4, h5⟩ := selectVictim_frame h
  obtain ⟨h6, h7, _⟩ := selectVictim_hands h (by rw [hb.frames]; exact hb.fifo)
    (by rw [hb.frames]; exact hb.clock)
  rw [hb.frames] at h6 h7
  refine ⟨h1.trans hb.frames, h6, h7, by rw [h4]; exact hb.next, ?_, ?_, ?_, ?_⟩
  · intro g; rw [(h5 g).1]; exact hb.vpn g
  · intro g
    rcases (h5 g).2.2.2 with e | e
    · rw [e]; exact hb.ref g
    · exact Or.inl e
  · intro g; rw [(h5 g).1, (h5 g).2.2.1, h3]; exact hb.recent g
  · intro g k; rw [(h5 g).1, (h5 g).2.2.1, (h5 k).1, (h5 k).2.2.1]; exact hb.distinct g k

theorem basic_applyOp {N : Int} {R : Nat} {s s1 : MMU} {op : Op} (hb : Basic N s)
    (h : applyOp R s op = .ok s1) : Basic N s1 := by
  cases op with
  | check vpn =>
    simp only [applyOp] at h
    split at h
    · cases h
    · rename_i r s2 hc
      simp only [Except.ok.injEq] at h
      subst h
      obtain ⟨_, _, _, h4⟩ := checkInMemory_ok hc
      rcases h4 with ⟨_, e⟩ | ⟨_, _, _, _, e⟩
      · rw [e]; exact hb
      · rw [e]; exact basic_touch hb r
  | alloc vpn =>
    simp only [applyOp] at h
    split at h
    · cases h
    · rename_i r s2 hc
      simp only [Except.ok.injEq] at h
      subst h
      obtain ⟨h1, h2, h3, h4, h5, _, e⟩ := allocateFrame_ok hc
      rw [e]
      have := hb.frames
      exact basic_load hb vpn s.next_frame _ _ ⟨by omega, by omega⟩ ⟨h1, h2⟩
  | replace vpn mode rands =>
    simp only [applyOp] at h
    split at h
    · cases h
    · rename_i ev v s2 rest hc
      simp only [Except.ok.injEq] at h
      subst h
      obtain ⟨s3, hsel, _, hin⟩ := replacePage_ok hc
      have hb3 : Basic N s3 := basic_select hb hsel
      obtain ⟨_, _, h3, h4, _, _, _, e⟩ := installPage_ok hin
      rw [e]
      exact basic_load hb3 vpn v _ _ hb3.next ⟨h3, h4⟩
  | dirty pfn =>
    simp only [applyOp] at h
    rcases markDirty_ok h with e | ⟨_, _, _, e⟩
    · rw [e]; exact hb
    · rw [e]; exact basic_dirty hb pfn

theorem reach_basic {R : Nat} {N : Int} (hN : 1 ≤ N) {s : MMU} (h : Reach R N s) :
    Basic N s := by
  induction h with
  | start => exact basic_fresh N hN
  | step op _ hop ih => exact basic_applyOp ih hop

theorem runOps_reach {R : Nat} {N : Int} :
    ∀ (ops : List Op) {s s1 : MMU}, Reach R N s → runOps R s ops = .ok s1 → Reach R N s1 := by
  intro ops
  induction ops with
  | nil =>
    intro s s1 hr h
    simp only [runOps, Except.ok.injEq] at h
    subst h
    exact hr
  | cons op rest ih =>
    intro s s1 hr h
    unfold runOps at h
    split at h
    · cases h
    · rename_i s2 hop
      exact ih (Reach.step op hr hop) h

/-! ## Counting calls -/

theorem applyOp_next_frame {R : Nat} {s s1 : MMU} {op : Op} (h : applyOp R s op = .ok s1) :
    s1.next_frame = s.next_frame + allocCalls [op] := by
  cases op with
  | check vpn =>
    simp only [applyOp] at h
    split at h
    · cases h
    · rename_i r s2 hc
      simp only [Except.ok.injEq] at h
      subst h
      obtain ⟨_, _, _, h4⟩ := checkInMemory_ok hc
      rcases h4 with ⟨_, e⟩ | ⟨_, _, _, _, e⟩ <;> simp [e, allocCalls]
  | alloc vpn =>
    simp only [applyOp] at h
    split at h
    · cases h
    · rename_i r s2 hc
      simp only [Except.ok.injEq] at h
      subst h
      obtain ⟨_, _, _, _, _, _, e⟩ := allocateFrame_ok hc
      simp [e, allocCalls]
  | replace vpn mode rands =>
    simp only [applyOp] at h
    split at h
    · cases h
    · rename_i ev v s2 rest hc
      simp only [Except.ok.injEq] at h
      subst h
      obtain ⟨s3, hsel, _, hin⟩ := replacePage_ok hc
      obtain ⟨_, _, _, h4, _⟩ := selectVictim_frame hsel
      obtain ⟨_, _, _, _, _, _, _, e⟩ := installPage_ok hin
      simp [e, allocCalls, h4]
  | dirty pfn =>
    simp only [applyOp] at h
    rcases markDirty_ok h with e | ⟨_, _, _, e⟩ <;> simp [e, allocCalls]

theorem runOps_next_frame {R : Nat} :
    ∀ (ops : List Op) {s s1 : MMU}, runOps R s ops = .ok s1 →
      s1.next_frame = s.next_frame + allocCalls ops := by
  intro ops
  induction ops with
  | nil =>
    intro s s1 h
    simp only [runOps, Except.ok.injEq] at h
    subst h
    simp [allocCalls]
  | cons op rest ih =>
    intro s s1 h
    unfold runOps at h
    split at h
    · cases h
    · rename_i s2 hop
      rw [ih h, applyOp_next_frame hop]
      cases op <;> simp only [allocCalls] <;> omega

theorem applyOp_fifo_hand {R : Nat} {N : Int} {s s1 : MMU} {op : Op} (hb : Basic N s)
    (h : applyOp R s op = .ok s1) :
    s1.fifo_hand = (s.fifo_hand + fifoCalls [op]) % N := by
  have hsame : s.fifo_hand = (s.fifo_hand + (0 : Nat)) % N := by
    simp [Int.emod_eq_of_lt hb.fifo.1 hb.fifo.2]
  cases op with
  | check vpn =>
    simp only [applyOp] at h
    split at h
    · cases h
    · rename_i r s2 hc
      simp only [Except.ok.injEq] at h
      subst h
      obtain ⟨_, _, _, h4⟩ := checkInMemory_ok hc
      rcases h4 with ⟨_, e⟩ | ⟨_, _, _, _, e⟩ <;> (rw [e]; exact hsame)
  | alloc vpn =>
    simp only [applyOp] at h
    split at h
    · cases h
    · rename_i r s2 hc
      simp only [Except.ok.injEq] at h
      subst h
      obtain ⟨_, _, _, _, _, _, e⟩ := allocateFrame_ok hc
      rw [e]; exact hsame
  | replace vpn mode rands =>
    simp only [applyOp] at h
    split at h
    · cases h
    · rename_i ev v s2 rest hc
      simp only [Except.ok.injEq] at h
      subst h
      obtain ⟨s3, hsel, _, hin⟩ := replacePage_ok hc
      obtain ⟨_, _, h3, h4⟩ := selectVictim_hands hsel (by rw [hb.frames]; exact hb.fifo)
        (by rw [hb.frames]; exact hb.clock)
      obtain ⟨_, _, _, _, _, _, _, e⟩ := installPage_ok hin
      rw [e]
      by_cases hm : mode = .fifo
      · subst hm
        show s3.fifo_hand = _
        rw [(h3 rfl).2, hb.frames]
        simp [fifoCalls]
      · show s3.fifo_hand = _
        rw [h4 hm]
        cases mode <;> first | exact absurd rfl hm | exact hsame
  | dirty pfn =>
    simp only [applyOp] at h
    rcases markDirty_ok h with e | ⟨_, _, _, e⟩ <;> (rw [e]; exact hsame)

theorem runOps_fifo_hand {R : Nat} {N : Int} :
    ∀ (ops : List Op) {s s1 : MMU}, Basic N s → runOps R s ops = .ok s1 →
      s1.fifo_hand = (s.fifo_hand + fifoCalls ops) % N := by
  intro ops
  induction ops with
  | nil =>
    intro s s1 hb h
    simp only [runOps, Except.ok.injEq] at h
    subst h
    simp [fifoCalls, Int.emod_eq_of_lt hb.fifo.1 hb.fifo.2]
  | cons op rest ih =>
    intro s s1 hb h
    unfold runOps at h
    split at h
    · cases h
    · rename_i s2 hop
      rw [ih (basic_applyOp hb hop) h, applyOp_fifo_hand hb hop, Int.emod_add_emod]
      congr 1
      cases op with
      | replace vpn mode rands => cases mode <;> simp only [fifoCalls] <;> omega
      | _ => simp [fifoCalls]

/-! ## The LRU scan finds a minimum -/

theorem lruScan_min (fd : Int → frame_entry) :
    ∀ (n : Nat) (i v : Int), 0 ≤ v → v < i →
      (∀ g, 0 ≤ g → g < i → (fd v).access_time ≤ (fd g).access_time) →
      ∀ g, 0 ≤ g → g < i + n →
        (fd (lruScan fd n i (fd v).access_time v)).access_time ≤ (fd g).access_time := by
  intro n
  induction n with
  | zero =>
    intro i v _ _ hmin g hg0 hg1
    simp only [lruScan]
    exact hmin g hg0 (by simpa using hg1)
  | succ n ih =>
    intro i v h0 h1 hmin g hg0 hg1
    unfold lruScan
    split
    · rename_i hlt
      refine ih (i + 1) i (by omega) (by omega) ?_ g hg0 (by push_cast at hg1; omega)
      intro k hk0 hk1
      by_cases hki : k = i
      · subst hki; exact le_refl _
      · have := hmin k hk0 (by omega)
        omega
    · rename_i hge
      refine ih (i + 1) v h0 (by omega) ?_ g hg0 (by push_cast at hg1; omega)
      intro k hk0 hk1
      by_cases hki : k = i
      · subst hki; omega
      · exact hmin k hk0 (by omega)

/-! ## The second-chance scan -/

theorem offset_inj {c N : Int} {i j : Nat} (hi : (i : Int) < N) (hj : (j : Int) < N)
    (h : (c + i) % N = (c + j) % N) : i = j := by
  have h1 := (Int.emod_eq_emod_iff_emod_sub_eq_zero).1 h
  have h2 : (c + i - (c + j)) = (i : Int) - j := by ring
  rw [h2] at h1
  have h3 : N ∣ ((i : Int) - j) := Int.dvd_of_emod_eq_zero h1
  have h4 : ((i : Int) - j) = 0 :=
    Int.eq_zero_of_abs_lt_dvd h3 (by rw [abs_lt]; constructor <;> omega)
  omega

theorem offset_range {c N : Int} (hN : 0 < N) (i : Nat) :
    0 ≤ (c + i) % N ∧ (c + i) % N < N :=
  ⟨Int.emod_nonneg _ (by omega), Int.emod_lt_of_pos _ hN⟩

/-- Every frame of the pool is at some offset below N from the hand. -/
theorem offset_exists {c N f : Int} (hf : 0 ≤ f ∧ f < N) :
    ∃ i : Nat, (i : Int) < N ∧ f = (c + i) % N := by
  have hN : 0 < N := by omega
  refine ⟨((f - c) % N).toNat, ?_, ?_⟩
  · rw [Int.toNat_of_nonneg (Int.emod_nonneg _ (by omega))]
    exact Int.emod_lt_of_pos _ hN
  · rw [Int.toNat_of_nonneg (Int.emod_nonneg _ (by omega)), Int.add_emod_emod]
    have : c + (f - c) = f := by ring
    rw [this, Int.emod_eq_of_lt hf.1 hf.2]

theorem offset_succ {c N : Int} (hc : 0 ≤ c ∧ c < N) (i : Nat) :
    Int.tmod ((c + i) % N + 1) N = (c + (i + 1 : Nat)) % N := by
  have hN : 0 < N := by omega
  obtain ⟨h0, h1⟩ := offset_range (c := c) hN i
  rw [(tmod_succ _ _ h0 h1).1, Int.emod_add_emod]
  push_cast
  rw [add_assoc]

theorem clearRefs_other (N : Int) (fd : Int → frame_entry) (c : Int) :
    ∀ (j : Nat) (g : Int), (∀ i : Nat, i < j → g ≠ (c + i) % N) →
      clearRefs N fd c j g = fd g := by
  intro j
  induction j with
  | zero => intro g _; rfl
  | succ j ih =>
    intro g hg
    simp only [clearRefs]
    rw [Function.update_noteq (hg j (Nat.lt_succ_self j))]
    exact ih g (fun i hi => hg i (Nat.lt_succ_of_lt hi))

theorem clearRefs_fields (N : Int) (fd : Int → frame_entry) (c : Int) :
    ∀ (j : Nat) (g : Int),
      clearRefs N fd c j g = fd g ∨ clearRefs N fd c j g = { fd g with ref := 0 } := by
  intro j
  induction j with
  | zero => intro g; exact Or.inl rfl
  | succ j ih =>
    intro g
    simp only [clearRefs]
    by_cases hg : g = (c + j) % N
    · subst hg
      rw [Function.update_same]
      rcases ih ((c + j) % N) with e | e <;> rw [e] <;> exact Or.inr rfl
    · rw [Function.update_noteq hg]
      exact ih g

theorem clearRefs_passed (N : Int) (fd : Int → frame_entry) (c : Int) :
    ∀ (j : Nat) (i : Nat), i < j →
      clearRefs N fd c j ((c + i) % N) = { fd ((c + i) % N) with ref := 0 } := by
  intro j
  induction j with
  | zero => intro i hi; omega
  | succ j ih =>
    intro i hi
    simp only [clearRefs]
    by_cases hg : (c + i) % N = (c + j) % N
    · rw [hg, Function.update_same]
      rcases clearRefs_fields N fd c j ((c + j) % N) with e | e <;> rw [e]
    · rw [Function.update_noteq hg]
      have hij : i ≠ j := fun e => hg (by rw [e])
      exact ih i (by omega)

/-- The scan passes over j referenced frames: j loop iterations lead from the
hand c to the hand (c + j) mod N with the reference bits of the frames passed
over cleared. -/
theorem clockScan_pass {N : Int} (fd : Int → frame_entry) {c : Int} (hc : 0 ≤ c ∧ c < N) :
    ∀ (j fuel : Nat), (j : Int) ≤ N →
      (∀ i : Nat, i < j → (fd ((c + i) % N)).ref = 1) →
      clockScan N (fuel + j) fd c = clockScan N fuel (clearRefs N fd c j) ((c + j) % N) := by
  have hN : 0 < N := by omega
  intro j
  induction j with
  | zero =>
    intro fuel _ _
    simp only [clearRefs, Nat.add_zero, Nat.cast_zero, add_zero]
    rw [Int.emod_eq_of_lt hc.1 hc.2]
  | succ j ih =>
    intro fuel hj href
    have hjN : (j : Int) < N := by push_cast at hj; omega
    have hstep : fuel + (j + 1) = (fuel + 1) + j := by omega
    rw [hstep, ih (fuel + 1) (by omega) (fun i hi => href i (Nat.lt_succ_of_lt hi))]
    have hrange := offset_range (c := c) hN j
    have hsame : clearRefs N fd c j ((c + j) % N) = fd ((c + j) % N) := by
      apply clearRefs_other
      intro i hi e
      have := offset_inj hjN (by omega) e
      omega
    have hr1 : (clearRefs N fd c j ((c + j) % N)).ref = 1 := by
      rw [hsame]; exact href j (Nat.lt_succ_self j)
    rw [clockScan, if_pos hrange, if_pos hr1, offset_succ hc j]
    rfl

/-- The scan stops at a frame whose reference bit is not set. -/
theorem clockScan_stop {N : Int} (fd : Int → frame_entry) {c : Int} (hc : 0 ≤ c ∧ c < N)
    (fuel : Nat) (h : (fd c).ref ≠ 1) : clockScan N (fuel + 1) fd c = .ok (fd, c) := by
  rw [clockScan, if_pos hc, if_neg h]

/-- The least offset from the hand at which the scan stops: the first frame
whose reference bit is clear, or N when every frame is referenced. -/
theorem clock_offset_exists {N : Int} (hN : 0 < N) (fd : Int → frame_entry) (c : Int)
    (hbits : ∀ g, 0 ≤ g → g < N → (fd g).ref = 0 ∨ (fd g).ref = 1) :
    ∃ j : Nat, (j : Int) ≤ N ∧ (∀ i : Nat, i < j → (fd ((c + i) % N)).ref = 1) ∧
      ((j : Int) < N → (fd ((c + j) % N)).ref = 0) := by
  have hex : ∃ j : Nat, N ≤ (j : Int) ∨ (fd ((c + j) % N)).ref ≠ 1 :=
    ⟨N.toNat, Or.inl (by rw [Int.toNat_of_nonneg (by omega)])⟩
  classical
  refine ⟨Nat.find hex, ?_, ?_, ?_⟩
  · have hle : Nat.find hex ≤ N.toNat :=
      Nat.find_min' hex (Or.inl (by rw [Int.toNat_of_nonneg (by omega)]))
    omega
  · intro i hi
    have := Nat.find_min hex hi
    push_neg at this
    exact this.2
  · intro hlt
    rcases Nat.find_spec hex with h | h
    · omega
    · obtain ⟨h0, h1⟩ := offset_range (c := c) hN (Nat.find hex)
      exact (hbits _ h0 h1).resolve_right h

/-- The second-chance loop with fuel N + 1, from a hand in range: it stops
after passing over j frames, j as in clock_offset_exists. -/
theorem clockScan_result {N : Int} (fd : Int → frame_entry) {c : Int} (hc : 0 ≤ c ∧ c < N)
    (j : Nat) (hj : (j : Int) ≤ N)
    (href : ∀ i : Nat, i < j → (fd ((c + i) % N)).ref = 1)
    (hstop : (j : Int) < N → (fd ((c + j) % N)).ref ≠ 1) :
    clockScan N (N.toNat + 1) fd c = .ok (clearRefs N fd c j, (c + j) % N) := by
  have hN : 0 < N := by omega
  have hfuel : N.toNat + 1 = (N.toNat - j + 1) + j := by omega
  rw [hfuel, clockScan_pass fd hc j _ hj href]
  apply clockScan_stop _ (offset_range hN j)
  by_cases hlt : (j : Int) < N
  · have hsame : clearRefs N fd c j ((c + j) % N) = fd ((c + j) % N) := by
      apply clearRefs_other
      intro i hi e
      have := offset_inj hlt (by omega) e
      omega
    rw [hsame]
    exact hstop hlt
  · have hjN : (j : Int) = N := by omega
    have h0 : (c + j) % N = (c + (0 : Nat)) % N := by
      rw [hjN]; simp
    have hpos : 0 < j := by omega
    rw [h0, clearRefs_passed N fd c j 0 hpos]
    simp

/-! ## Pass 1 of clean clock -/

theorem offset_shift {c N : Int} (hc : 0 ≤ c ∧ c < N) (i : Nat) :
    (Int.tmod (c + 1) N + i) % N = (c + (i + 1 : Nat)) % N := by
  rw [(tmod_succ _ _ hc.1 hc.2).1, Int.emod_add_emod]
  push_cast
  congr 1
  ring

/-- Pass 1 finds the first frame in cursor order that is unreferenced and
clean, when it is at an offset j below the number of iterations. -/
theorem cleanPass1_find {N : Int} :
    ∀ (j n : Nat) (fd : Int → frame_entry) (c : Int), 0 ≤ c ∧ c < N →
      (j : Int) < N → j < n →
      (∀ i : Nat, i < j →
        ¬ ((fd ((c + i) % N)).ref = 0 ∧ (fd ((c + i) % N)).dirty = 0)) →
      ((fd ((c + j) % N)).ref = 0 ∧ (fd ((c + j) % N)).dirty = 0) →
      ∃ fd1, cleanPass1 N n fd c
        = .ok (fd1, Int.tmod ((c + j) % N + 1) N, (c + j) % N) := by
  intro j
  induction j with
  | zero =>
    intro n fd c hc _ hn _ hclean
    obtain ⟨m, rfl⟩ : ∃ m, n = m + 1 := ⟨n - 1, by omega⟩
    have h0 : (c + (0 : Nat)) % N = c := by
      simp [Int.emod_eq_of_lt hc.1 hc.2]
    rw [h0] at hclean ⊢
    have hr : ¬ (fd c).ref = 1 := by rw [hclean.1]; decide
    exact ⟨fd, by rw [cleanPass1, if_pos hc, if_neg hr, if_pos hclean]⟩
  | succ j ih =>
    intro n fd c hc hj hn hskip hclean
    obtain ⟨m, rfl⟩ : ∃ m, n = m + 1 := ⟨n - 1, by omega⟩
    have hjN : (j : Int) < N := by push_cast at hj; omega
    have hc1 := (tmod_succ c N hc.1 hc.2).2
    have h0 : (c + (0 : Nat)) % N = c := by
      simp [Int.emod_eq_of_lt hc.1 hc.2]
    have hnot : ¬ ((fd c).ref = 0 ∧ (fd c).dirty = 0) := by
      have := hskip 0 (Nat.succ_pos j)
      rwa [h0] at this
    have hne : ∀ i : Nat, i ≤ j → (c + (i + 1 : Nat)) % N ≠ c := by
      intro i hi e
      have e : (c + (i + 1 : Nat)) % N = (c + (0 : Nat)) % N := e.trans h0.symm
      have := offset_inj (c := c) (N := N) (i := i + 1) (j := 0) (by push_cast; omega)
        (by simp; omega) e
      omega
    by_cases hr : (fd c).ref = 1
    · obtain ⟨fd1, h1⟩ := ih m (Function.update fd c { fd c with ref := 0 })
        (Int.tmod (c + 1) N) hc1 hjN (by omega)
        (fun i hi => by
          rw [offset_shift hc i, Function.update_noteq (hne i (by omega))]
          exact hskip (i + 1) (by omega))
        (by
          rw [offset_shift hc j, Function.update_noteq (hne j (le_refl _))]
          exact hclean)
      rw [offset_shift hc j] at h1
      exact ⟨fd1, by rw [cleanPass1, if_pos hc, if_pos hr]; exact h1⟩
    · obtain ⟨fd1, h1⟩ := ih m fd (Int.tmod (c + 1) N) hc1 hjN (by omega)
        (fun i hi => by
          rw [offset_shift hc i]
          exact hskip (i + 1) (by omega))
        (by
          rw [offset_shift hc j]
          exact hclean)
      rw [offset_shift hc j] at h1
      exact ⟨fd1, by rw [cleanPass1, if_pos hc, if_neg hr, if_neg hnot]; exact h1⟩

/-- Selection of clean clock when pass 1 finds a victim at offset j. -/
theorem selectVictim_clean_find (R : Nat) {s : MMU} (rands : List Nat)
    (hN : 1 ≤ s.numFrames) (hc : 0 ≤ s.clock_hand ∧ s.clock_hand < s.numFrames)
    (j : Nat) (hj : (j : Int) < s.numFrames)
    (hskip : ∀ i : Nat, i < j →
      ¬ ((s.frame_data ((s.clock_hand + i) % s.numFrames)).ref = 0 ∧
         (s.frame_data ((s.clock_hand + i) % s.numFrames)).dirty = 0))
    (hclean : (s.frame_data ((s.clock_hand + j) % s.numFrames)).ref = 0 ∧
      (s.frame_data ((s.clock_hand + j) % s.numFrames)).dirty = 0) :
    ∃ s1 : MMU, selectVictim R s ._clock_clean rands
        = .ok ((s.clock_hand + j) % s.numFrames, s1, rands) ∧
      s1.clock_hand = ((s.clock_hand + j) % s.numFrames + 1) % s.numFrames := by
  have hpos : 0 < s.numFrames := by omega
  obtain ⟨fd1, h1⟩ := cleanPass1_find j s.numFrames.toNat s.frame_data s.clock_hand hc hj
    (by omega) hskip hclean
  obtain ⟨hv0, hv1⟩ := offset_range (c := s.clock_hand) hpos j
  have hnv : ¬ (s.clock_hand + j) % s.numFrames < 0 := by omega
  refine ⟨{ s with
      frame_data := fd1
      clock_hand := Int.tmod ((s.clock_hand + j) % s.numFrames + 1) s.numFrames }, ?_,
    (tmod_succ _ _ hv0 hv1).1⟩
  simp only [selectVictim, h1, if_neg hnv]

/-! ## The driver keeps page table and frame table consistent -/

theorem mapped_fresh (N : Int) (hN : 1 ≤ N) : Mapped N (fresh N) where
  basic := basic_fresh N hN
  free := fun _ _ => rfl
  used := fun g h0 h1 => by
    have h1 : g < 0 := h1
    omega
  table := fun _ _ _ => Or.inl rfl
  maps := fun p f hp0 _ hf0 _ => by
    show (-1 : Int) = f ↔ (-1 : Int) = p
    constructor <;> intro h <;> omega

/-- A change that leaves the page table, the allocation counter and the vpn
fields alone keeps the mapping. -/
theorem mapped_of_same {N : Int} {s s1 : MMU} (hm : Mapped N s) (hb : Basic N s1)
    (hpt : s1.page_table = s.page_table) (hnf : s1.next_frame = s.next_frame)
    (hv : ∀ g, (s1.frame_data g).vpn = (s.frame_data g).vpn) : Mapped N s1 where
  basic := hb
  free := fun g hg => by rw [hv, hm.free g (by rw [← hnf]; exact hg)]
  used := fun g h0 h1 => by rw [hv]; exact hm.used g h0 (by rw [← hnf]; exact h1)
  table := fun p h0 h1 => by rw [hpt]; exact hm.table p h0 h1
  maps := fun p f hp0 hp1 hf0 hf1 => by rw [hpt, hv]; exact hm.maps p f hp0 hp1 hf0 hf1

theorem mapped_touch {N : Int} {s : MMU} (hm : Mapped N s) (r : Int) :
    Mapped N { s with
      frame_data := Function.update s.frame_data r
        { s.frame_data r with access_time := s._time, ref := 1 }
      _time := s._time + 1 } :=
  mapped_of_same hm (basic_touch hm.basic r) rfl rfl (fun g => by
    by_cases hg : g = r
    · subst hg; simp
    · simp [Function.update_noteq hg])

theorem mapped_dirty {N : Int} {s : MMU} (hm : Mapped N s) (r : Int) :
    Mapped N { s with
      frame_data := Function.update s.frame_data r { s.frame_data r with dirty := 1 } } :=
  mapped_of_same hm (basic_dirty hm.basic r) rfl rfl (fun g => by
    by_cases hg : g = r
    · subst hg; simp
    · simp [Function.update_noteq hg])

theorem mapped_select {N : Int} {R : Nat} {s s1 : MMU} {mode : repl} {rands rest : List Nat}
    {v : Int} (hm : Mapped N s) (h : selectVictim R s mode rands = .ok (v, s1, rest)) :
    Mapped N s1 := by
  obtain ⟨_, h2, _, h4, h5⟩ := selectVictim_frame h
  exact mapped_of_same hm (basic_select hm.basic h) h2 h4 (fun g => (h5 g).1)

/-- Allocation of the next free frame for a page that is not resident. -/
theorem mapped_alloc {N : Int} {s : MMU} (hm : Mapped N s) (p : Int)
    (hp : 0 ≤ p ∧ p < NUM_PAGES) (hmiss : s.page_table p = -1) (hfree : s.next_frame < N) :
    Mapped N { s with
      next_frame := s.next_frame + 1
      page_table := Function.update s.page_table p s.next_frame
      frame_data := Function.update s.frame_data s.next_frame
        { vpn := p, dirty := 0, access_time := s._time, ref := 1 }
      _time := s._time + 1 } where
  basic := basic_load hm.basic p s.next_frame _ _ ⟨by have := hm.basic.next; omega, by omega⟩ hp
  free := by
    intro g hg
    have hnf := hm.basic.next
    have hne : g ≠ s.next_frame := by
      rcases hg with h | h
      · omega
      · have h : s.next_frame + 1 ≤ g := h
        omega
    simp only [Function.update_noteq hne]
    apply hm.free
    rcases hg with h | h
    · exact Or.inl h
    · have h : s.next_frame + 1 ≤ g := h
      exact Or.inr (by omega)
  used := by
    intro g h0 h1
    have h1 : g < s.next_frame + 1 := h1
    by_cases hg : g = s.next_frame
    · subst hg
      simp only [Function.update_same]
      omega
    · simp only [Function.update_noteq hg]
      exact hm.used g h0 (by omega)
  table := by
    intro x hx0 hx1
    have hnf := hm.basic.next
    by_cases hx : x = p
    · subst hx
      simp only [Function.update_same]
      exact Or.inr ⟨hnf.1, hfree⟩
    · simp only [Function.update_noteq hx]
      exact hm.table x hx0 hx1
  maps := by
    intro x f hx0 hx1 hf0 hf1
    have hnf := hm.basic.next
    have hfreevpn : (s.frame_data s.next_frame).vpn = -1 := hm.free _ (Or.inr (le_refl _))
    by_cases hx : x = p
    · subst hx
      by_cases hf : f = s.next_frame
      · subst hf
        simp
      · simp only [Function.update_same, Function.update_noteq hf]
        have := hm.maps x f hx0 hx1 hf0 hf1
        constructor
        · intro e; exact absurd e.symm hf
        · intro e
          have := this.2 e
          omega
    · by_cases hf : f = s.next_frame
      · subst hf
        simp only [Function.update_same, Function.update_noteq hx]
        have := hm.maps x s.next_frame hx0 hx1 hf0 hf1
        constructor
        · intro e
          have := this.1 e
          omega
        · intro e; exact absurd e.symm hx
      · simp only [Function.update_noteq hf, Function.update_noteq hx]
        exact hm.maps x f hx0 hx1 hf0 hf1

/-- Eviction from a full pool for a page that is not resident. -/
theorem mapped_install {N : Int} {s : MMU} (hm : Mapped N s) (p v : Int)
    (hp : 0 ≤ p ∧ p < NUM_PAGES) (hmiss : s.page_table p = -1)
    (hfull : s.next_frame = N) (hv : 0 ≤ v ∧ v < N) :
    Mapped N { s with
      page_table := Function.update
        (if (s.frame_data v).vpn ≠ -1 then
          Function.update s.page_table (s.frame_data v).vpn (-1)
         else s.page_table) p v
      frame_data := Function.update s.frame_data v
        { vpn := p, dirty := 0, access_time := s._time, ref := 1 }
      _time := s._time + 1 } := by
  have hq : (s.frame_data v).vpn ≠ -1 := hm.used v hv.1 (by rw [hfull]; exact hv.2)
  have hqr := (hm.basic.vpn v).resolve_left hq
  have hqv : s.page_table (s.frame_data v).vpn = v :=
    (hm.maps _ v hqr.1 hqr.2 hv.1 hv.2).2 rfl
  have hqp : (s.frame_data v).vpn ≠ p := by
    intro e
    rw [e, hmiss] at hqv
    omega
  rw [if_pos hq]
  refine ⟨basic_load hm.basic p v _ _ hm.basic.next hp, ?_, ?_, ?_, ?_⟩
  · intro g hg
    have hg : g < 0 ∨ s.next_frame ≤ g := hg
    have hne : g ≠ v := by omega
    simp only [Function.update_noteq hne]
    exact hm.free g hg
  · intro g h0 h1
    have h1 : g < s.next_frame := h1
    by_cases hg : g = v
    · subst hg
      simp only [Function.update_same]
      omega
    · simp only [Function.update_noteq hg]
      exact hm.used g h0 h1
  · intro x hx0 hx1
    by_cases hx : x = p
    · subst hx
      simp only [Function.update_same]
      exact Or.inr hv
    · simp only [Function.update_noteq hx]
      by_cases hxq : x = (s.frame_data v).vpn
      · rw [hxq, Function.update_same]
        exact Or.inl rfl
      · rw [Function.update_noteq hxq]
        exact hm.table x hx0 hx1
  · intro x f hx0 hx1 hf0 hf1
    by_cases hx : x = p
    · subst hx
      by_cases hf : f = v
      · subst hf
        simp
      · simp only [Function.update_same, Function.update_noteq hf]
        have := hm.maps x f hx0 hx1 hf0 hf1
        constructor
        · intro e; exact absurd e.symm hf
        · intro e
          have := this.2 e
          omega
    · simp only [Function.update_noteq hx]
      by_cases hxq : x = (s.frame_data v).vpn
      · rw [hxq, Function.update_same]
        by_cases hf : f = v
        · subst hf
          simp only [Function.update_same]
          constructor
          · intro e; omega
          · intro e; exact absurd e.symm hqp
        · simp only [Function.update_noteq hf]
          have := hm.maps (s.frame_data v).vpn f hqr.1 hqr.2 hf0 hf1
          constructor
          · intro e; omega
          · intro e
            have := this.2 e
            omega
      · rw [Function.update_noteq hxq]
        by_cases hf : f = v
        · subst hf
          simp only [Function.update_same]
          have := hm.maps x f hx0 hx1 hf0 hf1
          constructor
          · intro e
            exact absurd (this.1 e).symm hxq
          · intro e; exact absurd e.symm hx
        · simp only [Function.update_noteq hf]
          exact hm.maps x f hx0 hx1 hf0 hf1

/-! ## One iteration of the driver loop -/

theorem finishEvent_ok {d d1 : Driver} {pfn : Int} {rw : Char}
    (h : finishEvent d pfn rw = .ok d1) :
    ∃ m, markDirty d.mmu pfn rw = .ok m ∧ (rw = 'R' ∨ rw = 'W') ∧
      d1 = { d with mmu := m, no_events := d.no_events + 1 } := by
  unfold finishEvent at h
  split at h
  · cases h
  · rename_i m hm
    split at h
    · cases h
    · rename_i hrw
      simp only [Except.ok.injEq] at h
      refine ⟨m, hm, ?_, h.symm⟩
      by_cases hr : rw = 'R'
      · exact Or.inl hr
      · exact Or.inr (not_not.mp (fun hw => hrw ⟨hr, hw⟩))

/-- The three ways in which an iteration of the driver loop completes: a hit,
a miss served by allocateFrame, a miss served by replacePage. -/
theorem accessPage_ok {R : Nat} {frames : Int} {replace : repl} {d d1 : Driver}
    {vpn : Int} {rw : Char}
    (h : accessPage R frames replace d vpn rw = .ok d1) :
    (∃ pfn m, checkInMemory d.mmu vpn = .ok (pfn, m) ∧ pfn ≠ -1 ∧
        finishEvent { d with mmu := m } pfn rw = .ok d1) ∨
     (∃ m pfn1 m1, checkInMemory d.mmu vpn = .ok (-1, m) ∧ d.allocated < frames ∧
        allocateFrame m vpn = .ok (pfn1, m1) ∧
        finishEvent { d with mmu := m1, page_faults := d.page_faults + 1,
                             allocated := d.allocated + 1 } pfn1 rw = .ok d1) ∨
     (∃ m Pvictim pfn1 m1 rest, checkInMemory d.mmu vpn = .ok (-1, m) ∧
        ¬ d.allocated < frames ∧
        replacePage R m vpn replace d.rands = .ok (Pvictim, pfn1, m1, rest) ∧
        finishEvent { d with mmu := m1, page_faults := d.page_faults + 1, rands := rest,
                             disk_writes := if Pvictim.dirty ≠ 0 then d.disk_writes + 1
                                            else d.disk_writes } pfn1 rw = .ok d1) := by
  unfold accessPage at h
  split at h
  · cases h
  · rename_i pfn m hc
    split at h
    · rename_i hmiss
      subst hmiss
      split at h
      · rename_i hlt
        split at h
        · cases h
        · rename_i pfn1 m1 ha
          exact Or.inr (Or.inl ⟨m, pfn1, m1, hc, hlt, ha, h⟩)
      · rename_i hge
        split at h
        · cases h
        · rename_i Pvictim pfn1 m1 rest hr
          exact Or.inr (Or.inr ⟨m, Pvictim, pfn1, m1, rest, hc, hge, hr, h⟩)
    · rename_i hhit
      exact Or.inl ⟨pfn, m, hc, hhit, h⟩

theorem mapped_markDirty {N : Int} {s s1 : MMU} {pfn : Int} {rw : Char} (hm : Mapped N s)
    (h : markDirty s pfn rw = .ok s1) :
    Mapped N s1 ∧ s1._time = s._time ∧ s1.next_frame = s.next_frame := by
  rcases markDirty_ok h with e | ⟨_, _, _, e⟩
  · rw [e]; exact ⟨hm, rfl, rfl⟩
  · rw [e]; exact ⟨mapped_dirty hm pfn, rfl, rfl⟩

theorem dinv_start (N : Int) (hN : 1 ≤ N) (rands : List Nat) :
    DInv N (startDriver N rands) where
  mapped := mapped_fresh N hN
  alloc := rfl
  events := rfl
  counts := ⟨le_refl _, le_refl _, le_refl _⟩

theorem dinv_accessPage {R : Nat} {N : Int} {replace : repl} {d d1 : Driver}
    {vpn : Int} {rw : Char} (hd : DInv N d)
    (h : accessPage R N replace d vpn rw = .ok d1) : DInv N d1 := by
  have hcase := accessPage_ok h
  have hnext := hd.mapped.basic.next
  rcases hcase with ⟨pfn, m, hc, hhit, hfin⟩ | ⟨m, pfn1, m1, hc, hlt, ha, hfin⟩ |
      ⟨m, Pvictim, pfn1, m1, rest, hc, hge, hr, hfin⟩
  · obtain ⟨_, _, _, h4⟩ := checkInMemory_ok hc
    rcases h4 with ⟨e, _⟩ | ⟨_, _, _, _, e⟩
    · exact absurd e hhit
    · obtain ⟨m2, hmd, _, e2⟩ := finishEvent_ok hfin
      have hm1 : Mapped N m := by rw [e]; exact mapped_touch hd.mapped pfn
      obtain ⟨hm2, ht2, hn2⟩ := mapped_markDirty hm1 hmd
      have ht1 : m._time = d.mmu._time + 1 := by rw [e]
      have hn1 : m.next_frame = d.mmu.next_frame := by rw [e]
      have hc := hd.counts
      have hev := hd.events
      rw [e2]
      exact ⟨hm2, by show d.allocated = m2.next_frame; rw [hn2, hn1]; exact hd.alloc,
        by show d.no_events + 1 = m2._time; rw [ht2, ht1, hd.events],
        by
          show 0 ≤ d.disk_writes ∧ d.disk_writes ≤ d.page_faults ∧
            d.page_faults ≤ d.no_events + 1
          omega⟩
  · obtain ⟨hp0, hp1, hpt, h4⟩ := checkInMemory_ok hc
    have em : m = d.mmu := by
      rcases h4 with ⟨_, e⟩ | ⟨e, _⟩
      · exact e
      · exact absurd rfl e
    subst em
    obtain ⟨_, _, _, _, hfr, _, e⟩ := allocateFrame_ok ha
    obtain ⟨m2, hmd, _, e2⟩ := finishEvent_ok hfin
    have hfree : d.mmu.next_frame < N := by rw [← hd.alloc]; exact hlt
    have hm1 : Mapped N m1 := by
      rw [e]; exact mapped_alloc hd.mapped vpn ⟨hp0, hp1⟩ hpt.symm hfree
    obtain ⟨hm2, ht2, hn2⟩ := mapped_markDirty hm1 hmd
    have ht1 : m1._time = d.mmu._time + 1 := by rw [e]
    have hn1 : m1.next_frame = d.mmu.next_frame + 1 := by rw [e]
    have hc := hd.counts
    rw [e2]
    exact ⟨hm2, by show d.allocated + 1 = m2.next_frame; rw [hn2, hn1, hd.alloc],
      by show d.no_events + 1 = m2._time; rw [ht2, ht1, hd.events],
      by
        show 0 ≤ d.disk_writes ∧ d.disk_writes ≤ d.page_faults + 1 ∧
          d.page_faults + 1 ≤ d.no_events + 1
        omega⟩
  · obtain ⟨hp0, hp1, hpt, h4⟩ := checkInMemory_ok hc
    have em : m = d.mmu := by
      rcases h4 with ⟨_, e⟩ | ⟨e, _⟩
      · exact e
      · exact absurd rfl e
    subst em
    obtain ⟨s1, hsel, _, hin⟩ := replacePage_ok hr
    obtain ⟨_, hpt1, _, hnf1, _⟩ := selectVictim_frame hsel
    have hms : Mapped N s1 := mapped_select hd.mapped hsel
    obtain ⟨hv0, hv1, _, _, _, _, _, e⟩ := installPage_ok hin
    obtain ⟨m2, hmd, _, e2⟩ := finishEvent_ok hfin
    have hfull : s1.next_frame = N := by
      rw [hnf1]
      have := hd.alloc
      omega
    have hm1 : Mapped N m1 := by
      rw [e]
      exact mapped_install hms vpn pfn1 ⟨hp0, hp1⟩ (by rw [hpt1]; exact hpt.symm) hfull
        ⟨hv0, by rw [← hms.basic.frames]; exact hv1⟩
    obtain ⟨hm2, ht2, hn2⟩ := mapped_markDirty hm1 hmd
    obtain ⟨_, _, ht3, _⟩ := selectVictim_frame hsel
    have ht1 : m1._time = d.mmu._time + 1 := by rw [e, ← ht3]
    have hn1 : m1.next_frame = d.mmu.next_frame := by rw [e, ← hnf1]
    have hc := hd.counts
    rw [e2]
    refine ⟨hm2, by show d.allocated = m2.next_frame; rw [hn2, hn1]; exact hd.alloc,
      by show d.no_events + 1 = m2._time; rw [ht2, ht1, hd.events], ?_⟩
    show 0 ≤ (if Pvictim.dirty ≠ 0 then d.disk_writes + 1 else d.disk_writes) ∧
      (if Pvictim.dirty ≠ 0 then d.disk_writes + 1 else d.disk_writes) ≤ d.page_faults + 1 ∧
      d.page_faults + 1 ≤ d.no_events + 1
    split <;> omega

theorem dreach_inv {R : Nat} {N : Int} (hN : 1 ≤ N) {d : Driver} (h : DReach R N d) :
    DInv N d := by
  induction h with
  | start rands => exact dinv_start N hN rands
  | step replace address rw _ hstep ih => exact dinv_accessPage ih hstep

/-! ## Driver runs are sequences of calls -/

theorem runPages_reach {R : Nat} {N : Int} (replace : repl) :
    ∀ (pages : List (Int × Char)) {d d1 : Driver}, DReach R N d →
      runPages R N replace d pages = .ok d1 → DReach R N d1 := by
  intro pages
  induction pages with
  | nil =>
    intro d d1 hr h
    simp only [runPages, Except.ok.injEq] at h
    subst h
    exact hr
  | cons ev rest ih =>
    intro d d1 hr h
    obtain ⟨vpn, rw⟩ := ev
    unfold runPages at h
    split at h
    · cases h
    · rename_i d2 hstep
      exact ih (DReach.step replace vpn rw hr hstep) h

theorem runTrace_reach {R : Nat} {N : Int} (replace : repl) (trace : List (Nat × Char))
    {d d1 : Driver} (hr : DReach R N d) (h : runTrace R N replace d trace = .ok d1) :
    DReach R N d1 :=
  runPages_reach replace _ hr h

theorem reach_markDirty {R : Nat} {N : Int} {s s1 : MMU} {pfn : Int} {rw : Char}
    (hr : Reach R N s) (h : markDirty s pfn rw = .ok s1) : Reach R N s1 := by
  rcases Classical.em (pfn ≠ -1 ∧ rw = 'W') with hw | hw
  · obtain ⟨_, hw2⟩ := hw
    subst hw2
    exact Reach.step (.dirty pfn) hr h
  · have e : s1 = s := by
      unfold markDirty at h
      rw [if_neg hw] at h
      exact (Except.ok.inj h).symm
    rw [e]; exact hr

/-- The statics after an iteration of the driver loop are reachable by calls
into the core. -/
theorem reach_accessPage {R : Nat} {N : Int} {replace : repl} {d d1 : Driver}
    {vpn : Int} {rw : Char} (ih : Reach R N d.mmu)
    (hstep : accessPage R N replace d vpn rw = .ok d1) : Reach R N d1.mmu := by
  have hcase := accessPage_ok hstep
  rcases hcase with ⟨pfn, m, hc, _, hfin⟩ | ⟨m, pfn1, m1, hc, _, ha, hfin⟩ |
      ⟨m, Pvictim, pfn1, m1, rest, hc, _, hr, hfin⟩
  · obtain ⟨m2, hmd, _, e2⟩ := finishEvent_ok hfin
    have h1 : Reach R N m :=
      Reach.step (.check vpn) ih (by simp only [applyOp, hc])
    rw [e2]
    exact reach_markDirty h1 hmd
  · obtain ⟨m2, hmd, _, e2⟩ := finishEvent_ok hfin
    have h1 : Reach R N m :=
      Reach.step (.check vpn) ih (by simp only [applyOp, hc])
    have h2 : Reach R N m1 :=
      Reach.step (.alloc vpn) h1 (by simp only [applyOp, ha])
    rw [e2]
    exact reach_markDirty h2 hmd
  · obtain ⟨m2, hmd, _, e2⟩ := finishEvent_ok hfin
    have h1 : Reach R N m :=
      Reach.step (.check vpn) ih (by simp only [applyOp, hc])
    have h2 : Reach R N m1 :=
      Reach.step (.replace vpn replace d.rands) h1 (by simp only [applyOp, hr])
    rw [e2]
    exact reach_markDirty h2 hmd

/-- Every state of the statics that the driver reaches is reachable by calls
into the core. -/
theorem dreach_reach {R : Nat} {N : Int} {d : Driver} (h : DReach R N d) :
    Reach R N d.mmu := by
  induction h with
  | start rands => exact Reach.start
  | step replace address rw _ hstep ih => exact reach_accessPage ih hstep

/-! ## Lemmas for the runs of the driver and for selection -/

/-! ## Pass 1 of clean clock without a victim, and the errors of selection -/

theorem clearRef_self (x : frame_entry) (h : x.ref = 0) : { x with ref := 0 } = x := by
  cases x
  simp only at h
  subst h
  rfl

/-- Pass 1 passes over j frames none of which is unreferenced and clean: j
iterations lead from the hand c to the hand (c + j) mod N with the reference
bits of the frames passed over cleared. -/
theorem cleanPass1_pass {N : Int} (fd : Int → frame_entry) {c : Int} (hc : 0 ≤ c ∧ c < N) :
    ∀ (j m : Nat), (j : Int) ≤ N →
      (∀ i : Nat, i < j →
        ¬ ((fd ((c + i) % N)).ref = 0 ∧ (fd ((c + i) % N)).dirty = 0)) →
      (∀ i : Nat, i < j → (fd ((c + i) % N)).ref = 0 ∨ (fd ((c + i) % N)).ref = 1) →
      cleanPass1 N (m + j) fd c = cleanPass1 N m (clearRefs N fd c j) ((c + j) % N) := by
  have hN : 0 < N := by omega
  intro j
  induction j with
  | zero =>
    intro m _ _ _
    simp only [clearRefs, Nat.add_zero, Nat.cast_zero, add_zero]
    rw [Int.emod_eq_of_lt hc.1 hc.2]
  | succ j ih =>
    intro m hj hskip hbits
    have hjN : (j : Int) < N := by push_cast at hj; omega
    have hstep : m + (j + 1) = (m + 1) + j := by omega
    rw [hstep, ih (m + 1) (by omega) (fun i hi => hskip i (Nat.lt_succ_of_lt hi))
      (fun i hi => hbits i (Nat.lt_succ_of_lt hi))]
    have hrange := offset_range (c := c) hN j
    have hsame : clearRefs N fd c j ((c + j) % N) = fd ((c + j) % N) := by
      apply clearRefs_other
      intro i hi e
      have := offset_inj hjN (by omega) e
      omega
    have hnot := hskip j (Nat.lt_succ_self j)
    rw [cleanPass1, if_pos hrange, offset_succ hc j, hsame]
    rcases hbits j (Nat.lt_succ_self j) with h0 | h1
    · have hr : ¬ (fd ((c + j) % N)).ref = 1 := by rw [h0]; decide
      rw [if_neg hr, if_neg hnot]
      congr 1
      simp only [clearRefs]
      rw [hsame, clearRef_self _ h0, ← hsame, Function.update_eq_self]
    · rw [if_pos h1]
      congr 1
      simp only [clearRefs]
      rw [hsame]

theorem clockScan_error (N : Int) :
    ∀ (fuel : Nat) (fd : Int → frame_entry) (c : Int) (e : Fault),
      clockScan N fuel fd c = .error e → e = .no_fuel ∨ e = .undefined := by
  intro fuel
  induction fuel with
  | zero =>
    intro fd c e h
    simp only [clockScan, Except.error.injEq] at h
    exact Or.inl h.symm
  | succ n ih =>
    intro fd c e h
    unfold clockScan at h
    split at h
    · split at h
      · exact ih _ _ _ h
      · cases h
    · simp only [Except.error.injEq] at h
      exact Or.inr h.symm

theorem cleanPass1_error (N : Int) :
    ∀ (n : Nat) (fd : Int → frame_entry) (c : Int) (e : Fault),
      cleanPass1 N n fd c = .error e → e = .undefined := by
  intro n
  induction n with
  | zero => intro fd c e h; simp [cleanPass1] at h
  | succ n ih =>
    intro fd c e h
    unfold cleanPass1 at h
    split at h
    · split at h
      · exact ih _ _ _ h
      · split at h
        · cases h
        · exact ih _ _ _ h
    · simp only [Except.error.injEq] at h
      exact h.symm

theorem randDraw_error (limit span : Nat) :
    ∀ (rands : List Nat) (e : Fault), randDraw limit span rands = .error e → e = .no_rand := by
  intro rands
  induction rands with
  | nil =>
    intro e h
    simp only [randDraw, Except.error.injEq] at h
    exact h.symm
  | cons a l ih =>
    intro e h
    unfold randDraw at h
    split at h
    · exact ih e h
    · cases h

/-- Victim selection never ends in the fault of the guard of lines 139-144. -/
theorem selectVictim_error {R : Nat} {s : MMU} {mode : repl} {rands : List Nat} {e : Fault}
    (h : selectVictim R s mode rands = .error e) : e ≠ .victim_not_set := by
  unfold selectVictim at h
  cases mode with
  | lru =>
    simp only at h
    split at h
    · cases h
    · simp only [Except.error.injEq] at h
      rw [← h]; decide
  | _random =>
    simp only at h
    split at h
    · simp only [Except.error.injEq] at h
      rw [← h]; decide
    · split at h
      · rename_i e1 hr
        simp only [Except.error.injEq] at h
        rw [← h, randDraw_error _ _ _ _ hr]; decide
      · cases h
  | fifo =>
    simp only at h
    split at h
    · simp only [Except.error.injEq] at h
      rw [← h]; decide
    · cases h
  | _clock =>
    simp only at h
    split at h
    · rename_i e1 hr
      simp only [Except.error.injEq] at h
      rw [← h]
      rcases clockScan_error _ _ _ _ _ hr with e2 | e2 <;> rw [e2] <;> decide
    · cases h
  | _clock_clean =>
    simp only at h
    split at h
    · rename_i e1 hr
      simp only [Except.error.injEq] at h
      rw [← h, cleanPass1_error _ _ _ _ _ hr]; decide
    · split at h
      · split at h
        · rename_i e1 hr
          simp only [Except.error.injEq] at h
          rw [← h]
          rcases clockScan_error _ _ _ _ _ hr with e2 | e2 <;> rw [e2] <;> decide
        · cases h
      · cases h

/-- Pass 1 of clean clock when no frame of the pool is unreferenced and clean:
after k <= N iterations the hand is at (c + k) mod N, the reference bits of the
frames passed over are cleared, and there is no victim. -/
theorem cleanPass1_none {N : Int} (fd : Int → frame_entry) {c : Int} (hc : 0 ≤ c ∧ c < N)
    (hbits : ∀ g, 0 ≤ g → g < N → (fd g).ref = 0 ∨ (fd g).ref = 1)
    (hnone : ∀ g, 0 ≤ g → g < N → ¬ ((fd g).ref = 0 ∧ (fd g).dirty = 0))
    (k : Nat) (hk : (k : Int) ≤ N) :
    cleanPass1 N k fd c = .ok (clearRefs N fd c k, (c + k) % N, -1) := by
  have hN : 0 < N := by omega
  have h := cleanPass1_pass fd hc k 0 hk
    (fun i _ => hnone _ (offset_range hN i).1 (offset_range hN i).2)
    (fun i _ => hbits _ (offset_range hN i).1 (offset_range hN i).2)
  rw [Nat.zero_add] at h
  rw [h]
  rfl

/-- After the reference bits of all N frames from the hand are cleared, every
frame of the pool has ref = 0. -/
theorem clearRefs_all {N : Int} (fd : Int → frame_entry) (c : Int) (hN : 0 < N)
    (g : Int) (hg : 0 ≤ g ∧ g < N) : (clearRefs N fd c N.toNat g).ref = 0 := by
  obtain ⟨i, hi, e⟩ := offset_exists (c := c) hg
  rw [e, clearRefs_passed N fd c N.toNat i (by omega)]

/-- Selection of clean clock when no frame of the pool is unreferenced and
clean: pass 1 clears every reference bit and brings the hand back to c, pass 2
takes frame c. -/
theorem selectVictim_clean_none (R : Nat) {s : MMU} (rands : List Nat)
    (hN : 1 ≤ s.numFrames) (hc : 0 ≤ s.clock_hand ∧ s.clock_hand < s.numFrames)
    (hbits : ∀ g, 0 ≤ g → g < s.numFrames →
      (s.frame_data g).ref = 0 ∨ (s.frame_data g).ref = 1)
    (hnone : ∀ g, 0 ≤ g → g < s.numFrames →
      ¬ ((s.frame_data g).ref = 0 ∧ (s.frame_data g).dirty = 0)) :
    selectVictim R s ._clock_clean rands
      = .ok (s.clock_hand,
          { s with
            frame_data := clearRefs s.numFrames s.frame_data s.clock_hand s.numFrames.toNat
            clock_hand := Int.tmod (s.clock_hand + 1) s.numFrames }, rands) := by
  have hpos : 0 < s.numFrames := by omega
  have hp1 := cleanPass1_none s.frame_data hc hbits hnone s.numFrames.toNat
    (by rw [Int.toNat_of_nonneg (by omega)])
  have hback : (s.clock_hand + (s.numFrames.toNat : Int)) % s.numFrames = s.clock_hand := by
    rw [Int.toNat_of_nonneg (by omega), Int.add_emod_self, Int.emod_eq_of_lt hc.1 hc.2]
  rw [hback] at hp1
  have hstop := clockScan_stop
    (clearRefs s.numFrames s.frame_data s.clock_hand s.numFrames.toNat) hc s.numFrames.toNat
    (by rw [clearRefs_all s.frame_data s.clock_hand hpos s.clock_hand hc]; decide)
  have hneg : (-1 : Int) < 0 := by decide
  simp only [selectVictim, hp1, if_pos hneg, hstop]

/-- The frame chosen by a successful selection is a frame of the pool. -/
theorem selectVictim_range {R : Nat} {s s1 : MMU} {mode : repl} {rands rest : List Nat}
    {v : Int} (h : selectVictim R s mode rands = .ok (v, s1, rest))
    (hN : 1 ≤ s.numFrames) (hmax : mode = ._random → s.numFrames ≤ INT_MAX)
    (hf : 0 ≤ s.fifo_hand ∧ s.fifo_hand < s.numFrames) :
    0 ≤ v ∧ v < s.numFrames := by
  unfold selectVictim at h
  cases mode with
  | lru =>
    simp only at h
    split at h
    · simp only [Except.ok.injEq, Prod.mk.injEq] at h
      obtain ⟨h1, _, _⟩ := h
      have hr := lruScan_range s.frame_data (s.numFrames - 1).toNat 1
        (s.frame_data 0).access_time 0 (le_refl _) (by decide)
      rw [h1, Int.toNat_of_nonneg (by omega)] at hr
      exact ⟨hr.1, by omega⟩
    · cases h
  | _random =>
    simp only at h
    split at h
    · cases h
    · split at h
      · cases h
      · rename_i r rest1 hr
        simp only [Except.ok.injEq, Prod.mk.injEq] at h
        obtain ⟨h1, _, _⟩ := h
        obtain ⟨raw, _, _, hraw⟩ := randDraw_ok hr
        have hmax1 : s.numFrames ≤ 2147483647 := hmax rfl
        have hspan : ((s.numFrames % (UINT_MOD : Int)).toNat : Int) = s.numFrames := by
          rw [Int.toNat_of_nonneg (Int.emod_nonneg _ (by unfold UINT_MOD; decide))]
          apply Int.emod_eq_of_lt (by omega)
          unfold UINT_MOD
          push_cast
          omega
        have hlt : r < (s.numFrames % (UINT_MOD : Int)).toNat := by
          rw [hraw]
          apply Nat.mod_lt
          have : (0 : Int) < ((s.numFrames % (UINT_MOD : Int)).toNat : Int) := by
            rw [hspan]; omega
          omega
        have hlt2 : (r : Int) < s.numFrames := by
          rw [← hspan]; exact_mod_cast hlt
        have hconv : toInt32 r = (r : Int) := by
          unfold toInt32
          rw [if_pos (by omega)]
        rw [← h1, hconv]
        exact ⟨by omega, hlt2⟩
  | fifo =>
    simp only at h
    split at h
    · cases h
    · simp only [Except.ok.injEq, Prod.mk.injEq] at h
      rw [← h.1]; exact hf
  | _clock =>
    simp only at h
    split at h
    · cases h
    · rename_i fd hand hscan
      simp only [Except.ok.injEq, Prod.mk.injEq] at h
      obtain ⟨_, h3, h4, _⟩ := clockScan_sameButRef _ _ _ _ _ _ hscan
      rw [← h.1]; exact ⟨h3, h4⟩
  | _clock_clean =>
    simp only at h
    split at h
    · cases h
    · rename_i fd1 hand1 victim1 hp1
      split at h
      · split at h
        · cases h
        · rename_i fd2 hand2 hscan
          simp only [Except.ok.injEq, Prod.mk.injEq] at h
          obtain ⟨_, h3, h4, _⟩ := clockScan_sameButRef _ _ _ _ _ _ hscan
          rw [← h.1]; exact ⟨h3, h4⟩
      · rename_i hge
        simp only [Except.ok.injEq, Prod.mk.injEq] at h
        rcases (cleanPass1_sameButRef _ _ _ _ _ _ _ hp1).2.2 with e | ⟨h3, h4, _⟩
        · rw [e] at hge; exact absurd (by decide) hge
        · rw [← h.1]; exact ⟨h3, h4⟩

/-- The four deterministic policies always select a victim when the hands are
in range and the reference bits are 0 or 1. -/
theorem selectVictim_total (R : Nat) {s : MMU} (mode : repl) (rands : List Nat)
    (hmode : mode ≠ ._random) (hN : 1 ≤ s.numFrames)
    (hc : 0 ≤ s.clock_hand ∧ s.clock_hand < s.numFrames)
    (hbits : ∀ g, 0 ≤ g → g < s.numFrames →
      (s.frame_data g).ref = 0 ∨ (s.frame_data g).ref = 1) :
    ∃ (v : Int) (s1 : MMU), selectVictim R s mode rands = .ok (v, s1, rands) := by
  have hpos : 0 < s.numFrames := by omega
  cases mode with
  | _random => exact absurd rfl hmode
  | lru => exact ⟨_, _, by simp only [selectVictim, if_pos hpos]; rfl⟩
  | fifo =>
    have hne : ¬ s.numFrames = 0 := by omega
    exact ⟨_, _, by simp only [selectVictim, if_neg hne]; rfl⟩
  | _clock =>
    obtain ⟨j, hj, href, hzero⟩ := clock_offset_exists hpos s.frame_data s.clock_hand hbits
    have hscan := clockScan_result s.frame_data hc j hj href
      (fun h => by rw [hzero h]; decide)
    exact ⟨_, _, by simp only [selectVictim, hscan]; rfl⟩
  | _clock_clean =>
    rcases Classical.em (∃ i : Nat, (i : Int) < s.numFrames ∧
        (s.frame_data ((s.clock_hand + i) % s.numFrames)).ref = 0 ∧
        (s.frame_data ((s.clock_hand + i) % s.numFrames)).dirty = 0) with hex | hno
    · classical
      obtain ⟨hj, hcl⟩ := Nat.find_spec hex
      have hskip : ∀ i : Nat, i < Nat.find hex →
          ¬ ((s.frame_data ((s.clock_hand + i) % s.numFrames)).ref = 0 ∧
             (s.frame_data ((s.clock_hand + i) % s.numFrames)).dirty = 0) := by
        intro i hi hcli
        exact Nat.find_min hex hi ⟨by omega, hcli⟩
      obtain ⟨s1, hsel, _⟩ := selectVictim_clean_find R rands hN hc (Nat.find hex) hj hskip hcl
      exact ⟨_, s1, hsel⟩
    · have hnone : ∀ g, 0 ≤ g → g < s.numFrames →
          ¬ ((s.frame_data g).ref = 0 ∧ (s.frame_data g).dirty = 0) := by
        intro g hg0 hg1 hcl
        obtain ⟨i, hi, e⟩ := offset_exists (c := s.clock_hand) ⟨hg0, hg1⟩
        exact hno ⟨i, hi, by rw [← e]; exact hcl⟩
      exact ⟨_, _, selectVictim_clean_none R rands hN hc hbits hnone⟩

theorem installPage_error {s : MMU} {p v : Int} {e : Fault}
    (h : installPage s p v = .error e) : e = .undefined := by
  unfold installPage at h
  simp only at h
  split at h
  · cases h
  · simp only [Except.error.injEq] at h
    exact h.symm

/-! ## The effect of one iteration of the driver loop -/

theorem markDirty_effect {s s1 : MMU} {pfn : Int} {rw : Char}
    (h : markDirty s pfn rw = .ok s1) (hp : pfn ≠ -1) :
    s1.page_table = s.page_table ∧ s1._time = s._time ∧ s1.fifo_hand = s.fifo_hand ∧
    s1.clock_hand = s.clock_hand ∧ s1.next_frame = s.next_frame ∧
    (∀ g, (s1.frame_data g).vpn = (s.frame_data g).vpn ∧
      (s1.frame_data g).access_time = (s.frame_data g).access_time ∧
      (s1.frame_data g).ref = (s.frame_data g).ref) ∧
    (∀ g, g ≠ pfn → (s1.frame_data g).dirty = (s.frame_data g).dirty) ∧
    (s1.frame_data pfn).dirty = (if rw = 'W' then 1 else (s.frame_data pfn).dirty) := by
  unfold markDirty at h
  split at h
  · rename_i hw
    split at h
    · simp only [Except.ok.injEq] at h
      subst h
      refine ⟨rfl, rfl, rfl, rfl, rfl, ?_, ?_, ?_⟩
      · intro g
        by_cases hg : g = pfn
        · subst hg; simp
        · simp [Function.update_noteq hg]
      · intro g hg
        simp [Function.update_noteq hg]
      · simp [hw.2]
    · cases h
  · rename_i hw
    simp only [Except.ok.injEq] at h
    subst h
    have hrw : ¬ rw = 'W' := fun e => hw ⟨hp, e⟩
    exact ⟨rfl, rfl, rfl, rfl, rfl, fun _ => ⟨rfl, rfl, rfl⟩, fun _ _ => rfl, by rw [if_neg hrw]⟩

/-- What one iteration of the driver loop does to the frames and the counters,
by the three paths: a hit on frame f, an allocation of frame f, an eviction
from frame f. -/
theorem accessPage_effect {R : Nat} {N : Int} {replace : repl} {d d1 : Driver}
    {vpn : Int} {rw : Char} (hd : DInv N d)
    (h : accessPage R N replace d vpn rw = .ok d1) :
    ∃ f : Int, (0 ≤ f ∧ f < N) ∧ (0 ≤ vpn ∧ vpn < NUM_PAGES) ∧ (rw = 'R' ∨ rw = 'W') ∧
      (d1.mmu.frame_data f).vpn = vpn ∧
      (d1.mmu.frame_data f).access_time = d.mmu._time ∧
      (∀ g, g ≠ f → (d1.mmu.frame_data g).vpn = (d.mmu.frame_data g).vpn ∧
        (d1.mmu.frame_data g).dirty = (d.mmu.frame_data g).dirty ∧
        (d1.mmu.frame_data g).access_time = (d.mmu.frame_data g).access_time) ∧
      d1.no_events = d.no_events + 1 ∧
      ((d.mmu.page_table vpn = f ∧
        (d1.mmu.frame_data f).dirty = (if rw = 'W' then 1 else (d.mmu.frame_data f).dirty) ∧
        evictionOf R N replace d vpn = none ∧
        d1.disk_writes = d.disk_writes ∧ d1.page_faults = d.page_faults ∧
        d1.mmu.fifo_hand = d.mmu.fifo_hand ∧ d1.mmu.next_frame = d.mmu.next_frame) ∨
       (d.mmu.page_table vpn = -1 ∧ f = d.mmu.next_frame ∧ d.mmu.next_frame < N ∧
        (d1.mmu.frame_data f).dirty = (if rw = 'W' then 1 else 0) ∧
        evictionOf R N replace d vpn = none ∧
        d1.disk_writes = d.disk_writes ∧ d1.page_faults = d.page_faults + 1 ∧
        d1.mmu.fifo_hand = d.mmu.fifo_hand ∧ d1.mmu.next_frame = d.mmu.next_frame + 1) ∨
       (d.mmu.page_table vpn = -1 ∧ d.mmu.next_frame = N ∧
        (∃ (s1 : MMU) (rest : List Nat),
          selectVictim R d.mmu replace d.rands = .ok (f, s1, rest) ∧
          d1.mmu.fifo_hand = s1.fifo_hand) ∧
        (d1.mmu.frame_data f).dirty = (if rw = 'W' then 1 else 0) ∧
        evictionOf R N replace d vpn
          = some { vpn := (d.mmu.frame_data f).vpn, dirty := (d.mmu.frame_data f).dirty } ∧
        d1.disk_writes = (if (d.mmu.frame_data f).dirty ≠ 0 then d.disk_writes + 1
          else d.disk_writes) ∧
        d1.page_faults = d.page_faults + 1 ∧
        d1.mmu.next_frame = d.mmu.next_frame)) := by
  have hcase := accessPage_ok h
  have hm := hd.mapped
  have hnext := hm.basic.next
  rcases hcase with ⟨pfn, m, hc, hhit, hfin⟩ | ⟨m, pfn1, m1, hc, hlt, ha, hfin⟩ |
      ⟨m, Pvictim, pfn1, m1, rest, hc, hge, hr, hfin⟩
  · obtain ⟨hp0, hp1, hpt, h4⟩ := checkInMemory_ok hc
    rcases h4 with ⟨e, _⟩ | ⟨_, hf0, hf1, _, e⟩
    · exact absurd e hhit
    · obtain ⟨m2, hmd, hrw, e2⟩ := finishEvent_ok hfin
      obtain ⟨_, _, k3, _, k5, k6, k7, k8⟩ := markDirty_effect hmd hhit
      have hfN : pfn < N := by rw [← hm.basic.frames]; exact hf1
      have hev : evictionOf R N replace d vpn = none := by
        simp only [evictionOf, hc, if_neg hhit]
      refine ⟨pfn, ⟨hf0, hfN⟩, ⟨hp0, hp1⟩, hrw, ?_, ?_, ?_, ?_, Or.inl ⟨hpt.symm, ?_, hev, ?_, ?_, ?_, ?_⟩⟩
      · rw [e2]; show (m2.frame_data pfn).vpn = vpn
        rw [(k6 pfn).1, e]
        simp only [Function.update_same]
        exact (hm.maps vpn pfn hp0 hp1 hf0 hfN).1 hpt.symm
      · rw [e2]; show (m2.frame_data pfn).access_time = _
        rw [(k6 pfn).2.1, e]
        simp only [Function.update_same]
      · intro g hg
        rw [e2]
        show (m2.frame_data g).vpn = _ ∧ (m2.frame_data g).dirty = _ ∧
          (m2.frame_data g).access_time = _
        rw [(k6 g).1, (k6 g).2.1, k7 g hg, e]
        simp [Function.update_noteq hg]
      · rw [e2]
      · rw [e2]; show (m2.frame_data pfn).dirty = _
        rw [k8, e]
        simp only [Function.update_same]
      · rw [e2]
      · rw [e2]
      · rw [e2]; show m2.fifo_hand = _
        rw [k3, e]
      · rw [e2]; show m2.next_frame = _
        rw [k5, e]
  · obtain ⟨hp0, hp1, hpt, h4⟩ := checkInMemory_ok hc
    have em : m = d.mmu := by
      rcases h4 with ⟨_, e⟩ | ⟨e, _⟩
      · exact e
      · exact absurd rfl e
    subst em
    obtain ⟨_, _, hpfn, hf0, hf1, _, e⟩ := allocateFrame_ok ha
    obtain ⟨m2, hmd, hrw, e2⟩ := finishEvent_ok hfin
    have hne : pfn1 ≠ -1 := by omega
    obtain ⟨_, _, k3, _, k5, k6, k7, k8⟩ := markDirty_effect hmd hne
    have hfN : pfn1 < N := by rw [← hm.basic.frames]; exact hf1
    have hev : evictionOf R N replace d vpn = none := by
      simp only [evictionOf, hc, if_pos hlt, if_true]
    refine ⟨pfn1, ⟨hf0, hfN⟩, ⟨hp0, hp1⟩, hrw, ?_, ?_, ?_, ?_,
      Or.inr (Or.inl ⟨hpt.symm, hpfn, by omega, ?_, hev, ?_, ?_, ?_, ?_⟩)⟩
    · rw [e2]; show (m2.frame_data pfn1).vpn = vpn
      rw [(k6 pfn1).1, e, hpfn]
      simp only [Function.update_same]
    · rw [e2]; show (m2.frame_data pfn1).access_time = _
      rw [(k6 pfn1).2.1, e, hpfn]
      simp only [Function.update_same]
    · intro g hg
      rw [e2]
      show (m2.frame_data g).vpn = _ ∧ (m2.frame_data g).dirty = _ ∧
        (m2.frame_data g).access_time = _
      rw [(k6 g).1, (k6 g).2.1, k7 g hg, e]
      rw [hpfn] at hg
      simp [Function.update_noteq hg]
    · rw [e2]
    · rw [e2]; show (m2.frame_data pfn1).dirty = _
      rw [k8, e, hpfn]
      simp only [Function.update_same]
    · rw [e2]
    · rw [e2]
    · rw [e2]; show m2.fifo_hand = _
      rw [k3, e]
    · rw [e2]; show m2.next_frame = _
      rw [k5, e]
  · obtain ⟨hp0, hp1, hpt, h4⟩ := checkInMemory_ok hc
    have em : m = d.mmu := by
      rcases h4 with ⟨_, e⟩ | ⟨e, _⟩
      · exact e
      · exact absurd rfl e
    subst em
    obtain ⟨s1, hsel, hv0, hin⟩ := replacePage_ok hr
    obtain ⟨hfr, _, htime, hnf1, hsame⟩ := selectVictim_frame hsel
    obtain ⟨_, hv1, _, _, _, _, eev, e⟩ := installPage_ok hin
    obtain ⟨m2, hmd, hrw, e2⟩ := finishEvent_ok hfin
    have hne : pfn1 ≠ -1 := by omega
    obtain ⟨_, _, k3, _, k5, k6, k7, k8⟩ := markDirty_effect hmd hne
    have hfN : pfn1 < N := by rw [← hm.basic.frames, ← hfr]; exact hv1
    have hfull : d.mmu.next_frame = N := by
      have := hd.alloc
      omega
    have hev : evictionOf R N replace d vpn = some Pvictim := by
      simp only [evictionOf, hc, if_neg hge, hr, if_true]
    have hPv : Pvictim =
        { vpn := (d.mmu.frame_data pfn1).vpn, dirty := (d.mmu.frame_data pfn1).dirty } := by
      rw [eev, (hsame pfn1).1, (hsame pfn1).2.1]
    refine ⟨pfn1, ⟨hv0, hfN⟩, ⟨hp0, hp1⟩, hrw, ?_, ?_, ?_, ?_,
      Or.inr (Or.inr ⟨hpt.symm, hfull, ⟨s1, rest, hsel, ?_⟩, ?_, by rw [hev, hPv], ?_, ?_, ?_⟩)⟩
    · rw [e2]; show (m2.frame_data pfn1).vpn = vpn
      rw [(k6 pfn1).1, e]
      simp only [Function.update_same]
    · rw [e2]; show (m2.frame_data pfn1).access_time = _
      rw [(k6 pfn1).2.1, e]
      simp only [Function.update_same]
      exact htime
    · intro g hg
      rw [e2]
      show (m2.frame_data g).vpn = _ ∧ (m2.frame_data g).dirty = _ ∧
        (m2.frame_data g).access_time = _
      rw [(k6 g).1, (k6 g).2.1, k7 g hg, e]
      simp only [Function.update_noteq hg]
      exact ⟨(hsame g).1, (hsame g).2.1, (hsame g).2.2.1⟩
    · rw [e2]
    · rw [e2]; show m2.fifo_hand = _
      rw [k3, e]
    · rw [e2]; show (m2.frame_data pfn1).dirty = _
      rw [k8, e]
      simp only [Function.update_same]
    · rw [e2]
      show (if Pvictim.dirty ≠ 0 then d.disk_writes + 1 else d.disk_writes) = _
      rw [hPv]
    · rw [e2]
    · rw [e2]; show m2.next_frame = _
      rw [k5, e]
      exact hnf1

/-! ## Evictions of the driver and runs that always complete -/

/-- An eviction of the driver happens on a miss with a full pool; the evicted
page is the page of the frame the policy chose, with its dirty flag. -/
theorem evictionOf_some {R : Nat} {N : Int} {replace : repl} {d : Driver} {vpn : Int}
    {ev : evicted_page} (hd : DInv N d) (h : evictionOf R N replace d vpn = some ev) :
    d.mmu.page_table vpn = -1 ∧ d.allocated = N ∧ (0 ≤ vpn ∧ vpn < NUM_PAGES) ∧
    ∃ (v : Int) (s1 : MMU) (rest : List Nat),
      selectVictim R d.mmu replace d.rands = .ok (v, s1, rest) ∧
      (0 ≤ v ∧ v < N) ∧ (d.mmu.frame_data v).vpn ≠ -1 ∧
      ev = { vpn := (d.mmu.frame_data v).vpn, dirty := (d.mmu.frame_data v).dirty } := by
  have hm := hd.mapped
  have hnext := hm.basic.next
  have halloc := hd.alloc
  unfold evictionOf at h
  split at h
  · cases h
  · rename_i pfn m hc
    split at h
    · rename_i hmiss
      subst hmiss
      split at h
      · cases h
      · rename_i hge
        split at h
        · cases h
        · rename_i Pvictim pfn1 m1 rest hr
          simp only [Option.some.injEq] at h
          subst h
          obtain ⟨hp0, hp1, hpt, h4⟩ := checkInMemory_ok hc
          have em : m = d.mmu := by
            rcases h4 with ⟨_, e⟩ | ⟨e, _⟩
            · exact e
            · exact absurd rfl e
          subst em
          obtain ⟨s1, hsel, hv0, hin⟩ := replacePage_ok hr
          obtain ⟨hfr, _, _, _, hsame⟩ := selectVictim_frame hsel
          obtain ⟨_, hv1, _, _, _, _, eev, _⟩ := installPage_ok hin
          have hfN : pfn1 < N := by rw [← hm.basic.frames, ← hfr]; exact hv1
          have hfull : d.allocated = N := by omega
          refine ⟨hpt.symm, hfull, ⟨hp0, hp1⟩, pfn1, s1, rest, hsel, ⟨hv0, hfN⟩,
            hm.used pfn1 hv0 (by omega), ?_⟩
          rw [eev, (hsame pfn1).1, (hsame pfn1).2.1]
    · cases h

theorem finishEvent_total (d : Driver) (pfn : Int) (rw : Char)
    (hp : 0 ≤ pfn ∧ pfn < d.mmu.numFrames) (hrw : rw = 'R' ∨ rw = 'W') :
    ∃ d1, finishEvent d pfn rw = .ok d1 := by
  have hne : pfn ≠ -1 := by omega
  have hnot : ¬ (rw ≠ 'R' ∧ rw ≠ 'W') := by
    rintro ⟨h1, h2⟩
    rcases hrw with e | e
    · exact h1 e
    · exact h2 e
  rcases Classical.em (rw = 'W') with hw | hw
  · exact ⟨_, by
      simp only [finishEvent, markDirty, if_pos (And.intro hne hw), if_pos hp, if_neg hnot]
      rfl⟩
  · have hn : ¬ (pfn ≠ -1 ∧ rw = 'W') := fun h => hw h.2
    exact ⟨_, by simp only [finishEvent, markDirty, if_neg hn, if_neg hnot]; rfl⟩

/-- Under the four deterministic policies an iteration of the driver loop
completes for every page id and access kind R or W while the clock is below
INT_MAX. -/
theorem accessPage_total (R : Nat) {N : Int} (replace : repl) {d : Driver} (vpn : Int)
    (rw : Char) (hd : DInv N d) (hmode : replace ≠ ._random)
    (hp : 0 ≤ vpn ∧ vpn < NUM_PAGES) (hrw : rw = 'R' ∨ rw = 'W')
    (ht : d.mmu._time < INT_MAX) :
    ∃ d1, accessPage R N replace d vpn rw = .ok d1 := by
  have hm := hd.mapped
  have hb := hm.basic
  have hnext := hb.next
  have halloc := hd.alloc
  have hfr := hb.frames
  by_cases hmiss : d.mmu.page_table vpn = -1
  · have hc : checkInMemory d.mmu vpn = .ok (-1, d.mmu) := by
      simp [checkInMemory, hp.1, hp.2, hmiss]
    by_cases hlt : d.allocated < N
    · have hcond : 0 ≤ vpn ∧ vpn < NUM_PAGES ∧ 0 ≤ d.mmu.next_frame ∧
          d.mmu.next_frame < d.mmu.numFrames ∧ d.mmu._time < INT_MAX :=
        ⟨hp.1, hp.2, hnext.1, by omega, ht⟩
      obtain ⟨d1, h1⟩ := finishEvent_total
        { d with
          mmu := { d.mmu with
            next_frame := d.mmu.next_frame + 1
            page_table := Function.update d.mmu.page_table vpn d.mmu.next_frame
            frame_data := Function.update d.mmu.frame_data d.mmu.next_frame
              { vpn := vpn, dirty := 0, access_time := d.mmu._time, ref := 1 }
            _time := d.mmu._time + 1 }
          page_faults := d.page_faults + 1
          allocated := d.allocated + 1 } d.mmu.next_frame rw
        ⟨hnext.1, by show d.mmu.next_frame < d.mmu.numFrames; omega⟩ hrw
      exact ⟨d1, by
        simp only [accessPage, hc, if_true, if_pos hlt, allocateFrame, if_pos hcond]
        exact h1⟩
    · have hN : 1 ≤ d.mmu.numFrames := by
        have := hb.fifo
        omega
      obtain ⟨v, s1, hsel⟩ := selectVictim_total R replace d.rands hmode hN
        (by rw [hfr]; exact hb.clock) (fun g _ _ => hb.ref g)
      have hv := selectVictim_range hsel hN (fun e => absurd e hmode)
        (by rw [hfr]; exact hb.fifo)
      obtain ⟨hfr1, _, htime, _, hsame⟩ := selectVictim_frame hsel
      have hrep := replacePage_of_select (p := vpn) hsel (by rw [hfr1]; exact hv)
        (fun hq => by
          rw [(hsame v).1] at hq ⊢
          exact (hb.vpn v).resolve_left hq) hp (by rw [htime]; exact ht)
      obtain ⟨d1, h1⟩ := finishEvent_total
        { d with
          mmu := { s1 with
            page_table := Function.update
              (if (s1.frame_data v).vpn ≠ -1 then
                Function.update s1.page_table (s1.frame_data v).vpn (-1)
               else s1.page_table) vpn v
            frame_data := Function.update s1.frame_data v
              { vpn := vpn, dirty := 0, access_time := s1._time, ref := 1 }
            _time := s1._time + 1 }
          page_faults := d.page_faults + 1
          rands := d.rands
          disk_writes := if (s1.frame_data v).dirty ≠ 0 then d.disk_writes + 1
            else d.disk_writes } v rw
        (by show 0 ≤ v ∧ v < s1.numFrames; rw [hfr1]; exact hv) hrw
      exact ⟨d1, by
        simp only [accessPage, hc, if_true, if_neg hlt, hrep]
        exact h1⟩
  · have hrange := (hm.table vpn hp.1 hp.2).resolve_left hmiss
    have hcond : 0 ≤ d.mmu.page_table vpn ∧ d.mmu.page_table vpn < d.mmu.numFrames ∧
        d.mmu._time < INT_MAX := ⟨hrange.1, by omega, ht⟩
    obtain ⟨d1, h1⟩ := finishEvent_total
      { d with
        mmu := { d.mmu with
          frame_data := Function.update d.mmu.frame_data (d.mmu.page_table vpn)
            { d.mmu.frame_data (d.mmu.page_table vpn) with
              access_time := d.mmu._time, ref := 1 }
          _time := d.mmu._time + 1 } } (d.mmu.page_table vpn) rw
      ⟨hrange.1, by show d.mmu.page_table vpn < d.mmu.numFrames; omega⟩ hrw
    have hc : checkInMemory d.mmu vpn = .ok (d.mmu.page_table vpn,
        { d.mmu with
          frame_data := Function.update d.mmu.frame_data (d.mmu.page_table vpn)
            { d.mmu.frame_data (d.mmu.page_table vpn) with
              access_time := d.mmu._time, ref := 1 }
          _time := d.mmu._time + 1 }) := by
      simp only [checkInMemory, if_pos hp, ne_eq, hmiss, not_false_eq_true, if_true,
        if_pos hcond]
    exact ⟨d1, by
      simp only [accessPage, hc, if_neg hmiss]
      exact h1⟩

/-! ## The invariants of a run -/

theorem run_dreach {R : Nat} {N : Int} {allowed : repl → Prop} {hist : List (Int × Char)}
    {d : Driver} {g : Ghost} (h : Run R N allowed hist d g) : DReach R N d := by
  induction h with
  | start rands => exact DReach.start rands
  | step replace vpn rw _ _ hstep ih => exact DReach.step replace vpn rw ih hstep

/-- In a state of the driver invariant two different frames do not hold the
same page. -/
theorem mapped_frame_unique {N : Int} {s : MMU} (hm : Mapped N s) {f g : Int}
    (hf : 0 ≤ f ∧ f < N) (hg : 0 ≤ g ∧ g < N) (hres : (s.frame_data f).vpn ≠ -1)
    (e : (s.frame_data g).vpn = (s.frame_data f).vpn) : g = f := by
  have hp := (hm.basic.vpn f).resolve_left hres
  have h1 := (hm.maps _ f hp.1 hp.2 hf.1 hf.2).2 rfl
  have h2 := (hm.maps _ g hp.1 hp.2 hg.1 hg.2).2 e
  exact h2.symm.trans h1

theorem seen_start (N : Int) (hN : 1 ≤ N) (rands : List Nat) :
    Seen N [] (startDriver N rands) startGhost where
  inv := dinv_start N hN rands
  events := rfl
  bits := fun _ _ _ => Or.inl rfl
  written := fun _ _ _ h => absurd rfl h
  counted := rfl
  recent := fun _ _ _ h => absurd rfl h
  loaded := fun _ _ _ h => absurd rfl h

theorem seen_step {R : Nat} {N : Int} {replace : repl} {hist : List (Int × Char)}
    {d d1 : Driver} {g : Ghost} {vpn : Int} {rw : Char} (hs : Seen N hist d g)
    (h : accessPage R N replace d vpn rw = .ok d1) :
    Seen N ((vpn, rw) :: hist) d1 (ghostStep R N replace d g vpn rw) := by
  have hd1 : DInv N d1 := dinv_accessPage hs.inv h
  have hm := hs.inv.mapped
  have hm1 := hd1.mapped
  obtain ⟨f, hf, hp, hrw, hvpn, hat, hother, hev, hcase⟩ := accessPage_effect hs.inv h
  have hfres : (d1.mmu.frame_data f).vpn ≠ -1 := by rw [hvpn]; omega
  have hne : ∀ x, 0 ≤ x → x < N → x ≠ f → (d.mmu.frame_data x).vpn ≠ -1 →
      (d.mmu.frame_data x).vpn ≠ vpn := by
    intro x hx0 hx1 hxf hres e
    apply hxf
    apply mapped_frame_unique hm1 hf ⟨hx0, hx1⟩ hfres
    rw [(hother x hxf).1, e, hvpn]
  have htime : d.mmu._time = (hist.length : Int) := by
    rw [← hs.inv.events, hs.events]
  have hpt : d.mmu.page_table vpn = f ∨ d.mmu.page_table vpn = -1 := by
    rcases hcase with c | c | c
    · exact Or.inl c.1
    · exact Or.inr c.1
    · exact Or.inr c.1
  have holdf : d.mmu.page_table vpn = f → (d.mmu.frame_data f).vpn = vpn :=
    fun e => (hm.maps vpn f hp.1 hp.2 hf.1 hf.2).1 e
  refine ⟨hd1, ?_, ?_, ?_, ?_, ?_, ?_⟩
  · rw [hev, hs.events]; simp
  · intro x hx0 hx1
    by_cases hx : x = f
    · subst hx
      rcases hcase with c | c | c
      · rw [c.2.1]
        split
        · exact Or.inr rfl
        · exact hs.bits x hx0 hx1
      · rw [c.2.2.2.1]
        split
        · exact Or.inr rfl
        · exact Or.inl rfl
      · rw [c.2.2.2.1]
        split
        · exact Or.inr rfl
        · exact Or.inl rfl
    · rw [(hother x hx).2.1]; exact hs.bits x hx0 hx1
  · intro x hx0 hx1 hres
    by_cases hx : x = f
    · subst hx
      rw [hvpn]
      show _ ↔ Function.update g.written vpn _ vpn = true
      rw [Function.update_same]
      rcases hcase with c | c | c
      · have hold := holdf c.1
        have hhit : d.mmu.page_table vpn ≠ -1 := by rw [c.1]; omega
        have hw := hs.written x hx0 hx1 (by rw [hold]; omega)
        rw [hold] at hw
        have hb := hs.bits x hx0 hx1
        rw [c.2.1]
        by_cases hW : rw = 'W'
        · simp [hW]
        · simp only [if_neg hW, hW, decide_False, Bool.or_false, hhit, ne_eq, not_false_eq_true,
            decide_True, Bool.true_and]
          exact hw
      · have hmiss : ¬ d.mmu.page_table vpn ≠ -1 := by rw [c.1]; simp
        rw [c.2.2.2.1]
        by_cases hW : rw = 'W'
        · simp [hW]
        · simp [hW, c.1]
      · have hmiss : ¬ d.mmu.page_table vpn ≠ -1 := by rw [c.1]; simp
        rw [c.2.2.2.1]
        by_cases hW : rw = 'W'
        · simp [hW]
        · simp [hW, c.1]
    · have hres0 : (d.mmu.frame_data x).vpn ≠ -1 := by rw [← (hother x hx).1]; exact hres
      have hnev := hne x hx0 hx1 hx hres0
      rw [(hother x hx).1, (hother x hx).2.1]
      show _ ↔ Function.update g.written vpn _ _ = true
      rw [Function.update_noteq hnev]
      exact hs.written x hx0 hx1 hres0
  · show d1.disk_writes = (match evictionOf R N replace d vpn with
      | some ev => if g.written ev.vpn = true then g.dirtyEvictions + 1 else g.dirtyEvictions
      | none => g.dirtyEvictions)
    rcases hcase with c | c | c
    · rw [c.2.2.1, c.2.2.2.1]; exact hs.counted
    · rw [c.2.2.2.2.1, c.2.2.2.2.2.1]; exact hs.counted
    · rw [c.2.2.2.2.1, c.2.2.2.2.2.1]
      have hfull : f < d.mmu.next_frame := by rw [c.2.1]; exact hf.2
      have hres0 := hm.used f hf.1 hfull
      have hw := hs.written f hf.1 hf.2 hres0
      have hb := hs.bits f hf.1 hf.2
      simp only
      rw [← hs.counted]
      by_cases hdy : (d.mmu.frame_data f).dirty = 1
      · rw [if_pos (hw.1 hdy), if_pos (by rw [hdy]; decide)]
      · have h0 : (d.mmu.frame_data f).dirty = 0 := hb.resolve_right hdy
        rw [if_neg (fun e => hdy (hw.2 e)), if_neg (by rw [h0]; decide)]
  · intro x hx0 hx1 hres
    by_cases hx : x = f
    · subst hx
      rw [hat, hvpn, htime]
      simp [lastSeen]
    · have hres0 : (d.mmu.frame_data x).vpn ≠ -1 := by rw [← (hother x hx).1]; exact hres
      have hnev := hne x hx0 hx1 hx hres0
      rw [(hother x hx).1, (hother x hx).2.2]
      have hnev2 : ¬ vpn = (d.mmu.frame_data x).vpn := fun e => hnev e.symm
      simp only [lastSeen, if_neg hnev2]
      exact hs.recent x hx0 hx1 hres0
  · intro x hx0 hx1 hres
    rw [hev]
    by_cases hx : x = f
    · subst hx
      rw [hvpn]
      show (if d.mmu.page_table vpn ≠ -1 then g.loadedAt
        else Function.update g.loadedAt vpn d.no_events) vpn < _
      by_cases hhit : d.mmu.page_table vpn ≠ -1
      · rw [if_pos hhit]
        have e := hpt.resolve_right hhit
        have hold := holdf e
        have := hs.loaded x hx0 hx1 (by rw [hold]; omega)
        rw [hold] at this
        omega
      · rw [if_neg hhit, Function.update_same]
        omega
    · have hres0 : (d.mmu.frame_data x).vpn ≠ -1 := by rw [← (hother x hx).1]; exact hres
      have hnev := hne x hx0 hx1 hx hres0
      rw [(hother x hx).1]
      show (if d.mmu.page_table vpn ≠ -1 then g.loadedAt
        else Function.update g.loadedAt vpn d.no_events) _ < _
      have := hs.loaded x hx0 hx1 hres0
      split
      · omega
      · rw [Function.update_noteq hnev]; omega

theorem run_seen {R : Nat} {N : Int} (hN : 1 ≤ N) {allowed : repl → Prop}
    {hist : List (Int × Char)} {d : Driver} {g : Ghost} (h : Run R N allowed hist d g) :
    Seen N hist d g := by
  induction h with
  | start rands => exact seen_start N hN rands
  | step replace vpn rw _ _ hstep ih => exact seen_step ih hstep

theorem succ_emod {h N : Int} (h0 : 0 ≤ h) (h1 : h < N) :
    (h + 1) % N = if h + 1 = N then 0 else h + 1 := by
  split
  · rename_i e
    rw [e, Int.emod_self]
  · exact Int.emod_eq_of_lt (by omega) (by omega)

theorem fifoOrder_start (N : Int) (rands : List Nat) :
    FifoOrder N (startDriver N rands) startGhost where
  hand0 := fun _ => rfl
  order := fun f1 _ h0 h1 _ _ _ => by
    have h1 : f1 < 0 := h1
    omega

theorem fifoOrder_step {R : Nat} {N : Int} {hist : List (Int × Char)}
    {d d1 : Driver} {g : Ghost} {vpn : Int} {rw : Char} (hs : Seen N hist d g)
    (ho : FifoOrder N d g) (h : accessPage R N .fifo d vpn rw = .ok d1) :
    FifoOrder N d1 (ghostStep R N .fifo d g vpn rw) := by
  have hd1 : DInv N d1 := dinv_accessPage hs.inv h
  have hm := hs.inv.mapped
  have hm1 := hd1.mapped
  have hb := hm.basic
  have hnext := hb.next
  have hfifo := hb.fifo
  obtain ⟨f, hf, hp, hrw, hvpn, hat, hother, hev, hcase⟩ := accessPage_effect hs.inv h
  have hfres : (d1.mmu.frame_data f).vpn ≠ -1 := by rw [hvpn]; omega
  have hne : ∀ x, 0 ≤ x → x < N → x ≠ f → (d.mmu.frame_data x).vpn ≠ -1 →
      (d.mmu.frame_data x).vpn ≠ vpn := by
    intro x hx0 hx1 hxf hres e
    apply hxf
    apply mapped_frame_unique hm1 hf ⟨hx0, hx1⟩ hfres
    rw [(hother x hxf).1, e, hvpn]
  have hLother : ∀ x, 0 ≤ x → x < d.mmu.next_frame → x ≠ f →
      (ghostStep R N .fifo d g vpn rw).loadedAt (d1.mmu.frame_data x).vpn
        = g.loadedAt (d.mmu.frame_data x).vpn ∧
      g.loadedAt (d.mmu.frame_data x).vpn < d.no_events := by
    intro x hx0 hx1 hxf
    have hres0 := hm.used x hx0 hx1
    have hnev := hne x hx0 (by omega) hxf hres0
    refine ⟨?_, hs.loaded x hx0 (by omega) hres0⟩
    rw [(hother x hxf).1]
    show (if d.mmu.page_table vpn ≠ -1 then g.loadedAt
      else Function.update g.loadedAt vpn d.no_events) _ = _
    split
    · rfl
    · rw [Function.update_noteq hnev]
  rcases hcase with c | c | c
  · obtain ⟨c1, _, _, _, _, c6, c7⟩ := c
    have hhit : d.mmu.page_table vpn ≠ -1 := by rw [c1]; omega
    have hold : (d.mmu.frame_data f).vpn = vpn :=
      (hm.maps vpn f hp.1 hp.2 hf.1 hf.2).1 c1
    have hsame : ∀ x, (ghostStep R N .fifo d g vpn rw).loadedAt (d1.mmu.frame_data x).vpn
        = g.loadedAt (d.mmu.frame_data x).vpn := by
      intro x
      show (if d.mmu.page_table vpn ≠ -1 then g.loadedAt
        else Function.update g.loadedAt vpn d.no_events) _ = _
      rw [if_pos hhit]
      by_cases hx : x = f
      · subst hx; rw [hvpn, hold]
      · rw [(hother x hx).1]
    refine ⟨fun hlt => by rw [c6]; exact ho.hand0 (by rw [← c7]; exact hlt), ?_⟩
    intro f1 f2 h10 h11 h20 h21 hbe
    rw [hsame f1, hsame f2]
    rw [c7] at h11 h21
    rw [c6] at hbe
    exact ho.order f1 f2 h10 h11 h20 h21 hbe
  · obtain ⟨c1, c2, c3, _, _, _, _, c8, c9⟩ := c
    have hh : d.mmu.fifo_hand = 0 := ho.hand0 c3
    have hLf : (ghostStep R N .fifo d g vpn rw).loadedAt (d1.mmu.frame_data f).vpn
        = d.no_events := by
      rw [hvpn]
      show (if d.mmu.page_table vpn ≠ -1 then g.loadedAt
        else Function.update g.loadedAt vpn d.no_events) vpn = _
      rw [if_neg (by rw [c1]; simp), Function.update_same]
    refine ⟨fun _ => by rw [c8]; exact hh, ?_⟩
    intro f1 f2 h10 h11 h20 h21 hbe
    rw [c9] at h11 h21
    rw [c8, hh] at hbe
    have hlt : f1 < f2 := by
      unfold beforeFrom at hbe
      omega
    have hf1 : f1 ≠ f := by omega
    obtain ⟨e1, b1⟩ := hLother f1 h10 (by omega) hf1
    by_cases hf2 : f2 = f
    · rw [hf2, hLf, e1]; exact b1
    · obtain ⟨e2, _⟩ := hLother f2 h20 (by omega) hf2
      rw [e1, e2]
      apply ho.order f1 f2 h10 (by omega) h20 (by omega)
      rw [hh]
      exact Or.inl ⟨h10, hlt⟩
  · obtain ⟨c1, c2, ⟨s1, rest, hsel, chand⟩, _, _, _, _, c9⟩ := c
    obtain ⟨_, _, hfh, _⟩ := selectVictim_hands hsel (by rw [hb.frames]; exact hfifo)
      (by rw [hb.frames]; exact hb.clock)
    obtain ⟨efh, ehand⟩ := hfh rfl
    rw [hb.frames, succ_emod hfifo.1 hfifo.2] at ehand
    have hLf : (ghostStep R N .fifo d g vpn rw).loadedAt (d1.mmu.frame_data f).vpn
        = d.no_events := by
      rw [hvpn]
      show (if d.mmu.page_table vpn ≠ -1 then g.loadedAt
        else Function.update g.loadedAt vpn d.no_events) vpn = _
      rw [if_neg (by rw [c1]; simp), Function.update_same]
    refine ⟨fun hlt => by rw [c9, c2] at hlt; omega, ?_⟩
    intro f1 f2 h10 h11 h20 h21 hbe
    rw [c9, c2] at h11 h21
    rw [chand, ehand] at hbe
    have hf1 : f1 ≠ f := by
      intro e
      unfold beforeFrom at hbe
      split at hbe <;> omega
    obtain ⟨e1, b1⟩ := hLother f1 h10 (by omega) hf1
    by_cases hf2 : f2 = f
    · rw [hf2, hLf, e1]; exact b1
    · obtain ⟨e2, _⟩ := hLother f2 h20 (by omega) hf2
      rw [e1, e2]
      apply ho.order f1 f2 h10 (by omega) h20 (by omega)
      unfold beforeFrom at hbe ⊢
      split at hbe <;> omega

theorem run_fifoOrder {R : Nat} {N : Int} (hN : 1 ≤ N) {hist : List (Int × Char)}
    {d : Driver} {g : Ghost} (h : Run R N (fun m => m = .fifo) hist d g) :
    FifoOrder N d g := by
  induction h with
  | start rands => exact fifoOrder_start N rands
  | step replace vpn rw hrun hal hstep ih =>
    have hal : replace = .fifo := hal
    subst hal
    exact fifoOrder_step (run_seen hN hrun) ih hstep

/-- A run of the loop of main with one allowed policy is a run in the sense of
Run, whose history is the reversed list of events. -/
theorem run_of_runPages {R : Nat} {N : Int} (allowed : repl → Prop) (replace : repl)
    (hal : allowed replace) :
    ∀ (pages : List (Int × Char)) {hist : List (Int × Char)} {d d1 : Driver} {g : Ghost},
      Run R N allowed hist d g → runPages R N replace d pages = .ok d1 →
      ∃ g1, Run R N allowed (pages.reverse ++ hist) d1 g1 := by
  intro pages
  induction pages with
  | nil =>
    intro hist d d1 g hr h
    simp only [runPages, Except.ok.injEq] at h
    subst h
    exact ⟨g, hr⟩
  | cons ev rest ih =>
    intro hist d d1 g hr h
    obtain ⟨vpn, rw⟩ := ev
    unfold runPages at h
    split at h
    · cases h
    · rename_i d2 hstep
      obtain ⟨g1, h1⟩ := ih (Run.step replace vpn rw hr hal hstep) h
      refine ⟨g1, ?_⟩
      simpa [List.reverse_cons, List.append_assoc] using h1

/-- The LRU policy on a full pool: it selects the frame whose access time is
strictly below that of every other frame. -/
theorem selectVictim_lru_min {R : Nat} {N : Int} {s s1 : MMU} {rands rest : List Nat}
    {v : Int} (hb : Basic N s) (hN : 1 ≤ N)
    (hfull : ∀ f, 0 ≤ f → f < N → (s.frame_data f).vpn ≠ -1)
    (h : selectVictim R s .lru rands = .ok (v, s1, rest)) :
    ∀ i, 0 ≤ i → i < N → i ≠ v →
      (s.frame_data v).access_time < (s.frame_data i).access_time := by
  have hpos : 0 < s.numFrames := by rw [hb.frames]; omega
  simp only [selectVictim, if_pos hpos, Except.ok.injEq, Prod.mk.injEq] at h
  obtain ⟨hv, _, _⟩ := h
  obtain ⟨hv0, hv1⟩ := lruScan_range s.frame_data (s.numFrames - 1).toNat 1
    (s.frame_data 0).access_time 0 (le_refl _) (by decide)
  have hcast : (1 : Int) + ((s.numFrames - 1).toNat : Int) = N := by
    rw [Int.toNat_of_nonneg (by omega), hb.frames]; omega
  rw [hcast] at hv1
  have hmin := lruScan_min s.frame_data (s.numFrames - 1).toNat 1 0 (le_refl _) (by decide)
    (fun g hg0 hg1 => by
      have : g = 0 := by omega
      subst this; exact le_refl _)
  rw [hcast] at hmin
  rw [hv] at hv0 hv1 hmin
  intro i hi0 hi1 hiv
  have h1 := hmin i hi0 hi1
  have h2 := hb.distinct v i (fun e => hiv e.symm) (hfull v hv0 hv1) (hfull i hi0 hi1)
  omega

/-- A page on which the history has no Write event is not marked written. -/
theorem run_never_written {R : Nat} {N : Int} {allowed : repl → Prop}
    {hist : List (Int × Char)} {d : Driver} {g : Ghost} (h : Run R N allowed hist d g) :
    ∀ q, (∀ e ∈ hist, e.1 = q → e.2 ≠ 'W') → g.written q = false := by
  induction h with
  | start rands => intro q _; rfl
  | step replace vpn rw _ _ _ ih =>
    intro q hq
    have hrest := ih q (fun e he => hq e (List.mem_cons_of_mem _ he))
    simp only [ghostStep]
    by_cases e : q = vpn
    · subst e
      have hrw : rw ≠ 'W' := hq (q, rw) (List.mem_cons_self _ _) rfl
      rw [Function.update_same, hrest]
      simp [hrw]
    · rw [Function.update_noteq e]
      exact hrest

/-! ## A simulator with a single frame -/

theorem pageOf_range (a : Nat) : 0 ≤ pageOf a ∧ pageOf a < NUM_PAGES := by
  unfold pageOf NUM_PAGES UINT_MOD pageoffset
  constructor
  · exact Int.ofNat_nonneg _
  · have h : a % 4294967296 / 2 ^ 12 < 1048576 := by
      have : a % 4294967296 < 4294967296 := Nat.mod_lt _ (by decide)
      omega
    exact_mod_cast h

/-- With one frame a lookup misses exactly when frame 0 does not hold the
page. -/
theorem single_miss_iff {d : Driver} (hd : DInv 1 d) {p : Int}
    (hp : 0 ≤ p ∧ p < NUM_PAGES) :
    d.mmu.page_table p = -1 ↔ (d.mmu.frame_data 0).vpn ≠ p := by
  have hm := hd.mapped
  have h1 := hm.maps p 0 hp.1 hp.2 (le_refl _) (by decide)
  have h2 := hm.table p hp.1 hp.2
  constructor
  · intro e h
    have := h1.2 h
    omega
  · intro h
    rcases h2 with e | e
    · exact e
    · exact absurd (h1.1 (by omega)) h

/-- One iteration of the driver loop with one frame under a deterministic
policy. -/
theorem single_step (R : Nat) (replace : repl) (hmode : replace ≠ ._random) {d : Driver}
    (hd : DInv 1 d) (vpn : Int) (rw : Char) (hp : 0 ≤ vpn ∧ vpn < NUM_PAGES)
    (hrw : rw = 'R' ∨ rw = 'W') (ht : d.no_events < INT_MAX) :
    ∃ d1, accessPage R 1 replace d vpn rw = .ok d1 ∧ DInv 1 d1 ∧
      (d1.mmu.frame_data 0).vpn = vpn ∧ d1.no_events = d.no_events + 1 ∧
      d1.page_faults = d.page_faults + (if (d.mmu.frame_data 0).vpn = vpn then 0 else 1) := by
  obtain ⟨d1, h⟩ := accessPage_total R replace vpn rw hd hmode hp hrw
    (by rw [← hd.events]; exact ht)
  obtain ⟨f, hf, _, _, hvpn, _, _, hev, hcase⟩ := accessPage_effect hd h
  have hf0 : f = 0 := by omega
  subst hf0
  have hmiss := single_miss_iff hd hp
  refine ⟨d1, h, dinv_accessPage hd h, hvpn, hev, ?_⟩
  rcases hcase with c | c | c
  · have hhit : (d.mmu.frame_data 0).vpn = vpn := by
      by_contra hne
      have := hmiss.2 hne
      rw [c.1] at this
      omega
    rw [if_pos hhit, c.2.2.2.2.1]
    omega
  · have hne : ¬ (d.mmu.frame_data 0).vpn = vpn := hmiss.1 c.1
    rw [if_neg hne, c.2.2.2.2.2.2.1]
  · have hne : ¬ (d.mmu.frame_data 0).vpn = vpn := hmiss.1 c.1
    rw [if_neg hne, c.2.2.2.2.2.2.1]

/-- A run of the loop of main with one frame under a deterministic policy
completes, counts one fault for every change of page, and leaves the page of
the last event in frame 0. -/
theorem single_run (R : Nat) (replace : repl) (hmode : replace ≠ ._random) :
    ∀ (pages : List (Int × Char)) (d : Driver), DInv 1 d →
      (∀ e ∈ pages, (0 ≤ e.1 ∧ e.1 < NUM_PAGES) ∧ (e.2 = 'R' ∨ e.2 = 'W')) →
      d.no_events + pages.length ≤ INT_MAX →
      ∃ d1, runPages R 1 replace d pages = .ok d1 ∧ DInv 1 d1 ∧
        d1.no_events = d.no_events + pages.length ∧
        d1.page_faults = d.page_faults
          + adjacentChanges ((d.mmu.frame_data 0).vpn :: pages.map Prod.fst) ∧
        (d1.mmu.frame_data 0).vpn
          = ((pages.map Prod.fst).getLast?).getD (d.mmu.frame_data 0).vpn := by
  intro pages
  induction pages with
  | nil =>
    intro d hd _ _
    exact ⟨d, rfl, hd, by simp, by simp [adjacentChanges], by simp⟩
  | cons ev rest ih =>
    intro d hd hvalid hlen
    obtain ⟨vpn, rw⟩ := ev
    have hv := hvalid (vpn, rw) (List.mem_cons_self _ _)
    have hlen1 : d.no_events + ((rest.length : Int) + 1) ≤ INT_MAX := by
      simpa using hlen
    obtain ⟨d1, hstep, hd1, hvpn, hev, hfaults⟩ := single_step R replace hmode hd vpn rw
      hv.1 hv.2 (by omega)
    obtain ⟨d2, hrun, hd2, hev2, hfaults2, hlast⟩ := ih d1 hd1
      (fun e he => hvalid e (List.mem_cons_of_mem _ he)) (by rw [hev]; omega)
    refine ⟨d2, ?_, hd2, ?_, ?_, ?_⟩
    · simp only [runPages, hstep]
      exact hrun
    · rw [hev2, hev]
      simp only [List.length_cons, Nat.cast_add, Nat.cast_one]
      omega
    · rw [hfaults2, hfaults, hvpn]
      simp only [List.map_cons, adjacentChanges]
      omega
    · rw [hlast, hvpn]
      simp only [List.map_cons, List.getLast?_cons, Option.getD_some]

/-! # The claims -/

/-- Claim C1. For every N >= 1 and every state the driver reaches from
createMMU(N) (lookup; on a miss allocateFrame while fewer than N frames are
allocated, replacePage under any policy otherwise; dirty marking on a write),
for every page p in [0, 2^20) and every frame f in [0, N): page_table[p] = f
if and only if frame_data[f].vpn = p. In particular no two frames hold the
same page. -/
theorem page_table_matches_frames (R : Nat) (N : Int) (hN : 1 ≤ N) (d : Driver)
    (hreach : DReach R N d) :
    (∀ p f, 0 ≤ p → p < NUM_PAGES → 0 ≤ f → f < N →
      (d.mmu.page_table p = f ↔ (d.mmu.frame_data f).vpn = p)) ∧
    (∀ f g, 0 ≤ f → f < N → 0 ≤ g → g < N → f ≠ g →
      (d.mmu.frame_data f).vpn ≠ -1 →
      (d.mmu.frame_data f).vpn ≠ (d.mmu.frame_data g).vpn) := by
  have hm := (dreach_inv hN hreach).mapped
  refine ⟨hm.maps, ?_⟩
  intro f g hf0 hf1 hg0 hg1 hfg hres e
  have hp := (hm.basic.vpn f).resolve_left hres
  have h1 := (hm.maps _ f hp.1 hp.2 hf0 hf1).2 rfl
  have h2 := (hm.maps _ g hp.1 hp.2 hg0 hg1).2 e.symm
  exact hfg (h1.symm.trans h2)

/-- Instance: the driver state after three records with two frames under LRU. -/
theorem page_table_matches_frames_witness :
    ((afterTrace 32767 2 .lru [] [(0x5000, 'R'), (0x6000, 'W'), (0x7abc, 'R')]).mmu.page_table 7
        = 0 ↔
      ((afterTrace 32767 2 .lru [] [(0x5000, 'R'), (0x6000, 'W'), (0x7abc, 'R')]).mmu.frame_data
        0).vpn = 7) ∧
    ((afterTrace 32767 2 .lru [] [(0x5000, 'R'), (0x6000, 'W'), (0x7abc, 'R')]).mmu.frame_data
        0).vpn ≠
      ((afterTrace 32767 2 .lru [] [(0x5000, 'R'), (0x6000, 'W'), (0x7abc, 'R')]).mmu.frame_data
        1).vpn := by
  obtain ⟨h1, h2⟩ := page_table_matches_frames 32767 2 (by decide)
    (afterTrace 32767 2 .lru [] [(0x5000, 'R'), (0x6000, 'W'), (0x7abc, 'R')])
    (runTrace_reach .lru [(0x5000, 'R'), (0x6000, 'W'), (0x7abc, 'R')] (DReach.start []) rfl)
  exact ⟨h1 7 0 (by decide) (by decide) (by decide) (by decide),
    h2 0 1 (by decide) (by decide) (by decide) (by decide) (by decide) (by decide)⟩

/-- Claim C2. In every reachable state of a simulator with N >= 1 frames in
which every frame holds a page, replacePage with mode lru returns normally
(for a page id p and a clock below INT_MAX) and the frame v it selects has an
access_time strictly smaller than that of every other frame. -/
theorem lru_selects_strict_minimum (R : Nat) (N : Int) (hN : 1 ≤ N) (s : MMU)
    (hreach : Reach R N s)
    (hfull : ∀ f, 0 ≤ f → f < N → (s.frame_data f).vpn ≠ -1)
    (p : Int) (hp : 0 ≤ p ∧ p < NUM_PAGES) (ht : s._time < INT_MAX) (rands : List Nat) :
    ∃ (ev : evicted_page) (v : Int) (s2 : MMU),
      replacePage R s p .lru rands = .ok (ev, v, s2, rands) ∧
      selectVictim R s .lru rands = .ok (v, s, rands) ∧
      0 ≤ v ∧ v < N ∧
      ∀ i, 0 ≤ i → i < N → i ≠ v →
        (s.frame_data v).access_time < (s.frame_data i).access_time := by
  have hb := reach_basic hN hreach
  have hpos : 0 < s.numFrames := by rw [hb.frames]; omega
  have hsel : selectVictim R s .lru rands =
      .ok (lruScan s.frame_data (s.numFrames - 1).toNat 1 (s.frame_data 0).access_time 0,
        s, rands) := by
    simp only [selectVictim, if_pos hpos]
  obtain ⟨hv0, hv1⟩ := lruScan_range s.frame_data (s.numFrames - 1).toNat 1
    (s.frame_data 0).access_time 0 (le_refl _) (by decide)
  have hcast : (1 : Int) + ((s.numFrames - 1).toNat : Int) = N := by
    rw [Int.toNat_of_nonneg (by omega), hb.frames]; omega
  rw [hcast] at hv1
  have hmin := lruScan_min s.frame_data (s.numFrames - 1).toNat 1 0 (le_refl _) (by decide)
    (fun g hg0 hg1 => by
      have : g = 0 := by omega
      subst this; exact le_refl _)
  rw [hcast] at hmin
  generalize lruScan s.frame_data (s.numFrames - 1).toNat 1 (s.frame_data 0).access_time 0 = v
    at hsel hv0 hv1 hmin
  have hvpn := hb.vpn v
  have hres := hfull v hv0 hv1
  have hrep := replacePage_of_select (p := p) hsel ⟨hv0, by rw [hb.frames]; exact hv1⟩
    (fun _ => by omega) hp ht
  refine ⟨_, v, _, hrep, hsel, hv0, hv1, ?_⟩
  intro i hi0 hi1 hiv
  have h1 := hmin i hi0 hi1
  have h2 := hb.distinct v i (fun e => hiv e.symm) hres (hfull i hi0 hi1)
  omega

/-- Instance: two frames holding pages 5 and 6, loaded in that order. -/
theorem lru_selects_strict_minimum_witness :
    ∃ (ev : evicted_page) (v : Int) (s2 : MMU),
      replacePage 32767 twoPages 7 .lru [] = .ok (ev, v, s2, []) ∧
      selectVictim 32767 twoPages .lru [] = .ok (v, twoPages, []) ∧
      0 ≤ v ∧ v < 2 ∧
      ∀ i, 0 ≤ i → i < 2 → i ≠ v →
        (twoPages.frame_data v).access_time < (twoPages.frame_data i).access_time :=
  lru_selects_strict_minimum 32767 2 (by decide) twoPages
    (Reach.step (.alloc 6) (Reach.step (.alloc 5) Reach.start rfl) rfl)
    (fun f h0 h1 => by
      have hf : f = 0 ∨ f = 1 := by omega
      rcases hf with e | e <;> subst e <;> decide)
    7 (by decide) (by decide) []

/-- Claim C3. Starting from a fresh simulator with N >= 1 frames, after any
sequence of calls (lookups, allocations, dirty markings, evictions under any
policy) of which k-1 are replacePage calls with mode fifo, the next
replacePage call with mode fifo (the k-th; page id p, clock below INT_MAX)
returns normally, selects frame (k-1) mod N and leaves the FIFO cursor at
k mod N. -/
theorem fifo_round_robin (R : Nat) (N : Int) (hN : 1 ≤ N) (ops : List Op) (s : MMU)
    (hrun : runOps R (fresh N) ops = .ok s)
    (p : Int) (hp : 0 ≤ p ∧ p < NUM_PAGES) (ht : s._time < INT_MAX) (rands : List Nat) :
    s.fifo_hand = (fifoCalls ops : Int) % N ∧
    ∃ (ev : evicted_page) (s2 : MMU),
      replacePage R s p .fifo rands = .ok (ev, (fifoCalls ops : Int) % N, s2, rands) ∧
      s2.fifo_hand = ((fifoCalls ops : Int) + 1) % N := by
  have hb0 := basic_fresh N hN
  have hb : Basic N s := reach_basic hN (runOps_reach ops Reach.start hrun : Reach R N s)
  have hhand : s.fifo_hand = (fifoCalls ops : Int) % N := by
    rw [runOps_fifo_hand ops hb0 hrun]
    show ((0 : Int) + fifoCalls ops) % N = _
    rw [zero_add]
  have hne : ¬ s.numFrames = 0 := by rw [hb.frames]; omega
  have hsel : selectVictim R s .fifo rands =
      .ok (s.fifo_hand, { s with fifo_hand := Int.tmod (s.fifo_hand + 1) s.numFrames },
        rands) := by
    simp only [selectVictim, if_neg hne]
  have hrep := replacePage_of_select (p := p) hsel
    ⟨hb.fifo.1, by rw [hb.frames]; exact hb.fifo.2⟩
    (fun h => by
      have := hb.vpn s.fifo_hand
      exact this.resolve_left h) hp ht
  rw [hhand] at hrep
  refine ⟨hhand, _, _, hrep, ?_⟩
  show Int.tmod ((fifoCalls ops : Int) % N + 1) s.numFrames = _
  rw [hb.frames, ← hhand, (tmod_succ _ _ hb.fifo.1 hb.fifo.2).1, hhand, Int.emod_add_emod]

/-- Instance: two frames, one fifo eviction made before, a lookup in between. -/
theorem fifo_round_robin_witness :
    (afterOps 32767 2 [.alloc 5, .alloc 6, .replace 7 .fifo [], .check 6]).fifo_hand
      = ((1 : Nat) : Int) % 2 ∧
    ∃ (ev : evicted_page) (s2 : MMU),
      replacePage 32767 (afterOps 32767 2 [.alloc 5, .alloc 6, .replace 7 .fifo [], .check 6])
        8 .fifo [] = .ok (ev, ((1 : Nat) : Int) % 2, s2, []) ∧
      s2.fifo_hand = (((1 : Nat) : Int) + 1) % 2 :=
  fifo_round_robin 32767 2 (by decide)
    [.alloc 5, .alloc 6, .replace 7 .fifo [], .check 6] _ rfl 8 (by decide) (by decide) []

/-- Claim C4. For every N >= 1, clock hand c in [0, N) and reference bits in
{0, 1}, the selection of replacePage with mode _clock returns normally and
chooses the frame (c + j) mod N, where j is the least offset in [0, N) whose
frame has ref = 0 at call time (j = N, which is frame c, when every frame is
referenced). Every frame passed over before the victim has its ref bit
cleared, the frames not passed over keep their entry, the victim has ref = 0
at the moment of selection, nothing but ref bits changes in the frame table,
and the hand ends at (victim + 1) mod N, also after the page is installed. -/
theorem clock_second_chance (R : Nat) (s : MMU) (rands : List Nat)
    (hN : 1 ≤ s.numFrames)
    (hc : 0 ≤ s.clock_hand ∧ s.clock_hand < s.numFrames)
    (hbits : ∀ g, 0 ≤ g → g < s.numFrames →
      (s.frame_data g).ref = 0 ∨ (s.frame_data g).ref = 1) :
    ∃ (j : Nat) (s1 : MMU),
      (j : Int) ≤ s.numFrames ∧
      (∀ i : Nat, i < j → (s.frame_data ((s.clock_hand + i) % s.numFrames)).ref = 1) ∧
      ((j : Int) < s.numFrames →
        (s.frame_data ((s.clock_hand + j) % s.numFrames)).ref = 0) ∧
      ((j : Int) = s.numFrames → (s.clock_hand + j) % s.numFrames = s.clock_hand) ∧
      selectVictim R s ._clock rands
        = .ok ((s.clock_hand + j) % s.numFrames, s1, rands) ∧
      s1.clock_hand = ((s.clock_hand + j) % s.numFrames + 1) % s.numFrames ∧
      (∀ i : Nat, i < j → (s1.frame_data ((s.clock_hand + i) % s.numFrames)).ref = 0) ∧
      (∀ g, (∀ i : Nat, i < j → g ≠ (s.clock_hand + i) % s.numFrames) →
        s1.frame_data g = s.frame_data g) ∧
      (s1.frame_data ((s.clock_hand + j) % s.numFrames)).ref = 0 ∧
      (∀ g, (s1.frame_data g).vpn = (s.frame_data g).vpn ∧
        (s1.frame_data g).dirty = (s.frame_data g).dirty ∧
        (s1.frame_data g).access_time = (s.frame_data g).access_time) ∧
      (∀ (p : Int) (ev : evicted_page) (v : Int) (s2 : MMU) (rest : List Nat),
        replacePage R s p ._clock rands = .ok (ev, v, s2, rest) →
        v = (s.clock_hand + j) % s.numFrames ∧
        s2.clock_hand = ((s.clock_hand + j) % s.numFrames + 1) % s.numFrames) := by
  have hpos : 0 < s.numFrames := by omega
  obtain ⟨j, hj, href, hzero⟩ := clock_offset_exists hpos s.frame_data s.clock_hand hbits
  have hscan := clockScan_result s.frame_data hc j hj href
    (fun h => by rw [hzero h]; decide)
  obtain ⟨hv0, hv1⟩ := offset_range (c := s.clock_hand) hpos j
  have hsel : selectVictim R s ._clock rands
      = .ok ((s.clock_hand + j) % s.numFrames,
          { s with
            frame_data := clearRefs s.numFrames s.frame_data s.clock_hand j
            clock_hand := Int.tmod ((s.clock_hand + j) % s.numFrames + 1) s.numFrames },
          rands) := by
    simp only [selectVictim, hscan]
  have hhand := (tmod_succ _ _ hv0 hv1).1
  refine ⟨j, _, hj, href, hzero, ?_, hsel, hhand, ?_, ?_, ?_, ?_, ?_⟩
  · intro hjN
    rw [hjN, Int.add_emod_self, Int.emod_eq_of_lt hc.1 hc.2]
  · intro i hi
    show (clearRefs s.numFrames s.frame_data s.clock_hand j _).ref = 0
    rw [clearRefs_passed _ _ _ j i hi]
  · intro g hg
    exact clearRefs_other _ _ _ j g hg
  · show (clearRefs s.numFrames s.frame_data s.clock_hand j _).ref = 0
    by_cases hlt : (j : Int) < s.numFrames
    · rw [clearRefs_other _ _ _ j _ (fun i hi e => by
        have := offset_inj hlt (by omega) e
        omega)]
      exact hzero hlt
    · have hjN : (j : Int) = s.numFrames := by omega
      have h0 : (s.clock_hand + j) % s.numFrames = (s.clock_hand + (0 : Nat)) % s.numFrames := by
        rw [hjN]; simp
      rw [h0, clearRefs_passed _ _ _ j 0 (by omega)]
  · intro g
    have key : (clearRefs s.numFrames s.frame_data s.clock_hand j g).vpn
          = (s.frame_data g).vpn ∧
        (clearRefs s.numFrames s.frame_data s.clock_hand j g).dirty
          = (s.frame_data g).dirty ∧
        (clearRefs s.numFrames s.frame_data s.clock_hand j g).access_time
          = (s.frame_data g).access_time := by
      rcases clearRefs_fields s.numFrames s.frame_data s.clock_hand j g with e | e <;>
        rw [e] <;> exact ⟨rfl, rfl, rfl⟩
    exact key
  · intro p ev v s2 rest hrep
    obtain ⟨s1, hsel1, _, hin⟩ := replacePage_ok hrep
    rw [hsel] at hsel1
    simp only [Except.ok.injEq, Prod.mk.injEq] at hsel1
    obtain ⟨e1, e2, _⟩ := hsel1
    obtain ⟨_, _, _, _, _, _, _, e⟩ := installPage_ok hin
    rw [e, ← e2]
    exact ⟨e1.symm, hhand⟩

/-- Instance: three frames of which only frame 0 is referenced, hand at 0. -/
theorem clock_second_chance_witness :
    ∃ (j : Nat) (s1 : MMU),
      (j : Int) ≤ 3 ∧
      selectVictim 32767 mixedState ._clock [] = .ok ((0 + (j : Int)) % 3, s1, []) ∧
      s1.clock_hand = ((0 + (j : Int)) % 3 + 1) % 3 ∧
      (s1.frame_data ((0 + (j : Int)) % 3)).ref = 0 := by
  obtain ⟨j, s1, h1, _, _, _, h4, h5, _, _, h8, _⟩ :=
    clock_second_chance 32767 mixedState [] (by decide) (by decide)
      (fun g h0 h1 => by
        have hg : g = 0 ∨ g = 1 ∨ g = 2 := by
          have h1 : g < 3 := h1
          omega
        rcases hg with e | e | e <;> subst e <;> decide)
  exact ⟨j, s1, h1, h4, h5, h8⟩

/-- Claim C5. For every N >= 1 and clock hand c in [0, N): if at the time of a
replacePage call with mode _clock_clean some frame has ref = 0 and dirty = 0,
the selection returns normally and the victim is the first such frame in
cursor order (offset j from the hand), the hand ends one past it, and the
eviction reports dirty = 0 (the call returns normally for a page id p, a clock
below INT_MAX and a victim that is free or holds a page id). A frame that is
dirty at call time is chosen as victim only when no frame has both ref = 0
and dirty = 0 at call time. -/
theorem clean_clock_prefers_clean (R : Nat) (s : MMU) (rands : List Nat)
    (hN : 1 ≤ s.numFrames)
    (hc : 0 ≤ s.clock_hand ∧ s.clock_hand < s.numFrames) :
    (∀ j : Nat, (j : Int) < s.numFrames →
      (∀ i : Nat, i < j →
        ¬ ((s.frame_data ((s.clock_hand + i) % s.numFrames)).ref = 0 ∧
           (s.frame_data ((s.clock_hand + i) % s.numFrames)).dirty = 0)) →
      ((s.frame_data ((s.clock_hand + j) % s.numFrames)).ref = 0 ∧
       (s.frame_data ((s.clock_hand + j) % s.numFrames)).dirty = 0) →
      ∃ s1 : MMU,
        selectVictim R s ._clock_clean rands
          = .ok ((s.clock_hand + j) % s.numFrames, s1, rands) ∧
        s1.clock_hand = ((s.clock_hand + j) % s.numFrames + 1) % s.numFrames ∧
        ∀ p : Int, 0 ≤ p ∧ p < NUM_PAGES → s._time < INT_MAX →
          ((s.frame_data ((s.clock_hand + j) % s.numFrames)).vpn ≠ -1 →
            0 ≤ (s.frame_data ((s.clock_hand + j) % s.numFrames)).vpn ∧
            (s.frame_data ((s.clock_hand + j) % s.numFrames)).vpn < NUM_PAGES) →
          ∃ s2 : MMU, replacePage R s p ._clock_clean rands
            = .ok ({ vpn := (s.frame_data ((s.clock_hand + j) % s.numFrames)).vpn,
                     dirty := 0 },
                (s.clock_hand + j) % s.numFrames, s2, rands)) ∧
    (∀ (v : Int) (s1 : MMU) (rest : List Nat),
      selectVictim R s ._clock_clean rands = .ok (v, s1, rest) →
      (s.frame_data v).dirty ≠ 0 →
      ∀ f, 0 ≤ f → f < s.numFrames →
        ¬ ((s.frame_data f).ref = 0 ∧ (s.frame_data f).dirty = 0)) := by
  have hpos : 0 < s.numFrames := by omega
  constructor
  · intro j hj hskip hclean
    obtain ⟨s1, hsel, hhand⟩ := selectVictim_clean_find R rands
      hN hc j hj hskip hclean
    refine ⟨s1, hsel, hhand, ?_⟩
    intro p hp ht hvpn
    obtain ⟨hfr, _, htime, _, hsame⟩ := selectVictim_frame hsel
    obtain ⟨hv0, hv1⟩ := offset_range (c := s.clock_hand) hpos j
    have hrep := replacePage_of_select (p := p) hsel (by rw [hfr]; exact ⟨hv0, hv1⟩)
      (by rw [(hsame _).1]; exact hvpn) hp (by rw [htime]; exact ht)
    rw [(hsame _).1, (hsame _).2.1, hclean.2] at hrep
    exact ⟨_, hrep⟩
  · intro v s1 rest hsel hdirty f hf0 hf1 hclean
    obtain ⟨k, hk, hfk⟩ := offset_exists (c := s.clock_hand) ⟨hf0, hf1⟩
    have hex : ∃ i : Nat, (i : Int) < s.numFrames ∧
        (s.frame_data ((s.clock_hand + i) % s.numFrames)).ref = 0 ∧
        (s.frame_data ((s.clock_hand + i) % s.numFrames)).dirty = 0 :=
      ⟨k, hk, by rw [← hfk]; exact hclean⟩
    classical
    obtain ⟨hj, hcl⟩ := Nat.find_spec hex
    have hskip : ∀ i : Nat, i < Nat.find hex →
        ¬ ((s.frame_data ((s.clock_hand + i) % s.numFrames)).ref = 0 ∧
           (s.frame_data ((s.clock_hand + i) % s.numFrames)).dirty = 0) := by
      intro i hi hcli
      exact Nat.find_min hex hi ⟨by omega, hcli⟩
    obtain ⟨s1', hsel', _⟩ := selectVictim_clean_find R rands
      hN hc (Nat.find hex) hj hskip hcl
    rw [hsel] at hsel'
    simp only [Except.ok.injEq, Prod.mk.injEq] at hsel'
    rw [hsel'.1] at hdirty
    exact hdirty hcl.2

/-- Instance: three frames, frame 0 referenced, frame 1 dirty, frame 2 unreferenced
and clean: frame 2 is the victim. -/
theorem clean_clock_prefers_clean_witness :
    ∃ s1 : MMU,
      selectVictim 32767 mixedState ._clock_clean [] = .ok (2, s1, []) ∧
      s1.clock_hand = 0 ∧
      ∃ s2 : MMU, replacePage 32767 mixedState 9 ._clock_clean []
        = .ok ({ vpn := 7, dirty := 0 }, 2, s2, []) := by
  obtain ⟨s1, h1, h2, h3⟩ :=
    (clean_clock_prefers_clean 32767 mixedState [] (by decide) (by decide)).1 2
      (by decide) (by decide) (by decide)
  exact ⟨s1, h1, h2, h3 9 (by decide) (by decide) (by decide)⟩

/-- Claim C6. For every span = numFrames with 1 <= span <= RAND_MAX + 1
(RAND_MAX an int, so at most INT_MAX), the bound limit of the rejection loop
is (RAND_MAX + 1) - ((RAND_MAX + 1) mod span), a positive multiple of span; a
draw r >= limit is rejected (the loop goes on with the next draw), a draw
r < limit is accepted and selects frame r mod span; and for every frame f in
[0, span) the number of raw values r in [0, limit) with r mod span = f is
limit / span, the same for every frame. -/
theorem random_rejection_uniform (RAND_MAX span : Nat)
    (hint : RAND_MAX ≤ 2147483647) (h1 : 1 ≤ span) (h2 : span ≤ RAND_MAX + 1) :
    randLimit RAND_MAX span = (RAND_MAX + 1) - (RAND_MAX + 1) % span ∧
    0 < randLimit RAND_MAX span ∧
    span ∣ randLimit RAND_MAX span ∧
    (∀ (s : MMU) (r : Nat) (rest : List Nat), s.numFrames = span → r ≤ RAND_MAX →
      randLimit RAND_MAX span ≤ r →
      randDraw (randLimit RAND_MAX span) span (r :: rest)
        = randDraw (randLimit RAND_MAX span) span rest ∧
      selectVictim RAND_MAX s ._random (r :: rest) = selectVictim RAND_MAX s ._random rest) ∧
    (∀ (s : MMU) (r : Nat) (rest : List Nat), s.numFrames = span →
      r < randLimit RAND_MAX span →
      randDraw (randLimit RAND_MAX span) span (r :: rest) = .ok (r % span, rest) ∧
      selectVictim RAND_MAX s ._random (r :: rest) = .ok (((r % span : Nat) : Int), s, rest)) ∧
    (∀ f, f < span →
      ((Finset.range (randLimit RAND_MAX span)).filter (fun r => r % span = f)).card
        = randLimit RAND_MAX span / span) := by
  have hU : (RAND_MAX + 1) % UINT_MOD = RAND_MAX + 1 :=
    Nat.mod_eq_of_lt (by unfold UINT_MOD; omega)
  have hle : (RAND_MAX + 1) % span ≤ RAND_MAX + 1 := Nat.mod_le _ _
  have hlim : randLimit RAND_MAX span = (RAND_MAX + 1) - (RAND_MAX + 1) % span := by
    unfold randLimit
    rw [hU]
    exact Nat.mod_eq_of_lt (by unfold UINT_MOD; omega)
  have hdvd : span ∣ randLimit RAND_MAX span := by
    rw [hlim]
    exact Nat.dvd_sub_mod _
  have hlt : (RAND_MAX + 1) % span < span := Nat.mod_lt _ (by omega)
  have hpos : 0 < randLimit RAND_MAX span := by
    rw [hlim]; omega
  have hbound : randLimit RAND_MAX span < UINT_MOD := by
    rw [hlim]; unfold UINT_MOD; omega
  have hspan : ∀ s : MMU, s.numFrames = span →
      (s.numFrames % (UINT_MOD : Int)).toNat = span := by
    intro s hs
    rw [hs]
    have : ((span : Int) % (UINT_MOD : Int)) = span := by
      apply Int.emod_eq_of_lt (by omega)
      unfold UINT_MOD; omega
    rw [this]
    exact Int.toNat_natCast span
  have hspan0 : ¬ span = 0 := by omega
  have hrej : ∀ (r : Nat) (rest : List Nat), r ≤ RAND_MAX → randLimit RAND_MAX span ≤ r →
      randDraw (randLimit RAND_MAX span) span (r :: rest)
        = randDraw (randLimit RAND_MAX span) span rest := by
    intro r rest hr hge
    have hr1 : r % UINT_MOD = r := Nat.mod_eq_of_lt (by unfold UINT_MOD; omega)
    simp only [randDraw, hr1, ge_iff_le, if_pos hge]
  have hacc : ∀ (r : Nat) (rest : List Nat), r < randLimit RAND_MAX span →
      randDraw (randLimit RAND_MAX span) span (r :: rest) = .ok (r % span, rest) := by
    intro r rest hr
    have hr1 : r % UINT_MOD = r := Nat.mod_eq_of_lt (by omega)
    have : ¬ randLimit RAND_MAX span ≤ r := by omega
    simp only [randDraw, hr1, ge_iff_le, if_neg this]
  refine ⟨hlim, hpos, hdvd, ?_, ?_, ?_⟩
  · intro s r rest hs hr hge
    refine ⟨hrej r rest hr hge, ?_⟩
    simp only [selectVictim, hspan s hs, if_neg hspan0, hrej r rest hr hge]
  · intro s r rest hs hr
    refine ⟨hacc r rest hr, ?_⟩
    have hmod : r % span < span := Nat.mod_lt _ (by omega)
    have hconv : toInt32 (r % span) = ((r % span : Nat) : Int) := by
      unfold toInt32
      rw [if_pos (by omega)]
    simp only [selectVictim, hspan s hs, if_neg hspan0, hacc r rest hr, hconv]
  · intro f hf
    have hc := Nat.count_modEq_card (randLimit RAND_MAX span) (r := span) (by omega) f
    have hz : randLimit RAND_MAX span % span = 0 := Nat.mod_eq_zero_of_dvd hdvd
    rw [hz, if_neg (by omega), Nat.add_zero, Nat.count_eq_card_filter_range] at hc
    rw [← hc]
    congr 1
    apply Finset.filter_congr
    intro x _
    simp only [Nat.ModEq, Nat.mod_eq_of_lt hf]

/-- Instance: RAND_MAX = 32767 and three frames; the raw value 32767 is rejected. -/
theorem random_rejection_uniform_witness :
    randLimit 32767 3 = 32766 ∧ 0 < randLimit 32767 3 ∧ 3 ∣ randLimit 32767 3 ∧
    selectVictim 32767 mixedState ._random [32767, 32766, 5]
      = selectVictim 32767 mixedState ._random [32766, 5] ∧
    selectVictim 32767 mixedState ._random [5] = .ok (((5 % 3 : Nat) : Int), mixedState, []) ∧
    ((Finset.range (randLimit 32767 3)).filter (fun r => r % 3 = 2)).card
      = randLimit 32767 3 / 3 := by
  obtain ⟨h1, h2, h3, h4, h5, h6⟩ :=
    random_rejection_uniform 32767 3 (by decide) (by decide) (by decide)
  exact ⟨h1, h2, h3, (h4 mixedState 32767 [32766, 5] rfl (by decide) (by decide)).2,
    (h5 mixedState 5 [] rfl (by decide)).2, h6 2 (by decide)⟩

/-- Claim C7. For every policy, when the selection part of replacePage(p, mode)
chooses frame v of the pool and v holds page q different from p (p a page
id, clock below INT_MAX), replacePage returns the evicted page q with the
dirty flag v had before the call and reports v as the new frame; afterwards
page_table[q] is -1, page_table[p] is v, frame v is (p, dirty 0, access_time
the clock before the call, ref 1), the clock has grown by 1, and every other
page-table entry and the vpn, dirty and access_time of every other frame are
unchanged. -/
theorem replacePage_install_effect (R : Nat) (s s1 : MMU) (p v : Int) (mode : repl)
    (rands rest : List Nat)
    (hsel : selectVictim R s mode rands = .ok (v, s1, rest))
    (hv : 0 ≤ v ∧ v < s.numFrames)
    (hq : 0 ≤ (s.frame_data v).vpn ∧ (s.frame_data v).vpn < NUM_PAGES)
    (hp : 0 ≤ p ∧ p < NUM_PAGES)
    (hqp : (s.frame_data v).vpn ≠ p)
    (ht : s._time < INT_MAX) :
    ∃ s2 : MMU,
      replacePage R s p mode rands =
        .ok ({ vpn := (s.frame_data v).vpn, dirty := (s.frame_data v).dirty }, v, s2, rest) ∧
      s2.page_table (s.frame_data v).vpn = -1 ∧
      s2.page_table p = v ∧
      s2.frame_data v = { vpn := p, dirty := 0, access_time := s._time, ref := 1 } ∧
      s2._time = s._time + 1 ∧
      (∀ x, x ≠ p → x ≠ (s.frame_data v).vpn → s2.page_table x = s.page_table x) ∧
      (∀ g, g ≠ v → (s2.frame_data g).vpn = (s.frame_data g).vpn ∧
        (s2.frame_data g).dirty = (s.frame_data g).dirty ∧
        (s2.frame_data g).access_time = (s.frame_data g).access_time) := by
  obtain ⟨hN, hpt, htime, _, hsame⟩ := selectVictim_frame hsel
  obtain ⟨hvpn, hdirty, _⟩ := hsame v
  have hq1 : (s1.frame_data v).vpn ≠ -1 := by rw [hvpn]; omega
  have hrep := replacePage_of_select (p := p) hsel (by rw [hN]; exact hv)
    (fun _ => by rw [hvpn]; exact hq) hp (by rw [htime]; exact ht)
  rw [if_pos hq1, hvpn, hdirty] at hrep
  refine ⟨_, hrep, ?_, ?_, ?_, ?_, ?_, ?_⟩
  · simp only []
    rw [Function.update_noteq hqp, Function.update_same]
  · simp
  · simp [htime]
  · simp [htime]
  · intro x hx1 hx2
    simp only []
    rw [Function.update_noteq hx1, Function.update_noteq hx2, hpt]
  · intro g hg
    simp only [Function.update_noteq hg]
    exact ⟨(hsame g).1, (hsame g).2.1, (hsame g).2.2.1⟩

/-- Instance: FIFO evicts page 5 from frame 0 for page 7. -/
theorem replacePage_install_effect_witness :
    ∃ s2 : MMU, replacePage 32767 onePage 7 .fifo [] = .ok ({ vpn := 5, dirty := 0 }, 0, s2, [])
      ∧ s2.page_table 5 = -1 ∧ s2.page_table 7 = 0 ∧ s2._time = 2 := by
  obtain ⟨s2, h1, h2, h3, _, h5, _⟩ :=
    replacePage_install_effect 32767 onePage { onePage with fifo_hand := 1 } 7 0 .fifo [] []
      rfl (by decide) (by decide) (by decide) (by decide) (by decide)
  exact ⟨s2, h1, h2, h3, h5⟩

/-- Claim C8. For every page p in [0, 2^20) whose page-table entry is -1 or a
frame of the pool (with the clock below INT_MAX on a hit), checkInMemory(p)
returns page_table[p]. On a miss the statics are unchanged. On a hit on frame
f, frame f gets access_time = the clock before the call and ref = 1, the clock
grows by 1, and the page table, every dirty flag, every vpn field, both hands,
the free-frame counter and all other frames are unchanged. -/
theorem checkInMemory_lookup_effect (s : MMU) (p : Int)
    (hp0 : 0 ≤ p) (hp1 : p < NUM_PAGES)
    (hdef : s.page_table p ≠ -1 →
      0 ≤ s.page_table p ∧ s.page_table p < s.numFrames ∧ s._time < INT_MAX) :
    ∃ s1 : MMU, checkInMemory s p = .ok (s.page_table p, s1) ∧
      (s.page_table p = -1 → s1 = s) ∧
      (s.page_table p ≠ -1 →
        (s1.frame_data (s.page_table p)).access_time = s._time ∧
        (s1.frame_data (s.page_table p)).ref = 1 ∧
        s1._time = s._time + 1 ∧
        s1.page_table = s.page_table ∧
        (∀ g, (s1.frame_data g).dirty = (s.frame_data g).dirty) ∧
        (∀ g, (s1.frame_data g).vpn = (s.frame_data g).vpn) ∧
        s1.clock_hand = s.clock_hand ∧ s1.fifo_hand = s.fifo_hand ∧
        s1.next_frame = s.next_frame ∧ s1.numFrames = s.numFrames ∧
        (∀ g, g ≠ s.page_table p → s1.frame_data g = s.frame_data g)) := by
  by_cases h : s.page_table p = -1
  · refine ⟨s, ?_, fun _ => rfl, fun h1 => absurd h h1⟩
    simp [checkInMemory, hp0, hp1, h]
  · obtain ⟨h0, h1, h2⟩ := hdef h
    refine ⟨{ s with
        frame_data := Function.update s.frame_data (s.page_table p)
          { s.frame_data (s.page_table p) with access_time := s._time, ref := 1 }
        _time := s._time + 1 }, ?_, fun h1 => absurd h1 h, fun _ => ?_⟩
    · simp [checkInMemory, hp0, hp1, h, h0, h1, h2]
    · refine ⟨by simp, by simp, rfl, rfl, ?_, ?_, rfl, rfl, rfl, rfl, ?_⟩
      · intro g
        by_cases hg : g = s.page_table p
        · subst hg; simp
        · simp [Function.update_noteq hg]
      · intro g
        by_cases hg : g = s.page_table p
        · subst hg; simp
        · simp [Function.update_noteq hg]
      · intro g hg
        simp [Function.update_noteq hg]

/-- Instance: a hit on page 5 in frame 0 at clock 1. -/
theorem checkInMemory_lookup_effect_witness :
    ∃ s1 : MMU, checkInMemory onePage 5 = .ok (0, s1) ∧ s1._time = 2 ∧
      (s1.frame_data 0).access_time = 1 := by
  obtain ⟨s1, h1, _, h3⟩ :=
    checkInMemory_lookup_effect onePage 5 (by decide) (by decide) (by decide)
  exact ⟨s1, h1, (h3 (by decide)).2.2.1, (h3 (by decide)).1⟩

/-- Claim C9. Starting from a fresh simulator with N frames, after any sequence
of calls of which k-1 are allocateFrame calls, with k <= N, the next call
allocateFrame(p) (the k-th; page id p, clock below INT_MAX) returns frame k-1,
sets page_table[p] to k-1 and frame k-1 to (p, dirty 0, access_time the clock
before the call, ref 1), advances the clock by 1 and changes no other frame
and no other page-table entry. -/
theorem allocateFrame_in_order (R : Nat) (N : Int) (ops : List Op) (s : MMU)
    (hrun : runOps R (fresh N) ops = .ok s)
    (hk : (allocCalls ops : Int) + 1 ≤ N)
    (p : Int) (hp : 0 ≤ p ∧ p < NUM_PAGES) (ht : s._time < INT_MAX) :
    ∃ s1 : MMU,
      allocateFrame s p = .ok ((allocCalls ops : Int), s1) ∧
      s1.page_table p = (allocCalls ops : Int) ∧
      s1.frame_data (allocCalls ops : Int) =
        { vpn := p, dirty := 0, access_time := s._time, ref := 1 } ∧
      s1._time = s._time + 1 ∧
      s1.next_frame = (allocCalls ops : Int) + 1 ∧
      (∀ g, g ≠ (allocCalls ops : Int) → s1.frame_data g = s.frame_data g) ∧
      (∀ x, x ≠ p → s1.page_table x = s.page_table x) := by
  have hN : 1 ≤ N := by omega
  have hb : Basic N s := reach_basic hN (runOps_reach ops Reach.start hrun : Reach R N s)
  have hnext : s.next_frame = (allocCalls ops : Int) := by
    rw [runOps_next_frame ops hrun]
    show (0 : Int) + _ = _
    rw [zero_add]
  have hcond : 0 ≤ p ∧ p < NUM_PAGES ∧ 0 ≤ s.next_frame ∧ s.next_frame < s.numFrames
      ∧ s._time < INT_MAX := by
    rw [hb.frames, hnext]
    exact ⟨hp.1, hp.2, by omega, by omega, ht⟩
  refine ⟨{ s with
      next_frame := s.next_frame + 1
      page_table := Function.update s.page_table p s.next_frame
      frame_data := Function.update s.frame_data s.next_frame
        { vpn := p, dirty := 0, access_time := s._time, ref := 1 }
      _time := s._time + 1 }, ?_, ?_, ?_, rfl, ?_, ?_, ?_⟩
  · simp only [allocateFrame, if_pos hcond]
    rw [hnext]
  · simp [hnext]
  · rw [← hnext]; simp
  · rw [hnext]
  · intro g hg
    rw [← hnext] at hg
    simp [Function.update_noteq hg]
  · intro x hx
    simp [Function.update_noteq hx]

/-- Instance: the third allocation of a simulator with three frames. -/
theorem allocateFrame_in_order_witness :
    ∃ s1 : MMU,
      allocateFrame (afterOps 32767 3 [.alloc 5, .check 5, .alloc 6]) 9
        = .ok (((2 : Nat) : Int), s1) ∧
      s1.page_table 9 = ((2 : Nat) : Int) ∧ s1.next_frame = ((2 : Nat) : Int) + 1 := by
  obtain ⟨s1, h1, h2, _, _, h5, _⟩ := allocateFrame_in_order 32767 3
    [.alloc 5, .check 5, .alloc 6] _ rfl (by decide) 9 (by decide) (by decide)
  exact ⟨s1, h1, h2, h5⟩

/-- Claim C10. In every state reachable from a fresh simulator with N >= 1
frames by lookups, allocations, evictions under any policy and dirty markings,
two different frames that hold a page have different access_time values and
each such value is below the logical clock; so when every frame holds a page
no two frames have the same access_time. -/
theorem access_times_distinct (R : Nat) (N : Int) (hN : 1 ≤ N) (s : MMU)
    (hreach : Reach R N s) :
    (∀ f g, 0 ≤ f → f < N → 0 ≤ g → g < N → f ≠ g →
      (s.frame_data f).vpn ≠ -1 → (s.frame_data g).vpn ≠ -1 →
      (s.frame_data f).access_time ≠ (s.frame_data g).access_time) ∧
    (∀ f, 0 ≤ f → f < N → (s.frame_data f).vpn ≠ -1 →
      (s.frame_data f).access_time < s._time) ∧
    ((∀ f, 0 ≤ f → f < N → (s.frame_data f).vpn ≠ -1) →
      ∀ f g, 0 ≤ f → f < N → 0 ≤ g → g < N → f ≠ g →
        (s.frame_data f).access_time ≠ (s.frame_data g).access_time) := by
  have hb := reach_basic hN hreach
  refine ⟨fun f g _ _ _ _ hfg hf hg => hb.distinct f g hfg hf hg,
    fun f _ _ hf => hb.recent f hf, ?_⟩
  intro hfull f g hf0 hf1 hg0 hg1 hfg
  exact hb.distinct f g hfg (hfull f hf0 hf1) (hfull g hg0 hg1)

/-- Instance: two frames loaded by two allocations. -/
theorem access_times_distinct_witness :
    (twoPages.frame_data 0).access_time ≠ (twoPages.frame_data 1).access_time ∧
    (twoPages.frame_data 1).access_time < twoPages._time := by
  obtain ⟨h1, h2, _⟩ := access_times_distinct 32767 2 (by decide) twoPages
    (Reach.step (.alloc 6) (Reach.step (.alloc 5) Reach.start rfl) rfl)
  exact ⟨h1 0 1 (by decide) (by decide) (by decide) (by decide) (by decide) (by decide)
    (by decide), h2 1 (by decide) (by decide) (by decide)⟩

/-- Claim C11. In every run of the driver (any trace, N >= 1, any policies),
each eviction reports dirty = 1 exactly when a Write event accessed the evicted
page during its current residency, from the event that loaded it up to the
eviction, and reports 0 otherwise; the disk-write counter is the number of
evictions of pages written while resident; and a page on which the trace has
no Write event is evicted with dirty = 0. -/
theorem dirty_eviction_iff_written (R : Nat) (N : Int) (hN : 1 ≤ N)
    (hist : List (Int × Char)) (d : Driver) (g : Ghost)
    (hrun : Run R N (fun _ => True) hist d g) :
    (∀ (mode : repl) (vpn : Int) (ev : evicted_page),
      evictionOf R N mode d vpn = some ev →
      (ev.dirty = 1 ↔ g.written ev.vpn = true) ∧ (ev.dirty = 0 ∨ ev.dirty = 1) ∧
      ((∀ e ∈ hist, e.1 = ev.vpn → e.2 ≠ 'W') → ev.dirty = 0)) ∧
    d.disk_writes = g.dirtyEvictions := by
  have hs := run_seen hN hrun
  refine ⟨?_, hs.counted⟩
  intro mode vpn ev hev
  obtain ⟨_, _, _, v, s1, rest, _, hv, hres, e⟩ := evictionOf_some hs.inv hev
  have hw := hs.written v hv.1 hv.2 hres
  have hb := hs.bits v hv.1 hv.2
  rw [e]
  refine ⟨hw, hb, ?_⟩
  intro hnever
  have hfalse := run_never_written hrun _ hnever
  rcases hb with h0 | h1
  · exact h0
  · have := hw.1 h1
    rw [hfalse] at this
    cases this

/-- Instance: one frame, page 5 is written, the access to page 6 evicts it. -/
theorem dirty_eviction_iff_written_witness :
    evictionOf 32767 1 .fifo (afterPages 32767 1 .fifo [] [(5, 'W')]) 6
      = some { vpn := 5, dirty := 1 } ∧
    ((1 : Int) = 1 ↔
      (ghostStep 32767 1 .fifo (startDriver 1 []) startGhost 5 'W').written 5 = true) := by
  have hev : evictionOf 32767 1 .fifo (afterPages 32767 1 .fifo [] [(5, 'W')]) 6
      = some { vpn := 5, dirty := 1 } := by decide
  obtain ⟨h1, _⟩ := dirty_eviction_iff_written 32767 1 (by decide) [(5, 'W')]
    (afterPages 32767 1 .fifo [] [(5, 'W')])
    (ghostStep 32767 1 .fifo (startDriver 1 []) startGhost 5 'W')
    (Run.step .fifo 5 'W' (Run.start []) trivial rfl)
  exact ⟨hev, (h1 .fifo 6 _ hev).1⟩

/-- Claim C12. With one frame, for every trace of Read/Write events (at most
INT_MAX of them) and each of the policies FIFO, LRU, Clock and Clean-Clock,
the run completes, counts every event, an event is a page fault exactly when
it is the first event or its page differs from the page of the event right
before it, and so the number of faults is 1 + the number of adjacent page
changes (0 for the empty trace). -/
theorem single_frame_faults (R : Nat) (mode : repl)
    (hmode : mode = .fifo ∨ mode = .lru ∨ mode = ._clock ∨ mode = ._clock_clean)
    (rands : List Nat) (trace : List (Nat × Char))
    (hrw : ∀ r ∈ trace, r.2 = 'R' ∨ r.2 = 'W')
    (hlen : (trace.length : Int) ≤ INT_MAX) :
    (∃ d, runTrace R 1 mode (startDriver 1 rands) trace = .ok d ∧
      d.no_events = trace.length ∧
      d.page_faults = (if trace = [] then 0
        else 1 + adjacentChanges (trace.map (fun r => pageOf r.1)))) ∧
    (∀ (pre : List (Nat × Char)) (r : Nat × Char) (post : List (Nat × Char)),
      trace = pre ++ r :: post →
      ∃ d0, runTrace R 1 mode (startDriver 1 rands) pre = .ok d0 ∧
        (d0.mmu.page_table (pageOf r.1) = -1 ↔
          (pre.getLast?).map (fun x => pageOf x.1) ≠ some (pageOf r.1))) := by
  have hnr : mode ≠ ._random := by
    rcases hmode with e | e | e | e <;> rw [e] <;> decide
  have hstart : DInv 1 (startDriver 1 rands) := dinv_start 1 (le_refl _) rands
  have hvalid : ∀ (l : List (Nat × Char)), (∀ r ∈ l, r.2 = 'R' ∨ r.2 = 'W') →
      ∀ e ∈ l.map (fun r => (pageOf r.1, r.2)),
        (0 ≤ e.1 ∧ e.1 < NUM_PAGES) ∧ (e.2 = 'R' ∨ e.2 = 'W') := by
    intro l hl e he
    obtain ⟨r, hr, rfl⟩ := List.mem_map.1 he
    exact ⟨pageOf_range r.1, hl r hr⟩
  have hfst : ∀ (l : List (Nat × Char)),
      (l.map (fun r => (pageOf r.1, r.2))).map Prod.fst = l.map (fun r => pageOf r.1) := by
    intro l
    rw [List.map_map]
    rfl
  constructor
  · obtain ⟨d, hrun, _, hev, hfaults, _⟩ := single_run R mode hnr
      (trace.map (fun r => (pageOf r.1, r.2))) (startDriver 1 rands) hstart
      (hvalid trace hrw) (by
        rw [List.length_map]
        show (0 : Int) + _ ≤ _
        omega)
    refine ⟨d, hrun, ?_, ?_⟩
    · rw [hev, List.length_map]
      show (0 : Int) + _ = _
      omega
    · rw [hfaults, hfst]
      show (0 : Int) + adjacentChanges ((-1) :: _) = _
      cases trace with
      | nil => simp [adjacentChanges]
      | cons r rest =>
        have hp := (pageOf_range r.1).1
        have hne : ¬ (-1 : Int) = pageOf r.1 := by omega
        simp only [List.map_cons, adjacentChanges, if_neg hne]
        rw [if_neg (List.cons_ne_nil _ _), zero_add]
  · intro pre r post hsplit
    have hpre : ∀ x ∈ pre, x.2 = 'R' ∨ x.2 = 'W' := by
      intro x hx
      exact hrw x (by rw [hsplit]; exact List.mem_append_left _ hx)
    have hlenpre : (pre.length : Int) ≤ INT_MAX := by
      have : trace.length = pre.length + (post.length + 1) := by
        rw [hsplit, List.length_append, List.length_cons]
      omega
    obtain ⟨d0, hrun, hd0, _, _, hlast⟩ := single_run R mode hnr
      (pre.map (fun r => (pageOf r.1, r.2))) (startDriver 1 rands) hstart
      (hvalid pre hpre) (by
        rw [List.length_map]
        show (0 : Int) + _ ≤ _
        omega)
    refine ⟨d0, hrun, ?_⟩
    have hp := pageOf_range r.1
    rw [single_miss_iff hd0 hp, hlast, hfst, List.getLast?_map]
    show (Option.map _ pre.getLast?).getD (-1) ≠ _ ↔ _
    generalize pageOf r.1 = p at hp
    cases pre.getLast? with
    | none =>
      simp only [Option.map_none', Option.getD_none]
      exact ⟨fun _ h => Option.noConfusion h, fun _ => by omega⟩
    | some x =>
      simp only [Option.map_some', Option.getD_some, ne_eq, Option.some.injEq]

/-- Instance: FIFO with one frame on the accesses 0x0000 R, 0x1000 R, 0x0000 R:
three events, three faults, no disk write. -/
theorem single_frame_faults_witness :
    ∃ d, runTrace 32767 1 .fifo (startDriver 1 [])
        [(0x0000, 'R'), (0x1000, 'R'), (0x0000, 'R')] = .ok d ∧
      d.no_events = 3 ∧ d.page_faults = 3 ∧ d.disk_writes = 0 := by
  obtain ⟨⟨d, h1, h2, h3⟩, _⟩ := single_frame_faults 32767 .fifo (Or.inl rfl) []
    [(0x0000, 'R'), (0x1000, 'R'), (0x0000, 'R')] (by decide) (by decide)
  have hd : d = afterTrace 32767 1 .fifo [] [(0x0000, 'R'), (0x1000, 'R'), (0x0000, 'R')] := by
    have h4 : runTrace 32767 1 .fifo (startDriver 1 [])
        [(0x0000, 'R'), (0x1000, 'R'), (0x0000, 'R')]
        = .ok (afterTrace 32767 1 .fifo [] [(0x0000, 'R'), (0x1000, 'R'), (0x0000, 'R')]) :=
      rfl
    rw [h1] at h4
    exact Except.ok.inj h4
  refine ⟨d, h1, h2, ?_, ?_⟩
  · rw [h3]; decide
  · rw [hd]; decide

/-- Claim C13. In every run of the driver with N >= 1 frames, every eviction
under the LRU policy removes a resident page whose most recent access in the
trace (load or hit) is earlier than the most recent access of every other
resident page. -/
theorem lru_evicts_least_recent (R : Nat) (N : Int) (hN : 1 ≤ N)
    (hist : List (Int × Char)) (d : Driver) (g : Ghost)
    (hrun : Run R N (fun _ => True) hist d g)
    (vpn : Int) (ev : evicted_page) (hev : evictionOf R N .lru d vpn = some ev) :
    (0 ≤ ev.vpn ∧ ev.vpn < NUM_PAGES) ∧ d.mmu.page_table ev.vpn ≠ -1 ∧
    ∀ q, 0 ≤ q → q < NUM_PAGES → d.mmu.page_table q ≠ -1 → q ≠ ev.vpn →
      lastSeen hist ev.vpn < lastSeen hist q := by
  have hs := run_seen hN hrun
  have hm := hs.inv.mapped
  have hb := hm.basic
  obtain ⟨_, hfull, _, v, s1, rest, hsel, hv, hres, e⟩ := evictionOf_some hs.inv hev
  have halloc := hs.inv.alloc
  have hused : ∀ f, 0 ≤ f → f < N → (d.mmu.frame_data f).vpn ≠ -1 :=
    fun f h0 h1 => hm.used f h0 (by omega)
  have hmin := selectVictim_lru_min hb hN hused hsel
  have hpr := (hb.vpn v).resolve_left hres
  rw [e]
  refine ⟨hpr, ?_, ?_⟩
  · rw [(hm.maps _ v hpr.1 hpr.2 hv.1 hv.2).2 rfl]
    omega
  · intro q hq0 hq1 hqres hqne
    have hfr := (hm.table q hq0 hq1).resolve_left hqres
    have hq := (hm.maps q _ hq0 hq1 hfr.1 hfr.2).1 rfl
    have hne : d.mmu.page_table q ≠ v := by
      intro e2
      rw [e2] at hq
      exact hqne hq.symm
    have hlt := hmin _ hfr.1 hfr.2 hne
    rw [hs.recent v hv.1 hv.2 hres, hs.recent _ hfr.1 hfr.2 (by rw [hq]; omega), hq] at hlt
    exact hlt

/-- Instance: two frames, reads to pages 0, 1, 0, 2: three faults, no disk
write, and the access to page 2 evicts page 1. -/
theorem lru_evicts_least_recent_witness :
    evictionOf 32767 2 .lru (afterPages 32767 2 .lru [] [(0, 'R'), (1, 'R'), (0, 'R')]) 2
      = some { vpn := 1, dirty := 0 } ∧
    lastSeen [(0, 'R'), (1, 'R'), (0, 'R')] 1 < lastSeen [(0, 'R'), (1, 'R'), (0, 'R')] 0 ∧
    (afterTrace 32767 2 .lru [] [(0x0000, 'R'), (0x1000, 'R'), (0x0000, 'R'),
      (0x2000, 'R')]).page_faults = 3 ∧
    (afterTrace 32767 2 .lru [] [(0x0000, 'R'), (0x1000, 'R'), (0x0000, 'R'),
      (0x2000, 'R')]).disk_writes = 0 := by
  have hev : evictionOf 32767 2 .lru
      (afterPages 32767 2 .lru [] [(0, 'R'), (1, 'R'), (0, 'R')]) 2
      = some { vpn := 1, dirty := 0 } := by decide
  have hpages : runPages 32767 2 .lru (startDriver 2 []) [(0, 'R'), (1, 'R'), (0, 'R')]
      = .ok (afterPages 32767 2 .lru [] [(0, 'R'), (1, 'R'), (0, 'R')]) := rfl
  obtain ⟨g, hr⟩ := run_of_runPages (fun _ => True) repl.lru trivial
    [(0, 'R'), (1, 'R'), (0, 'R')]
    (Run.start []) hpages
  obtain ⟨_, _, h3⟩ := lru_evicts_least_recent 32767 2 (by decide) _ _ g hr 2 _ hev
  exact ⟨hev, h3 0 (by decide) (by decide) (by decide) (by decide), by decide, by decide⟩

/-- Counterexample to claim C14 as stated: on a fresh simulator with two
frames FIFO chooses frame 0, which holds no page, and replacePage neither ends
in the fatal branch nor in another fault: it installs page 7 in frame 0 and
returns with vpn = -1. -/
theorem replacePage_free_frame_counterexample :
    ((fresh 2).frame_data 0).vpn = -1 ∧
    selectVictim 32767 (fresh 2) .fifo [] = .ok (0, { fresh 2 with fifo_hand := 1 }, []) ∧
    replacePage 32767 (fresh 2) 7 .fifo [] ≠ .error .victim_not_set ∧
    (∃ s2 : MMU, replacePage 32767 (fresh 2) 7 .fifo []
        = .ok ({ vpn := -1, dirty := 0 }, 0, s2, []) ∧
      s2.page_table 7 = 0 ∧ (s2.frame_data 0).vpn = 7) := by
  have hsel : selectVictim 32767 (fresh 2) .fifo []
      = .ok (0, { fresh 2 with fifo_hand := 1 }, []) := rfl
  have hrep := replacePage_of_select (p := 7) hsel (by decide) (by decide) (by decide)
    (by decide)
  refine ⟨rfl, hsel, ?_, _, hrep, ?_, ?_⟩
  · rw [hrep]
    intro h
    cases h
  · simp
  · simp

/-- Claim C14, amended. If the frame v of the pool chosen by replacePage holds
no resident page (its vpn is -1), replacePage does not fail (p a page id, clock
below INT_MAX): it returns normally with vpn = -1 and the dirty flag of v,
reports v as the new frame, clears no page-table entry, sets page_table[p] to
v and frame v to (p, dirty 0, access_time the clock before the call, ref 1),
and advances the clock by 1. -/
theorem replacePage_free_frame (R : Nat) (s s1 : MMU) (p v : Int) (mode : repl)
    (rands rest : List Nat)
    (hsel : selectVictim R s mode rands = .ok (v, s1, rest))
    (hv : 0 ≤ v ∧ v < s.numFrames)
    (hfree : (s.frame_data v).vpn = -1)
    (hp : 0 ≤ p ∧ p < NUM_PAGES)
    (ht : s._time < INT_MAX) :
    ∃ s2 : MMU,
      replacePage R s p mode rands
        = .ok ({ vpn := -1, dirty := (s.frame_data v).dirty }, v, s2, rest) ∧
      s2.page_table p = v ∧
      (∀ x, x ≠ p → s2.page_table x = s.page_table x) ∧
      s2.frame_data v = { vpn := p, dirty := 0, access_time := s._time, ref := 1 } ∧
      s2._time = s._time + 1 := by
  obtain ⟨hN, hpt, htime, _, hsame⟩ := selectVictim_frame hsel
  obtain ⟨hvpn, hdirty, _⟩ := hsame v
  have hq1 : ¬ (s1.frame_data v).vpn ≠ -1 := by rw [hvpn, hfree]; simp
  have hrep := replacePage_of_select (p := p) hsel (by rw [hN]; exact hv)
    (fun h => absurd h hq1) hp (by rw [htime]; exact ht)
  rw [if_neg hq1, hvpn, hdirty, hfree] at hrep
  refine ⟨_, hrep, ?_, ?_, ?_, ?_⟩
  · simp
  · intro x hx
    simp only []
    rw [Function.update_noteq hx, hpt]
  · simp [htime]
  · simp [htime]

/-- Instance: LRU on a fresh simulator with two frames chooses the free frame
0. -/
theorem replacePage_free_frame_witness :
    ∃ s2 : MMU, replacePage 32767 (fresh 2) 7 .lru []
        = .ok ({ vpn := -1, dirty := 0 }, 0, s2, []) ∧ s2.page_table 7 = 0 := by
  obtain ⟨s2, h1, h2, _⟩ := replacePage_free_frame 32767 (fresh 2) (fresh 2) 7 0 .lru [] []
    rfl (by decide) rfl (by decide) (by decide)
  exact ⟨s2, h1, h2⟩

/-- Counterexample to claim C15 as stated: createMMU(2) called on the statics
left by a run (clock 4, both hands at 1, two frames allocated) succeeds and
leaves the clock, the hands and the next-free-frame counter as they were. -/
theorem createMMU_stale_counterexample :
    ∃ s : MMU, createMMU usedState 2 true = some s ∧
      s._time = 4 ∧ s.fifo_hand = 1 ∧ s.clock_hand = 1 ∧ s.next_frame = 2 :=
  ⟨_, rfl, by decide, by decide, by decide, by decide⟩

/-- Claim C15, amended. A successful createMMU(N) sets, whatever the statics
were before the call, every page-table entry to -1 and every frame to vpn =
-1, dirty = 0, ref = 0 (and numFrames to N); when the logical clock, the FIFO
hand, the clock hand and the next-free-frame counter are 0 before the call, as
they are at program start, they are 0 afterwards and the result is the fresh
instance. -/
theorem createMMU_effect (s : MMU) (N : Int) :
    ∃ s1 : MMU, createMMU s N true = some s1 ∧ s1.numFrames = N ∧
      (∀ p, s1.page_table p = -1) ∧
      (∀ f, (s1.frame_data f).vpn = -1 ∧ (s1.frame_data f).dirty = 0 ∧
        (s1.frame_data f).ref = 0) ∧
      (s._time = 0 ∧ s.fifo_hand = 0 ∧ s.clock_hand = 0 ∧ s.next_frame = 0 →
        s1._time = 0 ∧ s1.fifo_hand = 0 ∧ s1.clock_hand = 0 ∧ s1.next_frame = 0 ∧
        s1 = fresh N) := by
  refine ⟨_, rfl, rfl, fun _ => rfl, fun _ => ⟨rfl, rfl, rfl⟩, ?_⟩
  rintro ⟨h1, h2, h3, h4⟩
  refine ⟨h1, h2, h3, h4, ?_⟩
  cases s
  simp only at h1 h2 h3 h4
  subst h1 h2 h3 h4
  rfl

/-- Instance: createMMU(3) at program start. -/
theorem createMMU_effect_witness :
    ∃ s1 : MMU, createMMU boot 3 true = some s1 ∧ s1._time = 0 ∧ s1.next_frame = 0 ∧
      s1 = fresh 3 := by
  obtain ⟨s1, h1, _, _, _, h5⟩ := createMMU_effect boot 3
  obtain ⟨h6, _, _, h7, h8⟩ := h5 ⟨rfl, rfl, rfl, rfl⟩
  exact ⟨s1, h1, h6, h7, h8⟩

/-- Claim C16. In every state the driver reaches from createMMU(N), N >= 1, the
driver's allocated count equals the allocator's next-free-frame counter and
is at most N, every frame below it holds a page and every frame at or above
it is free; an iteration of the loop either leaves the counter alone or finds
it below N and adds one (allocateFrame runs only while the counter is below
N); once the counter equals N every frame holds a page; and every eviction
happens with the counter at N and returns a page (vpn different from -1). -/
theorem driver_allocation_invariant (R : Nat) (N : Int) (hN : 1 ≤ N) (d : Driver)
    (hreach : DReach R N d) :
    d.allocated = d.mmu.next_frame ∧ 0 ≤ d.allocated ∧ d.allocated ≤ N ∧
    (∀ f, 0 ≤ f → f < d.allocated → (d.mmu.frame_data f).vpn ≠ -1) ∧
    (∀ f, d.allocated ≤ f → f < N → (d.mmu.frame_data f).vpn = -1) ∧
    (∀ (mode : repl) (vpn : Int) (rw : Char) (d1 : Driver),
      accessPage R N mode d vpn rw = .ok d1 →
      d1.mmu.next_frame = d.mmu.next_frame ∨
      (d.mmu.next_frame < N ∧ d1.mmu.next_frame = d.mmu.next_frame + 1)) ∧
    (d.allocated = N → ∀ f, 0 ≤ f → f < N → (d.mmu.frame_data f).vpn ≠ -1) ∧
    (∀ (mode : repl) (vpn : Int) (ev : evicted_page),
      evictionOf R N mode d vpn = some ev → d.allocated = N ∧ ev.vpn ≠ -1) := by
  have hd := dreach_inv hN hreach
  have hm := hd.mapped
  have hnext := hm.basic.next
  have halloc := hd.alloc
  refine ⟨halloc, by omega, by omega, ?_, ?_, ?_, ?_, ?_⟩
  · intro f h0 h1
    exact hm.used f h0 (by omega)
  · intro f h0 _
    exact hm.free f (Or.inr (by omega))
  · intro mode vpn rw d1 h
    obtain ⟨f, _, _, _, _, _, _, _, hcase⟩ := accessPage_effect hd h
    rcases hcase with c | c | c
    · exact Or.inl c.2.2.2.2.2.2
    · exact Or.inr ⟨c.2.2.1, c.2.2.2.2.2.2.2.2⟩
    · exact Or.inl c.2.2.2.2.2.2.2
  · intro hfull f h0 h1
    exact hm.used f h0 (by omega)
  · intro mode vpn ev hev
    obtain ⟨_, hfull, _, v, s1, rest, _, _, hres, e⟩ := evictionOf_some hd hev
    rw [e]
    exact ⟨hfull, hres⟩

/-- Instance: the driver state after three records with two frames under
LRU. -/
theorem driver_allocation_invariant_witness :
    (afterTrace 32767 2 .lru [] [(0x5000, 'R'), (0x6000, 'W'), (0x7abc, 'R')]).allocated
      = (afterTrace 32767 2 .lru [] [(0x5000, 'R'), (0x6000, 'W'), (0x7abc, 'R')]).mmu.next_frame
    ∧ (afterTrace 32767 2 .lru [] [(0x5000, 'R'), (0x6000, 'W'), (0x7abc, 'R')]).allocated
      ≤ 2 := by
  obtain ⟨h1, _, h3, _⟩ := driver_allocation_invariant 32767 2 (by decide)
    (afterTrace 32767 2 .lru [] [(0x5000, 'R'), (0x6000, 'W'), (0x7abc, 'R')])
    (runTrace_reach .lru [(0x5000, 'R'), (0x6000, 'W'), (0x7abc, 'R')] (DReach.start []) rfl)
  exact ⟨h1, h3⟩

/-- Claim C17. For every N >= 1 (an int, so at most INT_MAX), both hands in
[0, N), reference bits in {0, 1} and each of the five policies (for random:
whatever the oracle of rand() returns), the frame chosen by the selection and
the frame replacePage reports as *new_frame lie in [0, N), both hands stay in
[0, N), replacePage never ends in the fatal victim_frame not set branch, and
the four deterministic policies always choose a frame. -/
theorem victim_always_in_range (R : Nat) (s : MMU) (rands : List Nat)
    (hN : 1 ≤ s.numFrames) (hmax : s.numFrames ≤ INT_MAX)
    (hf : 0 ≤ s.fifo_hand ∧ s.fifo_hand < s.numFrames)
    (hc : 0 ≤ s.clock_hand ∧ s.clock_hand < s.numFrames)
    (hbits : ∀ g, 0 ≤ g → g < s.numFrames →
      (s.frame_data g).ref = 0 ∨ (s.frame_data g).ref = 1) :
    (∀ (mode : repl) (v : Int) (s1 : MMU) (rest : List Nat),
      selectVictim R s mode rands = .ok (v, s1, rest) →
      (0 ≤ v ∧ v < s.numFrames) ∧
      (0 ≤ s1.fifo_hand ∧ s1.fifo_hand < s.numFrames) ∧
      (0 ≤ s1.clock_hand ∧ s1.clock_hand < s.numFrames)) ∧
    (∀ mode : repl, mode ≠ ._random →
      ∃ (v : Int) (s1 : MMU), selectVictim R s mode rands = .ok (v, s1, rands)) ∧
    (∀ (mode : repl) (p : Int), replacePage R s p mode rands ≠ .error .victim_not_set) ∧
    (∀ (mode : repl) (p : Int) (ev : evicted_page) (v : Int) (s2 : MMU) (rest : List Nat),
      replacePage R s p mode rands = .ok (ev, v, s2, rest) →
      (0 ≤ v ∧ v < s.numFrames) ∧
      (0 ≤ s2.fifo_hand ∧ s2.fifo_hand < s.numFrames) ∧
      (0 ≤ s2.clock_hand ∧ s2.clock_hand < s.numFrames)) := by
  have hsel : ∀ (mode : repl) (v : Int) (s1 : MMU) (rest : List Nat),
      selectVictim R s mode rands = .ok (v, s1, rest) →
      (0 ≤ v ∧ v < s.numFrames) ∧
      (0 ≤ s1.fifo_hand ∧ s1.fifo_hand < s.numFrames) ∧
      (0 ≤ s1.clock_hand ∧ s1.clock_hand < s.numFrames) := by
    intro mode v s1 rest h
    obtain ⟨h1, h2, _⟩ := selectVictim_hands h hf hc
    exact ⟨selectVictim_range h hN (fun _ => hmax) hf, h1, h2⟩
  refine ⟨hsel, fun mode hmode => selectVictim_total R mode rands hmode hN hc hbits, ?_, ?_⟩
  · intro mode p hrep
    unfold replacePage at hrep
    split at hrep
    · rename_i e hs
      simp only [Except.error.injEq] at hrep
      exact selectVictim_error hs hrep
    · rename_i v s1 rest hs
      have hv := (hsel mode v s1 rest hs).1
      rw [if_neg (by omega)] at hrep
      split at hrep
      · rename_i e hi
        simp only [Except.error.injEq] at hrep
        rw [installPage_error hi] at hrep
        cases hrep
      · cases hrep
  · intro mode p ev v s2 rest hrep
    obtain ⟨s1, hs, _, hin⟩ := replacePage_ok hrep
    obtain ⟨_, _, _, _, _, _, _, e⟩ := installPage_ok hin
    rw [e]
    exact hsel mode v s1 rest hs

/-- Instance: the three-frame example state under the random policy with the
draws 32767 (rejected) and 7. -/
theorem victim_always_in_range_witness :
    replacePage 32767 mixedState 9 ._random [32767, 7] ≠ .error .victim_not_set ∧
    ∃ (v : Int) (s1 : MMU), selectVictim 32767 mixedState ._clock_clean [32767, 7]
      = .ok (v, s1, [32767, 7]) := by
  obtain ⟨_, h2, h3, _⟩ := victim_always_in_range 32767 mixedState [32767, 7]
    (by decide) (by decide) (by decide) (by decide)
    (fun g h0 h1 => by
      have hg : g = 0 ∨ g = 1 ∨ g = 2 := by
        have h1 : g < 3 := h1
        omega
      rcases hg with e | e | e <;> subst e <;> decide)
  exact ⟨h3 ._random 9, h2 ._clock_clean (by decide)⟩

/-- Claim C18. In every run of the driver that evicts by FIFO only (N >= 1),
the frame under the FIFO hand holds the evicted page, and that page was loaded
before every other resident page: every eviction removes the page that has
been resident for the longest time. -/
theorem fifo_evicts_oldest (R : Nat) (N : Int) (hN : 1 ≤ N)
    (hist : List (Int × Char)) (d : Driver) (g : Ghost)
    (hrun : Run R N (fun m => m = .fifo) hist d g)
    (vpn : Int) (ev : evicted_page) (hev : evictionOf R N .fifo d vpn = some ev) :
    ev.vpn = (d.mmu.frame_data d.mmu.fifo_hand).vpn ∧
    d.mmu.page_table ev.vpn ≠ -1 ∧
    ∀ q, 0 ≤ q → q < NUM_PAGES → d.mmu.page_table q ≠ -1 → q ≠ ev.vpn →
      g.loadedAt ev.vpn < g.loadedAt q := by
  have hs := run_seen hN hrun
  have ho := run_fifoOrder hN hrun
  have hm := hs.inv.mapped
  have hb := hm.basic
  have hfifo := hb.fifo
  obtain ⟨_, hfull, _, v, s1, rest, hsel, hv, hres, e⟩ := evictionOf_some hs.inv hev
  have halloc := hs.inv.alloc
  obtain ⟨_, _, hfh, _⟩ := selectVictim_hands hsel (by rw [hb.frames]; exact hfifo)
    (by rw [hb.frames]; exact hb.clock)
  obtain ⟨evh, _⟩ := hfh rfl
  have hpr := (hb.vpn v).resolve_left hres
  rw [e]
  refine ⟨by rw [evh], ?_, ?_⟩
  · rw [(hm.maps _ v hpr.1 hpr.2 hv.1 hv.2).2 rfl]
    omega
  · intro q hq0 hq1 hqres hqne
    have hfr := (hm.table q hq0 hq1).resolve_left hqres
    have hq := (hm.maps q _ hq0 hq1 hfr.1 hfr.2).1 rfl
    have hne : d.mmu.page_table q ≠ v := by
      intro e2
      rw [e2] at hq
      exact hqne hq.symm
    have hlt := ho.order v (d.mmu.page_table q) hv.1 (by omega) hfr.1 (by omega)
      (by
        unfold beforeFrom
        rw [← evh]
        omega)
    rw [hq] at hlt
    exact hlt

/-- Instance: two frames under FIFO, pages 5 and 6 loaded in that order, a hit
on page 5, then the access to page 7 evicts page 5. -/
theorem fifo_evicts_oldest_witness :
    evictionOf 32767 2 .fifo
        (afterPages 32767 2 .fifo [] [(5, 'R'), (6, 'R'), (5, 'R')]) 7
      = some { vpn := 5, dirty := 0 } ∧
    (afterPages 32767 2 .fifo [] [(5, 'R'), (6, 'R'), (5, 'R')]).mmu.page_table 5 ≠ -1 := by
  have hev : evictionOf 32767 2 .fifo
      (afterPages 32767 2 .fifo [] [(5, 'R'), (6, 'R'), (5, 'R')]) 7
      = some { vpn := 5, dirty := 0 } := by decide
  have hpages : runPages 32767 2 .fifo (startDriver 2 []) [(5, 'R'), (6, 'R'), (5, 'R')]
      = .ok (afterPages 32767 2 .fifo [] [(5, 'R'), (6, 'R'), (5, 'R')]) := rfl
  obtain ⟨g, hr⟩ := run_of_runPages (fun m => m = repl.fifo) repl.fifo rfl
    [(5, 'R'), (6, 'R'), (5, 'R')]
    (Run.start []) hpages
  obtain ⟨_, h2, _⟩ := fifo_evicts_oldest 32767 2 (by decide) _ _ g hr 7 _ hev
  exact ⟨hev, h2⟩

/-- Claim C19. On a replacePage call with mode _clock_clean where no frame of
the pool has both ref = 0 and dirty = 0 at call time (N >= 1, hand c in [0, N),
reference bits 0 or 1): pass 1 runs its N iterations without a victim (after k
of them the hand is at (c + k) mod N), leaves every reference bit cleared and
the hand back at c; pass 2 then stops at its first inspection, clears nothing
and selects frame c itself, whatever its dirty flag and the flags of the
other frames; the hand ends at (c + 1) mod N. -/
theorem clean_clock_fallback (R : Nat) (s : MMU) (rands : List Nat)
    (hN : 1 ≤ s.numFrames)
    (hc : 0 ≤ s.clock_hand ∧ s.clock_hand < s.numFrames)
    (hbits : ∀ g, 0 ≤ g → g < s.numFrames →
      (s.frame_data g).ref = 0 ∨ (s.frame_data g).ref = 1)
    (hnone : ∀ g, 0 ≤ g → g < s.numFrames →
      ¬ ((s.frame_data g).ref = 0 ∧ (s.frame_data g).dirty = 0)) :
    (∀ k : Nat, (k : Int) ≤ s.numFrames →
      cleanPass1 s.numFrames k s.frame_data s.clock_hand
        = .ok (clearRefs s.numFrames s.frame_data s.clock_hand k,
            (s.clock_hand + k) % s.numFrames, -1)) ∧
    cleanPass1 s.numFrames s.numFrames.toNat s.frame_data s.clock_hand
      = .ok (clearRefs s.numFrames s.frame_data s.clock_hand s.numFrames.toNat,
          s.clock_hand, -1) ∧
    (∀ g, 0 ≤ g → g < s.numFrames →
      (clearRefs s.numFrames s.frame_data s.clock_hand s.numFrames.toNat g).ref = 0) ∧
    clockScan s.numFrames 1
        (clearRefs s.numFrames s.frame_data s.clock_hand s.numFrames.toNat) s.clock_hand
      = .ok (clearRefs s.numFrames s.frame_data s.clock_hand s.numFrames.toNat,
          s.clock_hand) ∧
    selectVictim R s ._clock_clean rands
      = .ok (s.clock_hand,
          { s with
            frame_data := clearRefs s.numFrames s.frame_data s.clock_hand s.numFrames.toNat
            clock_hand := (s.clock_hand + 1) % s.numFrames }, rands) ∧
    (∀ (p : Int) (ev : evicted_page) (v : Int) (s2 : MMU) (rest : List Nat),
      replacePage R s p ._clock_clean rands = .ok (ev, v, s2, rest) →
      v = s.clock_hand ∧ ev.dirty = (s.frame_data s.clock_hand).dirty ∧
      s2.clock_hand = (s.clock_hand + 1) % s.numFrames) := by
  have hpos : 0 < s.numFrames := by omega
  have hp1 := cleanPass1_none s.frame_data hc hbits hnone
  have hback : (s.clock_hand + (s.numFrames.toNat : Int)) % s.numFrames = s.clock_hand := by
    rw [Int.toNat_of_nonneg (by omega), Int.add_emod_self, Int.emod_eq_of_lt hc.1 hc.2]
  have hall := clearRefs_all s.frame_data s.clock_hand hpos
  have hsel := selectVictim_clean_none R rands hN hc hbits hnone
  rw [(tmod_succ _ _ hc.1 hc.2).1] at hsel
  refine ⟨hp1, ?_, fun g h0 h1 => hall g ⟨h0, h1⟩, ?_, hsel, ?_⟩
  · have := hp1 s.numFrames.toNat (by rw [Int.toNat_of_nonneg (by omega)])
    rw [hback] at this
    exact this
  · exact clockScan_stop _ hc 0 (by rw [hall s.clock_hand hc]; decide)
  · intro p ev v s2 rest hrep
    obtain ⟨s1, hs, _, hin⟩ := replacePage_ok hrep
    rw [hsel] at hs
    simp only [Except.ok.injEq, Prod.mk.injEq] at hs
    obtain ⟨e1, e2, _⟩ := hs
    obtain ⟨_, _, _, _, _, _, e3, e4⟩ := installPage_ok hin
    rw [e4, e3, ← e2, ← e1]
    refine ⟨rfl, ?_, rfl⟩
    show (clearRefs s.numFrames s.frame_data s.clock_hand s.numFrames.toNat s.clock_hand).dirty
      = _
    rcases clearRefs_fields s.numFrames s.frame_data s.clock_hand s.numFrames.toNat
      s.clock_hand with e | e <;> rw [e]

/-- Instance: two frames, both referenced and clean, hand at 0: frame 0 is
taken although frame 1 is clean too. -/
theorem clean_clock_fallback_witness :
    ∃ s1 : MMU, selectVictim 32767 twoPages ._clock_clean [] = .ok (0, s1, []) ∧
      s1.clock_hand = 1 ∧ (s1.frame_data 1).ref = 0 := by
  obtain ⟨_, _, h3, _, h5, _⟩ := clean_clock_fallback 32767 twoPages []
    (by decide) (by decide)
    (fun g h0 h1 => by
      have hg : g = 0 ∨ g = 1 := by
        have h1 : g < 2 := h1
        omega
      rcases hg with e | e <;> subst e <;> decide)
    (fun g h0 h1 => by
      have hg : g = 0 ∨ g = 1 := by
        have h1 : g < 2 := h1
        omega
      rcases hg with e | e <;> subst e <;> decide)
  exact ⟨_, h5, rfl, h3 1 (by decide) (by decide)⟩

/-- Claim C20. For every N >= 1, hand c in [0, N) and reference bits in {0, 1},
the second-chance loop of Clock and of pass 2 of Clean-Clock terminates: for
some j <= N it returns with every fuel of at least j + 1 inspections (and not
with j), having cleared the reference bits of exactly the j frames passed
over, at the frame (c + j) mod N, whose ref is 0. So it clears at most N bits
and inspects at most N + 1 frames. -/
theorem clock_scan_terminates (N : Int) (fd : Int → frame_entry) (c : Int)
    (hN : 1 ≤ N) (hc : 0 ≤ c ∧ c < N)
    (hbits : ∀ g, 0 ≤ g → g < N → (fd g).ref = 0 ∨ (fd g).ref = 1) :
    ∃ j : Nat, (j : Int) ≤ N ∧
      (∀ fuel : Nat, j + 1 ≤ fuel →
        clockScan N fuel fd c = .ok (clearRefs N fd c j, (c + j) % N)) ∧
      clockScan N j fd c = .error .no_fuel ∧
      clockScan N (N.toNat + 1) fd c = .ok (clearRefs N fd c j, (c + j) % N) ∧
      (clearRefs N fd c j ((c + j) % N)).ref = 0 ∧
      (∀ i : Nat, i < j → (fd ((c + i) % N)).ref = 1 ∧
        (clearRefs N fd c j ((c + i) % N)).ref = 0) ∧
      (∀ g, (∀ i : Nat, i < j → g ≠ (c + i) % N) → clearRefs N fd c j g = fd g) := by
  have hpos : 0 < N := by omega
  obtain ⟨j, hj, href, hzero⟩ := clock_offset_exists hpos fd c hbits
  have hstopbit : (clearRefs N fd c j ((c + j) % N)).ref = 0 := by
    by_cases hlt : (j : Int) < N
    · rw [clearRefs_other _ _ _ j _ (fun i hi e => by
        have := offset_inj hlt (by omega) e
        omega)]
      exact hzero hlt
    · have hjN : (j : Int) = N := by omega
      have h0 : (c + j) % N = (c + (0 : Nat)) % N := by
        rw [hjN]; simp
      rw [h0, clearRefs_passed _ _ _ j 0 (by omega)]
  refine ⟨j, hj, ?_, ?_, ?_, hstopbit, ?_, fun g hg => clearRefs_other _ _ _ j g hg⟩
  · intro fuel hfuel
    have hsplit : fuel = (fuel - j - 1 + 1) + j := by omega
    rw [hsplit, clockScan_pass fd hc j _ hj href]
    exact clockScan_stop _ (offset_range hpos j) _ (by rw [hstopbit]; decide)
  · have := clockScan_pass fd hc j 0 hj href
    rw [Nat.zero_add] at this
    rw [this]
    rfl
  · exact clockScan_result fd hc j hj href (fun h => by rw [hzero h]; decide)
  · intro i hi
    exact ⟨href i hi, by rw [clearRefs_passed _ _ _ j i hi]⟩

/-- Instance: three frames of which frame 0 is referenced, hand at 0. -/
theorem clock_scan_terminates_witness :
    ∃ j : Nat, (j : Int) ≤ 3 ∧
      clockScan 3 (j + 1) mixedState.frame_data 0
        = .ok (clearRefs 3 mixedState.frame_data 0 j, (0 + (j : Int)) % 3) ∧
      clockScan 3 j mixedState.frame_data 0 = .error .no_fuel := by
  obtain ⟨j, h1, h2, h3, _⟩ := clock_scan_terminates 3 mixedState.frame_data 0
    (by decide) (by decide)
    (fun g h0 h1 => by
      have hg : g = 0 ∨ g = 1 ∨ g = 2 := by omega
      rcases hg with e | e | e <;> subst e <;> decide)
  exact ⟨j, h1, h2 (j + 1) (le_refl _), h3⟩

end Memsim
